import Mathlib

/-!
# Verification of the Indonesian statute PDF-to-corpus extractor

This file gives a shallow embedding, in Lean 4, of the pure core of
`src/main.py`: the structure detector `detect_structure`, the text
normalizer `minimal_clean`, the record builder `build_records_per_pdf`
and the catalog loop in `main`, and proves (or refutes) the frozen
specification claims about them.

Modelling conventions:

* A Python `str` is modelled as `List Char`.  The model covers texts
  whose whitespace characters are among space, tab and newline
  (`'\r'` is removed by the extraction layer before any of the code
  modelled here runs; the other rare Python whitespace code points are
  outside the modelled fragment).  On this fragment Python's `\s`,
  `str.strip`/`rstrip` and `str.splitlines` coincide with the
  functions `isWS`, `pstrip`/`rstrip` and `splitlines` below.
* `unicodedata.normalize('NFKC', t)` is the identity on the modelled
  fragment (ASCII text is NFKC-normal), so it is embedded as `nfkc = id`.
* Regular-expression steps are embedded as explicit scanners.  Each
  scanner is written as a structurally recursive state machine (so that
  concrete inputs evaluate by `decide`), and mirrors the leftmost,
  non-overlapping semantics of `re.sub` / `re.finditer`.
-/

/-- Horizontal whitespace: the character class `[ \t]` of the Python code. -/
def isHT (c : Char) : Bool := c == ' ' || c == '\t'

/-- A newline character. -/
def isNl (c : Char) : Bool := c == '\n'

/-- Whitespace as matched by Python's `\s` and stripped by `str.strip`,
restricted to the modelled fragment (space, tab, newline). -/
def isWS (c : Char) : Bool := isHT c || isNl c

/-- Python `str.rstrip()` on the modelled fragment. -/
def rstrip (l : List Char) : List Char := (l.reverse.dropWhile isWS).reverse

/-- Python `str.lstrip()` on the modelled fragment. -/
def lstrip (l : List Char) : List Char := l.dropWhile isWS

/-- Python `str.strip()` on the modelled fragment. -/
def pstrip (l : List Char) : List Char := lstrip (rstrip l)

/-- Python `str.splitlines()` on the modelled fragment: split at `'\n'`,
no trailing empty line (`"a\n" ↦ ["a"]`, `"" ↦ []`, `"\n" ↦ [""]`). -/
def splitlines : List Char → List (List Char)
  | [] => []
  | c :: rest =>
    if c = '\n' then [] :: splitlines rest
    else
      match splitlines rest with
      | [] => [[c]]
      | ln :: lns => (c :: ln) :: lns

/-- `"\n".join` on a list of lines. -/
def joinlines : List (List Char) → List Char
  | [] => []
  | [l] => l
  | l :: ls => l ++ '\n' :: joinlines ls

/-- Step 1 of `minimal_clean`: `t.replace('\x00', '')`. -/
def removeNulls (l : List Char) : List Char := l.filter (fun c => !(c == '\x00'))

/-- Step 2 of `minimal_clean`: `unicodedata.normalize('NFKC', t)`.
NFKC normalization is the identity on the modelled (ASCII) fragment. -/
def nfkc (l : List Char) : List Char := l

/-- Scanner for step 3 of `minimal_clean`, `re.sub(r'-\n\s*', '', t)`,
as a three-state machine over the input.  State `0`: plain copying.
State `1`: the previous character was `'-'` and has not been emitted yet.
State `2`: inside the `\s*` tail of a match, skipping whitespace. -/
def hjGo : Nat → List Char → List Char
  | 1, [] => ['-']
  | _, [] => []
  | 0, c :: rest => if c = '-' then hjGo 1 rest else c :: hjGo 0 rest
  | 1, c :: rest =>
    if c = '\n' then hjGo 2 rest
    else if c = '-' then '-' :: hjGo 1 rest
    else '-' :: c :: hjGo 0 rest
  | 2, c :: rest =>
    if isWS c then hjGo 2 rest
    else if c = '-' then hjGo 1 rest
    else c :: hjGo 0 rest
  | _ + 3, _ :: _ => []

/-- Step 3 of `minimal_clean`: rejoin line-wrapped hyphenation,
`re.sub(r'-\n\s*', '', t)`. -/
def hyphenJoin (l : List Char) : List Char := hjGo 0 l

/-- Flush a pending run of `n` newlines for `re.sub(r'\n{4,}', '\n\n', text)`:
a run of four or more newlines becomes two, shorter runs are kept. -/
def nlFlush (n : Nat) : List Char :=
  if 4 ≤ n then ['\n', '\n'] else List.replicate n '\n'

/-- Scanner for step 5 of `minimal_clean`, `re.sub(r'\n{4,}', '\n\n', text)`:
`n` counts the newlines of the pending (maximal) newline run. -/
def cnGo (n : Nat) : List Char → List Char
  | [] => nlFlush n
  | c :: rest =>
    if c = '\n' then cnGo (n + 1) rest
    else nlFlush n ++ c :: cnGo 0 rest

/-- Step 5 of `minimal_clean`: collapse runs of four or more newlines to two. -/
def collapseNewlines (l : List Char) : List Char := cnGo 0 l

/-- Flush a pending run of horizontal whitespace for
`re.sub(r'[ \t]{2,}', ' ', text)`: a run of two or more space/tab
characters becomes one space, a single character is kept as it is. -/
def htFlush (run : List Char) : List Char :=
  if 2 ≤ run.length then [' '] else run

/-- Scanner for step 6 of `minimal_clean`, `re.sub(r'[ \t]{2,}', ' ', text)`:
`run` is the pending (maximal) run of space/tab characters, in order. -/
def csGo (run : List Char) : List Char → List Char
  | [] => htFlush run
  | c :: rest =>
    if isHT c then csGo (run ++ [c]) rest
    else htFlush run ++ c :: csGo [] rest

/-- Step 6 of `minimal_clean`: collapse runs of two or more spaces/tabs
into a single space, leaving newlines (and lone tabs) alone. -/
def collapseSpaces (l : List Char) : List Char := csGo [] l

/-- The text normalizer `minimal_clean` of `src/main.py` (the non-`None`
branch): strip nulls, NFKC-normalize, rejoin hyphenation, right-strip every
line, collapse runs of four or more newlines to two, collapse runs of two
or more spaces/tabs to one space, and strip the whole text. -/
def minimal_clean (t : List Char) : List Char :=
  let t1 := nfkc (removeNulls t)
  let t2 := hyphenJoin t1
  let lines := (splitlines t2).map rstrip
  let text := joinlines lines
  let text2 := collapseNewlines text
  let text3 := collapseSpaces text2
  pstrip text3

theorem minimal_clean_sample_quad :
    minimal_clean (String.toList "a\n\n\n\nb") = String.toList "a\n\nb" := by decide

theorem minimal_clean_sample_triple :
    minimal_clean (String.toList "a\n\n\nb") = String.toList "a\n\n\nb" := by decide

theorem minimal_clean_sample_hyphen :
    minimal_clean (String.toList "da-\n\nri") = String.toList "dari" := by decide

theorem minimal_clean_sample_dash_ws :
    minimal_clean (String.toList "ab- \ncd") = String.toList "ab-\ncd" := by decide

theorem minimal_clean_sample_second_pass :
    minimal_clean (minimal_clean (String.toList "ab- \ncd")) = String.toList "abcd" := by
  decide

/-! ## Step equations for the scanners -/

theorem hjGo_zero_cons (c : Char) (rest : List Char) :
    hjGo 0 (c :: rest) = if c = '-' then hjGo 1 rest else c :: hjGo 0 rest := rfl

theorem hjGo_one_cons (c : Char) (rest : List Char) :
    hjGo 1 (c :: rest) =
      if c = '\n' then hjGo 2 rest
      else if c = '-' then '-' :: hjGo 1 rest
      else '-' :: c :: hjGo 0 rest := rfl

theorem hjGo_two_cons (c : Char) (rest : List Char) :
    hjGo 2 (c :: rest) =
      if isWS c then hjGo 2 rest
      else if c = '-' then hjGo 1 rest
      else c :: hjGo 0 rest := rfl

theorem cnGo_nil (n : Nat) : cnGo n [] = nlFlush n := rfl

theorem cnGo_cons (n : Nat) (c : Char) (rest : List Char) :
    cnGo n (c :: rest) =
      if c = '\n' then cnGo (n + 1) rest else nlFlush n ++ c :: cnGo 0 rest := rfl

theorem csGo_nil (run : List Char) : csGo run [] = htFlush run := rfl

theorem csGo_cons (run : List Char) (c : Char) (rest : List Char) :
    csGo run (c :: rest) =
      if isHT c then csGo (run ++ [c]) rest else htFlush run ++ c :: csGo [] rest := rfl

theorem splitlines_nl (rest : List Char) : splitlines ('\n' :: rest) = [] :: splitlines rest := by
  simp [splitlines]

theorem splitlines_cons_of_ne (c : Char) (hc : ¬ c = '\n') (rest : List Char) :
    splitlines (c :: rest) =
      match splitlines rest with
      | [] => [[c]]
      | ln :: lns => (c :: ln) :: lns := by
  rw [show splitlines (c :: rest) = if c = '\n' then [] :: splitlines rest
        else match splitlines rest with
          | [] => [[c]]
          | ln :: lns => (c :: ln) :: lns from rfl,
     if_neg hc]

theorem splitlines_cons_cons (c : Char) (hc : ¬ c = '\n') (rest ln : List Char)
    (lns : List (List Char)) (h : splitlines rest = ln :: lns) :
    splitlines (c :: rest) = (c :: ln) :: lns := by
  rw [splitlines_cons_of_ne c hc rest, h]

theorem joinlines_cons_of_ne_nil (l : List Char) (ls : List (List Char)) (h : ls ≠ []) :
    joinlines (l :: ls) = l ++ '\n' :: joinlines ls := by
  cases ls with
  | nil => exact absurd rfl h
  | cons x xs => rfl

/-! ## Helper lemmas for families of inputs with a run of newlines -/

theorem not_mem_affix (x c : Char) (pre post : List Char) (k : Nat)
    (h1 : x ∉ pre) (h2 : x ∉ post) (h3 : ¬ x = c) :
    x ∉ pre ++ (List.replicate k c ++ post) := by
  intro hm
  rcases List.mem_append.mp hm with h | h
  · exact h1 h
  rcases List.mem_append.mp h with h | h
  · exact h3 (List.eq_of_mem_replicate h)
  · exact h2 h

theorem removeNulls_eq_self (l : List Char) (h : ('\x00' : Char) ∉ l) :
    removeNulls l = l := by
  refine List.filter_eq_self.mpr ?_
  intro a ha
  have hne : a ≠ '\x00' := fun e => h (e ▸ ha)
  rw [Bool.not_eq_true', beq_eq_false_iff_ne]
  exact hne

theorem hyphenJoin_eq_self_of_no_dash (l : List Char) (h : ('-' : Char) ∉ l) :
    hyphenJoin l = l := by
  unfold hyphenJoin
  induction l with
  | nil => rfl
  | cons c rest ih =>
    rw [List.mem_cons, not_or] at h
    rw [hjGo_zero_cons, if_neg (fun e => h.1 e.symm), ih h.2]

theorem hjGo_two_skip_ws (k : Nat) (l : List Char) :
    hjGo 2 (List.replicate k '\n' ++ l) = hjGo 2 l := by
  induction k with
  | zero => rfl
  | succ m ih =>
    rw [List.replicate_succ, List.cons_append, hjGo_two_cons, if_pos (by decide)]
    exact ih

theorem splitlines_repl_nl (k : Nat) (x : List Char) :
    splitlines (List.replicate k '\n' ++ x) = List.replicate k [] ++ splitlines x := by
  induction k with
  | zero => rfl
  | succ m ih =>
    rw [List.replicate_succ, List.cons_append, splitlines_nl, ih, List.replicate_succ,
      List.cons_append]

theorem joinlines_repl_nil (m : Nat) (x : List Char) :
    joinlines (List.replicate m [] ++ [x]) = List.replicate m '\n' ++ x := by
  induction m with
  | zero => rfl
  | succ n ih =>
    rw [List.replicate_succ, List.cons_append,
      joinlines_cons_of_ne_nil _ _ (by simp), ih, List.replicate_succ]
    rfl

theorem cnGo_repl (k : Nat) (c : Char) (hc : ¬ c = '\n') (rest : List Char) :
    ∀ n : Nat, cnGo n (List.replicate k '\n' ++ c :: rest) = nlFlush (n + k) ++ c :: cnGo 0 rest := by
  induction k with
  | zero =>
    intro n
    rw [List.replicate, List.nil_append, cnGo_cons, if_neg hc, Nat.add_zero]
  | succ m ih =>
    intro n
    rw [List.replicate_succ, List.cons_append, cnGo_cons, if_pos rfl, ih,
      show n + 1 + m = n + (m + 1) from by omega]

/-! ## Claim C2: blank-line collapsing boundary -/

/-- C2 counterexample: the claim is false on the code.  `"a\n\n\n\nb"` contains a
run of exactly 3 consecutive blank lines (4 newlines), and `minimal_clean`
does not preserve it; `"a\n\n\n\n\nb"` contains a run of 4 consecutive blank
lines (5 newlines) and it is not collapsed to 2 blank lines (`"a\n\n\nb"`)
but to 1 (`"a\n\nb"`): the code's `re.sub(r'\n{4,}', '\n\n', text)` counts
newline characters, not blank lines. -/
theorem C2_counterexample :
    minimal_clean (String.toList "a\n\n\n\nb") ≠ String.toList "a\n\n\n\nb" ∧
      minimal_clean (String.toList "a\n\n\n\n\nb") ≠ String.toList "a\n\n\nb" := by
  decide

/-- C2 (amended): for every run of `k` consecutive newlines between two text
characters, the normalizer preserves the run when `k ≤ 3` (that is, up to 2
consecutive blank lines) and collapses it to exactly 2 newlines (1 blank
line) when `k ≥ 4` (3 or more consecutive blank lines). -/
theorem C2_blank_run_collapse (k : Nat) :
    minimal_clean (['a'] ++ (List.replicate k '\n' ++ ['b'])) =
      if k ≤ 3 then ['a'] ++ (List.replicate k '\n' ++ ['b'])
      else ['a', '\n', '\n', 'b'] := by
  by_cases hk : k ≤ 3
  · rw [if_pos hk]
    interval_cases k <;> decide
  · rw [if_neg hk]
    push_neg at hk
    obtain ⟨m, rfl⟩ : ∃ m, k = m + 1 := ⟨k - 1, by omega⟩
    have h0 : removeNulls (['a'] ++ (List.replicate (m + 1) '\n' ++ ['b'])) =
        ['a'] ++ (List.replicate (m + 1) '\n' ++ ['b']) :=
      removeNulls_eq_self _ (not_mem_affix _ _ _ _ _ (by decide) (by decide) (by decide))
    have h2 : hyphenJoin (['a'] ++ (List.replicate (m + 1) '\n' ++ ['b'])) =
        ['a'] ++ (List.replicate (m + 1) '\n' ++ ['b']) :=
      hyphenJoin_eq_self_of_no_dash _ (not_mem_affix _ _ _ _ _ (by decide) (by decide) (by decide))
    have h3 : splitlines (['a'] ++ (List.replicate (m + 1) '\n' ++ ['b'])) =
        ['a'] :: (List.replicate m [] ++ [['b']]) := by
      rw [List.singleton_append, List.replicate_succ, List.cons_append]
      exact splitlines_cons_cons 'a' (by decide) _ [] _
        (by rw [splitlines_nl, splitlines_repl_nl]; rfl)
    have h4 : ((['a'] : List Char) :: (List.replicate m [] ++ [['b']])).map rstrip =
        ['a'] :: (List.replicate m [] ++ [['b']]) := by
      simp only [List.map_cons, List.map_append, List.map_replicate, List.map_nil,
        show rstrip ['a'] = ['a'] from rfl, show rstrip ([] : List Char) = [] from rfl,
        show rstrip ['b'] = ['b'] from rfl]
    have h5 : joinlines (['a'] :: (List.replicate m [] ++ [['b']])) =
        ['a'] ++ '\n' :: (List.replicate m '\n' ++ ['b']) := by
      rw [joinlines_cons_of_ne_nil _ _ (by simp), joinlines_repl_nil]
    have h6 : collapseNewlines ('a' :: (List.replicate (m + 1) '\n' ++ ['b'])) =
        ['a', '\n', '\n', 'b'] := by
      unfold collapseNewlines
      rw [show ('a' :: (List.replicate (m + 1) '\n' ++ ['b'])) =
            'a' :: (List.replicate (m + 1) '\n' ++ 'b' :: []) from rfl,
        cnGo_cons, if_neg (by decide), cnGo_repl _ _ (by decide),
        show nlFlush 0 = [] from rfl, show 0 + (m + 1) = m + 1 from by omega,
        show nlFlush (m + 1) = ['\n', '\n'] from by unfold nlFlush; rw [if_pos (by omega)]]
      rfl
    simp only [minimal_clean, nfkc]
    rw [h0, h2, h3, h4, h5]
    rw [show (['a'] ++ '\n' :: (List.replicate m '\n' ++ ['b'])) =
          'a' :: (List.replicate (m + 1) '\n' ++ ['b']) from by
        rw [List.singleton_append, List.replicate_succ, List.cons_append]]
    rw [h6]
    decide

/-! ## Claim C10: hyphenation rejoin consumes blank lines -/

/-- C10: when a line ends with a hyphen and is followed by `k` further
newlines (that is, `k` blank lines) before the continuation fragment, the
normalizer deletes the hyphen, the line break and the entire intervening
whitespace run, concatenating the two fragments: `re.sub(r'-\n\s*', '', t)`
consumes whitespace spanning multiple lines.  (The claim's situation of one
or more blank lines is the instances `k ≥ 1`.) -/
theorem C10_hyphen_rejoin_spans_blank_lines (k : Nat) :
    minimal_clean (['d', 'a', '-', '\n'] ++ (List.replicate k '\n' ++ ['r', 'i'])) =
      ['d', 'a', 'r', 'i'] := by
  have h0 : removeNulls (['d', 'a', '-', '\n'] ++ (List.replicate k '\n' ++ ['r', 'i'])) =
      ['d', 'a', '-', '\n'] ++ (List.replicate k '\n' ++ ['r', 'i']) :=
    removeNulls_eq_self _ (not_mem_affix _ _ _ _ _ (by decide) (by decide) (by decide))
  have h2 : hyphenJoin (['d', 'a', '-', '\n'] ++ (List.replicate k '\n' ++ ['r', 'i'])) =
      ['d', 'a', 'r', 'i'] := by
    unfold hyphenJoin
    rw [show (['d', 'a', '-', '\n'] ++ (List.replicate k '\n' ++ ['r', 'i'])) =
          'd' :: 'a' :: '-' :: '\n' :: (List.replicate k '\n' ++ ['r', 'i']) from rfl,
      hjGo_zero_cons, if_neg (by decide), hjGo_zero_cons, if_neg (by decide),
      hjGo_zero_cons, if_pos rfl, hjGo_one_cons, if_pos rfl, hjGo_two_skip_ws]
    decide
  simp only [minimal_clean, nfkc]
  rw [h0, h2]
  decide

/-! ## Claim C5 groundwork: generic list and strip lemmas -/

theorem chain'_of_mem_right {R : Char → Char → Prop} (l : List Char)
    (h : ∀ a b, b ∈ l → R a b) : List.Chain' R l := by
  induction l with
  | nil => exact List.chain'_nil
  | cons c rest ih =>
    rw [List.chain'_cons']
    refine ⟨fun b hb => h c b ?_, ih fun a b hb => h a b (List.mem_cons_of_mem _ hb)⟩
    exact List.mem_cons_of_mem _ (List.mem_of_mem_head? hb)

theorem head?_dropWhile (p : Char → Bool) (l : List Char) (c : Char)
    (h : (l.dropWhile p).head? = some c) : p c = false := by
  induction l with
  | nil => simp [List.dropWhile] at h
  | cons a rest ih =>
    rw [List.dropWhile_cons] at h
    by_cases hp : p a = true
    · rw [if_pos hp] at h; exact ih h
    · rw [if_neg hp] at h
      simp only [List.head?_cons, Option.some.injEq] at h
      subst h
      exact Bool.eq_false_iff.mpr hp

theorem mem_of_getLast? (l : List Char) (c : Char) (h : l.getLast? = some c) : c ∈ l := by
  induction l with
  | nil => simp at h
  | cons a rest ih =>
    cases rest with
    | nil =>
      simp only [List.getLast?_singleton, Option.some.injEq] at h
      subst h; exact List.mem_singleton_self a
    | cons b r =>
      rw [List.getLast?_cons_cons] at h
      exact List.mem_cons_of_mem _ (ih h)

theorem getLast?_decomp (l : List Char) (c : Char) (h : l.getLast? = some c) :
    ∃ init, l = init ++ [c] := by
  rw [← List.head?_reverse] at h
  cases hr : l.reverse with
  | nil => rw [hr] at h; simp at h
  | cons a t =>
    rw [hr] at h
    simp only [List.head?_cons, Option.some.injEq] at h
    subst h
    refine ⟨t.reverse, ?_⟩
    have := congrArg List.reverse hr
    rw [List.reverse_reverse] at this
    rw [this, List.reverse_cons]

theorem rstrip_decomp (l : List Char) :
    ∃ w, l = rstrip l ++ w ∧ ∀ c ∈ w, isWS c = true := by
  refine ⟨(l.reverse.takeWhile isWS).reverse, ?_, ?_⟩
  · unfold rstrip
    have := List.takeWhile_append_dropWhile (p := isWS) (l := l.reverse)
    have h2 := congrArg List.reverse this
    rw [List.reverse_append, List.reverse_reverse] at h2
    exact h2.symm
  · intro c hc
    rw [List.mem_reverse] at hc
    exact List.mem_takeWhile_imp hc

theorem rstrip_getLast (l : List Char) (c : Char) (h : (rstrip l).getLast? = some c) :
    isWS c = false := by
  unfold rstrip at h
  rw [List.getLast?_reverse] at h
  exact head?_dropWhile _ _ _ h

theorem pstrip_head (l : List Char) (c : Char) (h : (pstrip l).head? = some c) :
    isWS c = false := head?_dropWhile _ _ _ h

theorem lstrip_getLast (l : List Char) (c : Char) (h : (lstrip l).getLast? = some c) :
    l.getLast? = some c := by
  unfold lstrip at h
  have hdec := List.takeWhile_append_dropWhile (p := isWS) (l := l)
  rw [← hdec, List.getLast?_append_of_ne_nil]
  · exact h
  · intro hnil
    rw [hnil] at h
    simp at h

theorem pstrip_getLast (l : List Char) (c : Char) (h : (pstrip l).getLast? = some c) :
    isWS c = false := by
  unfold pstrip at h
  exact rstrip_getLast l c (lstrip_getLast _ c h)

theorem chain'_rstrip {R : Char → Char → Prop} (l : List Char) (h : List.Chain' R l) :
    List.Chain' R (rstrip l) := by
  obtain ⟨w, hw, -⟩ := rstrip_decomp l
  rw [hw, List.chain'_append] at h
  exact h.1

theorem chain'_lstrip {R : Char → Char → Prop} (l : List Char) (h : List.Chain' R l) :
    List.Chain' R (lstrip l) := by
  have hdec := List.takeWhile_append_dropWhile (p := isWS) (l := l)
  rw [← hdec, List.chain'_append] at h
  exact h.2.1

theorem chain'_pstrip {R : Char → Char → Prop} (l : List Char) (h : List.Chain' R l) :
    List.Chain' R (pstrip l) := chain'_lstrip _ (chain'_rstrip _ h)

theorem rstrip_eq_self_of_getLast (l : List Char)
    (h : ∀ c, l.getLast? = some c → isWS c = false) : rstrip l = l := by
  unfold rstrip
  cases hr : l.reverse with
  | nil =>
    have : l = [] := by simpa using congrArg List.reverse hr
    subst this; rfl
  | cons c r =>
    have hc : isWS c = false := h c (by rw [← List.head?_reverse, hr]; rfl)
    rw [List.dropWhile_cons, if_neg (by simp [hc]), ← hr, List.reverse_reverse]

theorem lstrip_eq_self_of_head (l : List Char)
    (h : ∀ c, l.head? = some c → isWS c = false) : lstrip l = l := by
  unfold lstrip
  cases l with
  | nil => rfl
  | cons c rest =>
    rw [List.dropWhile_cons, if_neg (by simp [h c rfl])]

theorem pstrip_eq_self (l : List Char)
    (h1 : ∀ c, l.head? = some c → isWS c = false)
    (h2 : ∀ c, l.getLast? = some c → isWS c = false) : pstrip l = l := by
  unfold pstrip
  rw [rstrip_eq_self_of_getLast l h2, lstrip_eq_self_of_head l h1]

theorem rstrip_cons_of (c : Char) (l : List Char)
    (h : ¬(isWS c = true ∧ rstrip l = [])) : rstrip (c :: l) = c :: rstrip l := by
  unfold rstrip
  rw [show (c :: l).reverse = l.reverse ++ [c] from by simp, List.dropWhile_append]
  by_cases he : (List.dropWhile isWS l.reverse).isEmpty = true
  · have hre : rstrip l = [] := by
      unfold rstrip
      rw [List.isEmpty_iff] at he
      rw [he]; rfl
    have hcws : ¬ isWS c = true := fun hc => h ⟨hc, hre⟩
    rw [if_pos he, List.dropWhile_cons, if_neg (by simpa using hcws)]
    simp only [List.dropWhile_nil, List.reverse_cons, List.reverse_nil, List.nil_append]
    unfold rstrip at hre
    rw [hre]
  · rw [if_neg he, List.reverse_append]
    rfl

/-! ## Structural facts about `splitlines` -/

theorem dropLast_cons₂ (a b : List Char) (l : List (List Char)) :
    (a :: b :: l).dropLast = a :: (b :: l).dropLast := rfl

theorem getLast?_cons_ne_nil (a : Char) (l : List Char) (h : l ≠ []) :
    (a :: l).getLast? = l.getLast? := by
  cases l with
  | nil => exact absurd rfl h
  | cons b r => exact List.getLast?_cons_cons

theorem splitlines_eq_nil_iff (l : List Char) : splitlines l = [] ↔ l = [] := by
  constructor
  · intro h
    cases l with
    | nil => rfl
    | cons c rest =>
      by_cases hc : c = '\n'
      · subst hc; rw [splitlines_nl] at h; simp at h
      · rw [splitlines_cons_of_ne c hc] at h
        cases hs : splitlines rest with
        | nil => rw [hs] at h; simp at h
        | cons a as => rw [hs] at h; simp at h
  · intro h; subst h; rfl

theorem splitlines_no_nl (l : List Char) : ∀ ln ∈ splitlines l, '\n' ∉ ln := by
  induction l with
  | nil => intro ln h; simp [splitlines] at h
  | cons c rest ih =>
    intro ln hln
    by_cases hc : c = '\n'
    · subst hc
      rw [splitlines_nl] at hln
      rcases List.mem_cons.mp hln with rfl | h
      · simp
      · exact ih ln h
    · rw [splitlines_cons_of_ne c hc] at hln
      cases hs : splitlines rest with
      | nil =>
        rw [hs] at hln
        simp only [List.mem_singleton] at hln
        subst hln
        intro hm
        simp only [List.mem_singleton] at hm
        exact hc hm.symm
      | cons a as =>
        rw [hs] at hln
        rcases List.mem_cons.mp hln with rfl | h
        · intro hm
          rcases List.mem_cons.mp hm with h' | h'
          · exact hc h'.symm
          · exact ih a (by rw [hs]; exact List.mem_cons_self _ _) h'
        · exact ih ln (by rw [hs]; exact List.mem_cons_of_mem _ h)

theorem splitlines_structure (rest : List Char) : ∀ (ln0 : List Char) (lns : List (List Char)),
    splitlines rest = ln0 :: lns → lns ≠ [] →
    ∃ suf, rest = ln0 ++ '\n' :: suf ∧ splitlines suf = lns := by
  induction rest with
  | nil => intro ln0 lns h _; simp [splitlines] at h
  | cons d r ih =>
    intro ln0 lns h h2
    by_cases hd : d = '\n'
    · subst hd
      rw [splitlines_nl] at h
      injection h with h1 h3
      subst h1
      exact ⟨r, rfl, h3⟩
    · rw [splitlines_cons_of_ne d hd] at h
      cases hs : splitlines r with
      | nil =>
        rw [hs] at h
        injection h with h1 h3
        exact absurd h3.symm h2
      | cons a as =>
        rw [hs] at h
        injection h with h1 h3
        subst h1
        obtain ⟨suf, hr, hsuf⟩ := ih a as hs (by rw [h3]; exact h2)
        exact ⟨suf, by rw [hr]; rfl, h3 ▸ hsuf⟩

theorem splitlines_singleton (l : List Char) : ∀ ln : List Char, splitlines l = [ln] →
    l = ln ∨ l = ln ++ ['\n'] := by
  induction l with
  | nil => intro ln h; simp [splitlines] at h
  | cons c rest ih =>
    intro ln h
    by_cases hc : c = '\n'
    · subst hc
      rw [splitlines_nl] at h
      injection h with h1 h2
      subst h1
      have : rest = [] := (splitlines_eq_nil_iff rest).mp h2
      subst this
      right; rfl
    · rw [splitlines_cons_of_ne c hc] at h
      cases hs : splitlines rest with
      | nil =>
        rw [hs] at h
        injection h with h1 h2
        have hr : rest = [] := (splitlines_eq_nil_iff rest).mp hs
        subst hr
        left
        rw [← h1]
      | cons a as =>
        rw [hs] at h
        injection h with h1 h2
        subst h2
        rcases ih a hs with h3 | h3
        · left; rw [← h1, h3]
        · right; rw [← h1, h3]; rfl

theorem mem_dropLast_splitlines (v : List Char) : ∀ ln : List Char,
    ln ∈ (splitlines v).dropLast → ∃ pre suf, v = pre ++ (ln ++ '\n' :: suf) := by
  induction v with
  | nil => intro ln h; simp [splitlines] at h
  | cons c rest ih =>
    intro ln h
    by_cases hc : c = '\n'
    · subst hc
      rw [splitlines_nl] at h
      cases hs : splitlines rest with
      | nil => rw [hs] at h; simp at h
      | cons x xs =>
        rw [hs, dropLast_cons₂] at h
        rcases List.mem_cons.mp h with rfl | h
        · exact ⟨[], rest, by simp⟩
        · obtain ⟨pre, suf, hv⟩ := ih ln (by rw [hs]; exact h)
          exact ⟨'\n' :: pre, suf, by rw [hv]; rfl⟩
    · rw [splitlines_cons_of_ne c hc] at h
      cases hs : splitlines rest with
      | nil => rw [hs] at h; simp at h
      | cons a as =>
        rw [hs] at h
        cases has : as with
        | nil => rw [has] at h; simp at h
        | cons b bs =>
          rw [has, dropLast_cons₂] at h
          rcases List.mem_cons.mp h with rfl | h
          · obtain ⟨suf, hr, -⟩ :=
              splitlines_structure rest a (b :: bs) (by rw [hs, has]) (by simp)
            exact ⟨[], suf, by rw [List.nil_append, hr]; rfl⟩
          · obtain ⟨pre, suf, hv⟩ :=
              ih ln (by rw [hs, has, dropLast_cons₂]; exact List.mem_cons_of_mem _ h)
            exact ⟨c :: pre, suf, by rw [hv]; rfl⟩

theorem mem_of_mem_splitlines (l : List Char) : ∀ (ln : List Char) (c : Char),
    ln ∈ splitlines l → c ∈ ln → c ∈ l := by
  induction l with
  | nil => intro ln c h _; simp [splitlines] at h
  | cons d rest ih =>
    intro ln c hln hc
    by_cases hd : d = '\n'
    · subst hd
      rw [splitlines_nl] at hln
      rcases List.mem_cons.mp hln with rfl | h
      · simp at hc
      · exact List.mem_cons_of_mem _ (ih ln c h hc)
    · rw [splitlines_cons_of_ne d hd] at hln
      cases hs : splitlines rest with
      | nil =>
        rw [hs] at hln
        simp only [List.mem_singleton] at hln
        subst hln
        simp only [List.mem_singleton] at hc
        subst hc
        exact List.mem_cons_self _ _
      | cons a as =>
        rw [hs] at hln
        rcases List.mem_cons.mp hln with rfl | h
        · rcases List.mem_cons.mp hc with rfl | h'
          · exact List.mem_cons_self _ _
          · exact List.mem_cons_of_mem _
              (ih a c (by rw [hs]; exact List.mem_cons_self _ _) h')
        · exact List.mem_cons_of_mem _
            (ih ln c (by rw [hs]; exact List.mem_cons_of_mem _ h) hc)

/-! ## Facts about `joinlines` -/

theorem joinlines_cons_head (c : Char) (x : List Char) (xs : List (List Char)) :
    joinlines ((c :: x) :: xs) = c :: joinlines (x :: xs) := by
  cases xs with
  | nil => rfl
  | cons y ys => rfl

theorem joinlines_head_mem (ls : List (List Char)) (c : Char)
    (h : (joinlines ls).head? = some c) :
    (∃ ln ∈ ls, ln.head? = some c) ∨ c = '\n' := by
  cases ls with
  | nil => simp [joinlines] at h
  | cons x xs =>
    cases xs with
    | nil => exact Or.inl ⟨x, List.mem_singleton_self x, h⟩
    | cons y ys =>
      rw [show joinlines (x :: y :: ys) = x ++ '\n' :: joinlines (y :: ys) from rfl] at h
      cases x with
      | nil =>
        right
        simp only [List.nil_append, List.head?_cons, Option.some.injEq] at h
        exact h.symm
      | cons a t =>
        left
        refine ⟨a :: t, List.mem_cons_self _ _, ?_⟩
        simp only [List.cons_append, List.head?_cons, Option.some.injEq] at h ⊢
        exact h

theorem mem_joinlines (ls : List (List Char)) (c : Char) (h : c ∈ joinlines ls) :
    c = '\n' ∨ ∃ ln ∈ ls, c ∈ ln := by
  induction ls with
  | nil => simp [joinlines] at h
  | cons x xs ih =>
    cases xs with
    | nil => exact Or.inr ⟨x, List.mem_singleton_self x, h⟩
    | cons y ys =>
      rw [show joinlines (x :: y :: ys) = x ++ '\n' :: joinlines (y :: ys) from rfl] at h
      rcases List.mem_append.mp h with h | h
      · exact Or.inr ⟨x, List.mem_cons_self _ _, h⟩
      · rcases List.mem_cons.mp h with rfl | h
        · exact Or.inl rfl
        · rcases ih h with h | ⟨ln, hln, hc⟩
          · exact Or.inl h
          · exact Or.inr ⟨ln, List.mem_cons_of_mem _ hln, hc⟩

theorem joinlines_chain' {R : Char → Char → Prop} (hR : R '\n' '\n') :
    ∀ ls : List (List Char),
      (∀ ln ∈ ls, List.Chain' R ln) →
      (∀ ln ∈ ls, ∀ c, ln.head? = some c → R '\n' c) →
      (∀ ln ∈ ls.dropLast, ∀ c, ln.getLast? = some c → R c '\n') →
      List.Chain' R (joinlines ls) := by
  intro ls
  induction ls with
  | nil => intro _ _ _; exact List.chain'_nil
  | cons x xs ih =>
    intro hline hhead hlast
    cases xs with
    | nil => exact hline x (List.mem_singleton_self x)
    | cons y ys =>
      rw [show joinlines (x :: y :: ys) = x ++ '\n' :: joinlines (y :: ys) from rfl,
        List.chain'_append]
      refine ⟨hline x (List.mem_cons_self _ _), ?_, ?_⟩
      · rw [List.chain'_cons']
        constructor
        · intro b hb
          rcases joinlines_head_mem (y :: ys) b hb with ⟨ln, hln, hhd⟩ | rfl
          · exact hhead ln (List.mem_cons_of_mem _ hln) b hhd
          · exact hR
        · exact ih (fun ln h => hline ln (List.mem_cons_of_mem _ h))
            (fun ln h => hhead ln (List.mem_cons_of_mem _ h))
            (fun ln h => hlast ln (by rw [dropLast_cons₂]; exact List.mem_cons_of_mem _ h))
      · intro a ha b hb
        simp only [List.head?_cons, Option.mem_def, Option.some.injEq] at hb
        subst hb
        exact hlast x (by rw [dropLast_cons₂]; exact List.mem_cons_self _ _) a ha

/-! ## Whitespace classification helpers -/

theorem isWS_of_isHT (c : Char) (h : isHT c = true) : isWS c = true := by
  unfold isWS
  rw [h, Bool.true_or]

theorem isHT_of_isWS_ne_nl (c : Char) (h : isWS c = true) (hc : c ≠ '\n') : isHT c = true := by
  unfold isWS at h
  rcases Bool.or_eq_true_iff.mp h with h | h
  · exact h
  · unfold isNl at h
    exact absurd (beq_iff_eq.mp h) hc

theorem last_of_all_ht (c : Char) (a : List Char) (hc : isHT c = true)
    (ha : ∀ x ∈ a, isHT x = true) :
    ∃ z, (c :: a).getLast? = some z ∧ isHT z = true := by
  cases hL : a.getLast? with
  | none =>
    have h0 : a = [] := List.getLast?_eq_none_iff.mp hL
    subst h0
    exact ⟨c, rfl, hc⟩
  | some z =>
    have hz : z ∈ a := mem_of_getLast? a z hL
    refine ⟨z, ?_, ha z hz⟩
    rw [getLast?_cons_ne_nil _ _ (by
      rintro rfl
      rw [List.getLast?_eq_none_iff.mpr rfl] at hL
      exact absurd hL (by simp)), hL]

/-- If `l` has no horizontal whitespace immediately before a newline and its
final character is not whitespace, then splitting into lines, right-stripping
every line and rejoining with newlines reproduces `l` — the fixed-point fact
for the per-line `rstrip` step of `minimal_clean`. -/
theorem join_rstrip_splitlines_eq_self (l : List Char)
    (hch : List.Chain' (fun a b => isHT a = true → b ≠ '\n') l)
    (hlast : ∀ c, l.getLast? = some c → isWS c = false) :
    joinlines ((splitlines l).map rstrip) = l := by
  induction l with
  | nil => rfl
  | cons c rest ih =>
    by_cases hc : c = '\n'
    · subst hc
      have hr : rest ≠ [] := by
        intro h0
        subst h0
        exact absurd (hlast '\n' rfl) (by decide)
      rw [splitlines_nl, List.map_cons,
        joinlines_cons_of_ne_nil _ _ (by
          intro hnil
          rw [List.map_eq_nil_iff] at hnil
          exact hr ((splitlines_eq_nil_iff rest).mp hnil)),
        show rstrip [] = [] from rfl, List.nil_append]
      congr 1
      exact ih (List.chain'_cons'.mp hch).2
        (fun c' h => hlast c' (by rw [getLast?_cons_ne_nil _ _ hr]; exact h))
    · cases hs : splitlines rest with
      | nil =>
        have hr : rest = [] := (splitlines_eq_nil_iff rest).mp hs
        subst hr
        rw [splitlines_cons_of_ne c hc]
        show rstrip [c] = [c]
        refine rstrip_eq_self_of_getLast [c] (fun c' h' => ?_)
        simp only [List.getLast?_singleton, Option.some.injEq] at h'
        subst h'
        exact hlast c rfl
      | cons a as =>
        rw [splitlines_cons_cons c hc rest a as hs, List.map_cons]
        have hna : rstrip (c :: a) = c :: rstrip a := by
          apply rstrip_cons_of
          rintro ⟨hws, hra⟩
          have hht : isHT c = true := isHT_of_isWS_ne_nl c hws hc
          have hall : ∀ x ∈ a, isHT x = true := by
            intro x hx
            obtain ⟨w, hw, hws'⟩ := rstrip_decomp a
            rw [hra, List.nil_append] at hw
            have hxws : isWS x = true := hws' x (hw ▸ hx)
            have hxnl : x ≠ '\n' :=
              fun e => splitlines_no_nl rest a
                (by rw [hs]; exact List.mem_cons_self _ _) (e ▸ hx)
            exact isHT_of_isWS_ne_nl x hxws hxnl
          cases has2 : as with
          | nil =>
            rcases splitlines_singleton rest a (by rw [hs, has2]) with h3 | h3
            · obtain ⟨z, hz, hzht⟩ := last_of_all_ht c a hht hall
              have hA := isWS_of_isHT z hzht
              rw [hlast z (by rw [h3]; exact hz)] at hA
              simp at hA
            · have hA := hlast '\n' (by
                rw [h3, getLast?_cons_ne_nil _ _ (by simp), List.getLast?_concat])
              exact absurd hA (by decide)
          | cons b bs =>
            obtain ⟨suf, hr3, -⟩ :=
              splitlines_structure rest a as hs (by rw [has2]; simp)
            rw [hr3, ← List.cons_append] at hch
            obtain ⟨-, -, hjunc⟩ := List.chain'_append.mp hch
            obtain ⟨z, hz, hzht⟩ := last_of_all_ht c a hht hall
            exact hjunc z (by rw [hz]; rfl) '\n' rfl hzht rfl
        rw [hna, joinlines_cons_head]
        congr 1
        have hrne : rest ≠ [] := by
          intro h0
          rw [h0] at hs
          simp [splitlines] at hs
        show joinlines (List.map rstrip (a :: as)) = rest
        rw [← hs]
        exact ih (List.chain'_cons'.mp hch).2
          (fun c' h => hlast c' (by rw [getLast?_cons_ne_nil _ _ hrne]; exact h))

/-! ## Newline-run accounting for the `\n{4,}` collapse -/

/-- Length of the leading newline run of a list. -/
def nlRun : List Char → Nat
  | [] => 0
  | c :: rest => if c = '\n' then nlRun rest + 1 else 0

/-- Whether a run of four or more consecutive newlines occurs in `l`. -/
def hasQuadNl : List Char → Bool
  | [] => false
  | c :: rest => (decide (c = '\n') && decide (3 ≤ nlRun rest)) || hasQuadNl rest

theorem nlRun_cons (c : Char) (rest : List Char) :
    nlRun (c :: rest) = if c = '\n' then nlRun rest + 1 else 0 := rfl

theorem hasQuadNl_cons (c : Char) (rest : List Char) :
    hasQuadNl (c :: rest) =
      ((decide (c = '\n') && decide (3 ≤ nlRun rest)) || hasQuadNl rest) := rfl

theorem hasQuadNl_tail (c : Char) (rest : List Char) (h : hasQuadNl (c :: rest) = false) :
    hasQuadNl rest = false := by
  rw [hasQuadNl_cons] at h
  exact (Bool.or_eq_false_iff.mp h).2

theorem nlRun_le_of_no_quad (l : List Char) (h : hasQuadNl l = false) : nlRun l ≤ 3 := by
  induction l with
  | nil => simp [nlRun]
  | cons c rest ih =>
    rw [nlRun_cons]
    by_cases hc : c = '\n'
    · rw [if_pos hc]
      rw [hasQuadNl_cons] at h
      rcases Bool.or_eq_false_iff.mp h with ⟨h1, -⟩
      rw [hc] at h1
      rw [show decide (('\n' : Char) = '\n') = true from by decide, Bool.true_and,
        decide_eq_false_iff_not] at h1
      omega
    · rw [if_neg hc]; omega

theorem cnGo_eq_self_of_le (l : List Char) : ∀ n : Nat, hasQuadNl l = false →
    n + nlRun l ≤ 3 → cnGo n l = List.replicate n '\n' ++ l := by
  induction l with
  | nil =>
    intro n _ hn
    rw [cnGo_nil]
    unfold nlFlush
    rw [if_neg (by simp [nlRun] at hn; omega)]
    simp
  | cons c rest ih =>
    intro n hq hn
    rw [cnGo_cons]
    by_cases hc : c = '\n'
    · subst hc
      rw [if_pos rfl, ih (n + 1) (hasQuadNl_tail _ _ hq) (by
        rw [nlRun_cons, if_pos rfl] at hn; omega)]
      rw [List.replicate_succ', List.append_assoc]
      rfl
    · rw [if_neg hc, ih 0 (hasQuadNl_tail _ _ hq) (by
        have := nlRun_le_of_no_quad rest (hasQuadNl_tail _ _ hq); omega)]
      unfold nlFlush
      rw [if_neg (by rw [nlRun_cons, if_neg hc] at hn; omega)]
      simp

theorem collapseNewlines_eq_self (l : List Char) (h : hasQuadNl l = false) :
    collapseNewlines l = l := by
  unfold collapseNewlines
  rw [cnGo_eq_self_of_le l 0 h (by have := nlRun_le_of_no_quad l h; omega)]
  rfl

theorem nlFlush_eq_replicate (n : Nat) : ∃ k ≤ 3, nlFlush n = List.replicate k '\n' := by
  unfold nlFlush
  by_cases hn : 4 ≤ n
  · exact ⟨2, by omega, by rw [if_pos hn]; rfl⟩
  · exact ⟨n, by omega, by rw [if_neg hn]⟩

theorem hasQuadNl_of_no_nl (l : List Char) (h : ∀ x ∈ l, x ≠ '\n') : hasQuadNl l = false := by
  induction l with
  | nil => rfl
  | cons c rest ih =>
    rw [hasQuadNl_cons, Bool.or_eq_false_iff]
    refine ⟨?_, ih fun x hx => h x (List.mem_cons_of_mem _ hx)⟩
    rw [Bool.and_eq_false_iff]
    exact Or.inl (decide_eq_false (h c (List.mem_cons_self _ _)))

theorem nlRun_replicate_cons (k : Nat) (c : Char) (hc : c ≠ '\n') (X : List Char) :
    nlRun (List.replicate k '\n' ++ c :: X) = k := by
  induction k with
  | zero => rw [List.replicate, List.nil_append, nlRun_cons, if_neg hc]
  | succ m ih => rw [List.replicate_succ, List.cons_append, nlRun_cons, if_pos rfl, ih]

theorem quad_prepend_nl (k : Nat) (hk : k ≤ 3) (c : Char) (hc : c ≠ '\n') (X : List Char)
    (h : hasQuadNl (c :: X) = false) :
    hasQuadNl (List.replicate k '\n' ++ c :: X) = false := by
  induction k with
  | zero => rw [List.replicate, List.nil_append]; exact h
  | succ m ih =>
    rw [List.replicate_succ, List.cons_append, hasQuadNl_cons, Bool.or_eq_false_iff]
    refine ⟨?_, ih (by omega)⟩
    rw [Bool.and_eq_false_iff]
    right
    rw [nlRun_replicate_cons m c hc X]
    exact decide_eq_false (by omega)

theorem hasQuadNl_replicate_le (k : Nat) (hk : k ≤ 3) :
    hasQuadNl (List.replicate k '\n') = false := by
  interval_cases k <;> decide

theorem hasQuadNl_cnGo (l : List Char) : ∀ n : Nat, hasQuadNl (cnGo n l) = false := by
  induction l with
  | nil =>
    intro n
    rw [cnGo_nil]
    obtain ⟨k, hk, he⟩ := nlFlush_eq_replicate n
    rw [he]
    exact hasQuadNl_replicate_le k hk
  | cons c rest ih =>
    intro n
    rw [cnGo_cons]
    by_cases hc : c = '\n'
    · rw [if_pos hc]; exact ih (n + 1)
    · rw [if_neg hc]
      obtain ⟨k, hk, he⟩ := nlFlush_eq_replicate n
      rw [he]
      refine quad_prepend_nl k hk c hc _ ?_
      rw [hasQuadNl_cons, Bool.or_eq_false_iff]
      exact ⟨by rw [Bool.and_eq_false_iff]; exact Or.inl (decide_eq_false hc), ih 0⟩

/-! ## Quad-newline transport through the space collapser and strip -/

theorem nlRun_csGo_pos (l : List Char) : ∀ run : List Char, run ≠ [] →
    (∀ x ∈ run, isHT x = true) → nlRun (csGo run l) = 0 := by
  induction l with
  | nil =>
    intro run hne hht
    rw [csGo_nil]
    unfold htFlush
    by_cases h2 : 2 ≤ run.length
    · rw [if_pos h2]; rfl
    · rw [if_neg h2]
      cases run with
      | nil => exact absurd rfl hne
      | cons a r =>
        have ha : a ≠ '\n' := by
          intro he
          have hx := hht a (List.mem_cons_self _ _)
          rw [he] at hx
          exact absurd hx (by decide)
        rw [nlRun_cons, if_neg ha]
  | cons c rest ih =>
    intro run hne hht
    rw [csGo_cons]
    by_cases hch : isHT c = true
    · rw [if_pos hch]
      refine ih (run ++ [c]) (by simp) ?_
      intro x hx
      rcases List.mem_append.mp hx with hx | hx
      · exact hht x hx
      · rw [List.mem_singleton.mp hx]; exact hch
    · rw [if_neg hch]
      unfold htFlush
      by_cases h2 : 2 ≤ run.length
      · rw [if_pos h2]; rfl
      · rw [if_neg h2]
        cases run with
        | nil => exact absurd rfl hne
        | cons a r =>
          have ha : a ≠ '\n' := by
            intro he
            have hx := hht a (List.mem_cons_self _ _)
            rw [he] at hx
            exact absurd hx (by decide)
          rw [List.cons_append, nlRun_cons, if_neg ha]

theorem nlRun_csGo_zero (l : List Char) : nlRun (csGo [] l) = nlRun l := by
  induction l with
  | nil => rfl
  | cons c rest ih =>
    rw [csGo_cons]
    by_cases hch : isHT c = true
    · have hcn : c ≠ '\n' := by
        intro he
        rw [he] at hch
        exact absurd hch (by decide)
      rw [if_pos hch, show ([] : List Char) ++ [c] = [c] from rfl,
        nlRun_csGo_pos rest [c] (by simp) (fun x hx => by rw [List.mem_singleton.mp hx]; exact hch),
        nlRun_cons, if_neg hcn]
    · rw [if_neg hch, show htFlush [] = [] from rfl, List.nil_append, nlRun_cons, nlRun_cons]
      by_cases hcn : c = '\n'
      · rw [if_pos hcn, if_pos hcn, ih]
      · rw [if_neg hcn, if_neg hcn]

theorem hasQuadNl_append_no_nl (A X : List Char) (hA : ∀ x ∈ A, x ≠ '\n') :
    hasQuadNl (A ++ X) = hasQuadNl X := by
  induction A with
  | nil => rfl
  | cons a A' ih =>
    rw [List.cons_append, hasQuadNl_cons, ih (fun x hx => hA x (List.mem_cons_of_mem _ hx)),
      show decide (a = '\n') = false from decide_eq_false (hA a (List.mem_cons_self _ _)),
      Bool.false_and, Bool.false_or]

theorem no_nl_htFlush (run : List Char) (hht : ∀ x ∈ run, isHT x = true) :
    ∀ x ∈ htFlush run, x ≠ '\n' := by
  intro x hx
  unfold htFlush at hx
  by_cases h2 : 2 ≤ run.length
  · rw [if_pos h2] at hx
    rw [List.mem_singleton.mp hx]; decide
  · rw [if_neg h2] at hx
    intro he
    have h3 := hht x hx
    rw [he] at h3
    exact absurd h3 (by decide)

theorem hasQuadNl_csGo (l : List Char) : ∀ run : List Char, (∀ x ∈ run, isHT x = true) →
    hasQuadNl l = false → hasQuadNl (csGo run l) = false := by
  induction l with
  | nil =>
    intro run hht _
    rw [csGo_nil]
    exact hasQuadNl_of_no_nl _ (no_nl_htFlush run hht)
  | cons c rest ih =>
    intro run hht hq
    rw [csGo_cons]
    by_cases hch : isHT c = true
    · rw [if_pos hch]
      refine ih (run ++ [c]) ?_ (hasQuadNl_tail _ _ hq)
      intro x hx
      rcases List.mem_append.mp hx with hx | hx
      · exact hht x hx
      · rw [List.mem_singleton.mp hx]; exact hch
    · rw [if_neg hch, hasQuadNl_append_no_nl _ _ (no_nl_htFlush run hht), hasQuadNl_cons,
        Bool.or_eq_false_iff]
      refine ⟨?_, ih [] (by simp) (hasQuadNl_tail _ _ hq)⟩
      rw [Bool.and_eq_false_iff]
      by_cases hcn : c = '\n'
      · right
        rw [nlRun_csGo_zero]
        rw [hasQuadNl_cons] at hq
        rcases Bool.or_eq_false_iff.mp hq with ⟨h1, -⟩
        rw [hcn, show decide (('\n' : Char) = '\n') = true from by decide, Bool.true_and] at h1
        exact h1
      · exact Or.inl (decide_eq_false hcn)

theorem nlRun_le_append (A B : List Char) : nlRun A ≤ nlRun (A ++ B) := by
  induction A with
  | nil => simp [nlRun]
  | cons a A' ih =>
    rw [List.cons_append, nlRun_cons, nlRun_cons]
    by_cases ha : a = '\n'
    · rw [if_pos ha, if_pos ha]; omega
    · rw [if_neg ha, if_neg ha]

theorem hasQuadNl_append_left (A B : List Char) (h : hasQuadNl A = true) :
    hasQuadNl (A ++ B) = true := by
  induction A with
  | nil => simp [hasQuadNl] at h
  | cons a A' ih =>
    rw [List.cons_append, hasQuadNl_cons]
    rw [hasQuadNl_cons] at h
    rcases Bool.or_eq_true_iff.mp h with h | h
    · rcases Bool.and_eq_true_iff.mp h with ⟨h1, h2⟩
      apply Bool.or_eq_true_iff.mpr
      left
      apply Bool.and_eq_true_iff.mpr
      refine ⟨h1, ?_⟩
      rw [decide_eq_true_eq] at h2 ⊢
      exact le_trans h2 (nlRun_le_append A' B)
    · rw [ih h, Bool.or_true]

theorem hasQuadNl_append_false_right (A B : List Char) (h : hasQuadNl (A ++ B) = false) :
    hasQuadNl B = false := by
  induction A with
  | nil => exact h
  | cons a A' ih =>
    rw [List.cons_append] at h
    exact ih (hasQuadNl_tail _ _ h)

theorem hasQuadNl_append_false_left (A B : List Char) (h : hasQuadNl (A ++ B) = false) :
    hasQuadNl A = false := by
  by_cases hA : hasQuadNl A = true
  · rw [hasQuadNl_append_left A B hA] at h
    exact absurd h (by simp)
  · exact Bool.eq_false_iff.mpr hA

theorem hasQuadNl_pstrip (l : List Char) (h : hasQuadNl l = false) :
    hasQuadNl (pstrip l) = false := by
  obtain ⟨w, hw, -⟩ := rstrip_decomp l
  have h1 : hasQuadNl (rstrip l) = false := by
    rw [hw] at h
    exact hasQuadNl_append_false_left _ _ h
  unfold pstrip lstrip
  have hdec := List.takeWhile_append_dropWhile (p := isWS) (l := rstrip l)
  rw [← hdec] at h1
  exact hasQuadNl_append_false_right _ _ h1

/-! ## Chain transport through the space collapser -/

theorem csGo_head_pos (l : List Char) : ∀ run : List Char, run ≠ [] →
    (csGo run l).head? = some ' ' ∨ (csGo run l).head? = run.head? := by
  induction l with
  | nil =>
    intro run hne
    rw [csGo_nil]
    unfold htFlush
    by_cases h2 : 2 ≤ run.length
    · rw [if_pos h2]; left; rfl
    · rw [if_neg h2]; right; rfl
  | cons c rest ih =>
    intro run hne
    rw [csGo_cons]
    by_cases hch : isHT c = true
    · rw [if_pos hch]
      rcases ih (run ++ [c]) (by simp) with h | h
      · left; exact h
      · right
        rw [h]
        cases run with
        | nil => exact absurd rfl hne
        | cons a r => rfl
    · rw [if_neg hch]
      unfold htFlush
      by_cases h2 : 2 ≤ run.length
      · rw [if_pos h2]; left; rfl
      · rw [if_neg h2]
        cases run with
        | nil => exact absurd rfl hne
        | cons a r => right; rfl

theorem csGo_zero_head (l : List Char) (c' : Char) (h : (csGo [] l).head? = some c') :
    l.head? = some c' ∨ (c' = ' ' ∧ ∃ d, l.head? = some d ∧ isHT d = true) := by
  cases l with
  | nil => simp [csGo_nil, htFlush] at h
  | cons d r =>
    rw [csGo_cons] at h
    by_cases hdh : isHT d = true
    · rw [if_pos hdh] at h
      rcases csGo_head_pos r ([] ++ [d]) (by simp) with h2 | h2
      · rw [h2] at h
        injection h with h3
        exact Or.inr ⟨h3.symm, d, rfl, hdh⟩
      · rw [h2] at h
        simp only [List.nil_append, List.head?_cons, Option.some.injEq] at h
        left
        rw [List.head?_cons, h]
    · rw [if_neg hdh] at h
      simp only [show htFlush [] = [] from rfl, List.nil_append, List.head?_cons,
        Option.some.injEq] at h
      left
      rw [List.head?_cons, h]

theorem chain'_htFlush {R : Char → Char → Prop} (run : List Char) :
    List.Chain' R (htFlush run) ∨ 2 ≤ run.length ∧ htFlush run = [' '] := by
  unfold htFlush
  by_cases h2 : 2 ≤ run.length
  · rw [if_pos h2]; exact Or.inr ⟨h2, rfl⟩
  · rw [if_neg h2]
    left
    cases run with
    | nil => exact List.chain'_nil
    | cons a r =>
      cases r with
      | nil => exact List.chain'_singleton a
      | cons b s => exact absurd h2 (by simp)

theorem chain'_htFlush_short {R : Char → Char → Prop} (run : List Char) :
    List.Chain' R (htFlush run) := by
  rcases chain'_htFlush (R := R) run with h | ⟨-, h⟩
  · exact h
  · rw [h]; exact List.chain'_singleton ' '

theorem chain'_csGo {R : Char → Char → Prop}
    (hT1 : ∀ a c c', isHT a = true → isHT c = true → R c c' → R a c')
    (hT2 : ∀ c d b, R c d → isHT d = true → isHT b = true → R c b) :
    ∀ l run : List Char, List.Chain' R l →
      (∀ x ∈ run, isHT x = true) →
      (run ≠ [] → ∀ c, l.head? = some c → isHT c = false → ∃ d, isHT d = true ∧ R d c) →
      List.Chain' R (csGo run l) := by
  intro l
  induction l with
  | nil =>
    intro run _ _ _
    rw [csGo_nil]
    exact chain'_htFlush_short run
  | cons c rest ih =>
    intro run hch hht hlink
    rw [csGo_cons]
    by_cases hc : isHT c = true
    · rw [if_pos hc]
      refine ih (run ++ [c]) (List.chain'_cons'.mp hch).2 ?_ ?_
      · intro x hx
        rcases List.mem_append.mp hx with hx | hx
        · exact hht x hx
        · rw [List.mem_singleton.mp hx]; exact hc
      · intro _ c' hc' _
        exact ⟨c, hc, (List.chain'_cons'.mp hch).1 c' hc'⟩
    · rw [if_neg hc, List.chain'_append]
      refine ⟨chain'_htFlush_short run, ?_, ?_⟩
      · rw [List.chain'_cons']
        constructor
        · intro b hb
          rcases csGo_zero_head rest b hb with h | ⟨hb', d, hd, hdht⟩
          · exact (List.chain'_cons'.mp hch).1 b h
          · subst hb'
            exact hT2 c d ' ' ((List.chain'_cons'.mp hch).1 d hd) hdht (by decide)
        · exact ih [] (List.chain'_cons'.mp hch).2 (by simp) (fun h0 => absurd rfl h0)
      · intro x hx y hy
        simp only [List.head?_cons, Option.mem_def, Option.some.injEq] at hy
        subst hy
        have hrun_ne : run ≠ [] := by
          intro h0
          subst h0
          simp [htFlush] at hx
        obtain ⟨d, hdht, hRdc⟩ := hlink hrun_ne c rfl (Bool.eq_false_iff.mpr hc)
        have hxht : isHT x = true := by
          have hxm : x ∈ htFlush run := mem_of_getLast? _ x hx
          unfold htFlush at hxm
          by_cases h2 : 2 ≤ run.length
          · rw [if_pos h2] at hxm
            rw [List.mem_singleton.mp hxm]; decide
          · rw [if_neg h2] at hxm
            exact hht x hxm
        exact hT1 x d c hxht hdht hRdc

theorem chain'_htht_csGo : ∀ l run : List Char, (∀ x ∈ run, isHT x = true) →
    List.Chain' (fun a b => isHT a = true → isHT b = false) (csGo run l) := by
  intro l
  induction l with
  | nil =>
    intro run _
    rw [csGo_nil]
    exact chain'_htFlush_short run
  | cons c rest ih =>
    intro run hht
    rw [csGo_cons]
    by_cases hc : isHT c = true
    · rw [if_pos hc]
      refine ih (run ++ [c]) ?_
      intro x hx
      rcases List.mem_append.mp hx with hx | hx
      · exact hht x hx
      · rw [List.mem_singleton.mp hx]; exact hc
    · rw [if_neg hc, List.chain'_append]
      refine ⟨chain'_htFlush_short run, ?_, ?_⟩
      · rw [List.chain'_cons']
        exact ⟨fun b _ hcb => absurd hcb hc, ih [] (by simp)⟩
      · intro x _ y hy
        simp only [List.head?_cons, Option.mem_def, Option.some.injEq] at hy
        subst hy
        intro _
        exact Bool.eq_false_iff.mpr hc

theorem collapseSpaces_eq_self : ∀ l : List Char,
    List.Chain' (fun a b => isHT a = true → isHT b = false) l → collapseSpaces l = l := by
  intro l
  unfold collapseSpaces
  induction l with
  | nil => intro _; rfl
  | cons c rest ih =>
    intro h
    rw [csGo_cons]
    by_cases hc : isHT c = true
    · rw [if_pos hc]
      cases rest with
      | nil => rfl
      | cons d r =>
        have hd : isHT d = false := (List.chain'_cons.mp h).1 hc
        rw [csGo_cons, if_neg (by rw [hd]; simp),
          show ([] : List Char) ++ [c] = [c] from rfl, show htFlush [c] = [c] from rfl]
        have h2 : csGo [] (d :: r) = d :: r := ih (List.chain'_cons.mp h).2
        rw [csGo_cons, if_neg (by rw [hd]; simp),
          show htFlush ([] : List Char) = [] from rfl, List.nil_append] at h2
        injection h2 with h3a h3
        rw [h3]
        rfl
    · rw [if_neg hc, show htFlush ([] : List Char) = [] from rfl, List.nil_append]
      congr 1
      exact ih (List.chain'_cons'.mp h).2

theorem hyphenJoin_eq_self_of_chain : ∀ l : List Char,
    List.Chain' (fun a b => a = '-' → b ≠ '\n') l → hyphenJoin l = l := by
  intro l
  unfold hyphenJoin
  induction l with
  | nil => intro _; rfl
  | cons c rest ih =>
    intro h
    rw [hjGo_zero_cons]
    by_cases hc : c = '-'
    · rw [if_pos hc]
      cases rest with
      | nil => rw [hc]; rfl
      | cons d r =>
        have hd : d ≠ '\n' := (List.chain'_cons.mp h).1 hc
        rw [hjGo_one_cons, if_neg hd,
          show (if d = '-' then '-' :: hjGo 1 r else '-' :: d :: hjGo 0 r) =
              '-' :: hjGo 0 (d :: r) from by
            rw [hjGo_zero_cons]
            by_cases hd2 : d = '-'
            · rw [if_pos hd2, if_pos hd2]
            · rw [if_neg hd2, if_neg hd2],
          ih (List.chain'_cons.mp h).2, hc]
    · rw [if_neg hc]
      congr 1
      exact ih (List.chain'_cons'.mp h).2

/-! ## Chain transport through the newline collapser -/

theorem chain'_replicate_self {R : Char → Char → Prop} (c : Char) (hR : R c c) :
    ∀ k : Nat, List.Chain' R (List.replicate k c) := by
  intro k
  induction k with
  | zero => exact List.chain'_nil
  | succ m ih =>
    rw [List.replicate_succ, List.chain'_cons']
    refine ⟨?_, ih⟩
    intro y hy
    cases m with
    | zero => simp at hy
    | succ m' =>
      rw [List.replicate_succ] at hy
      simp only [List.head?_cons, Option.mem_def, Option.some.injEq] at hy
      subst hy
      exact hR

theorem chain'_nlFlush {R : Char → Char → Prop} (hR : R '\n' '\n') (n : Nat) :
    List.Chain' R (nlFlush n) := by
  obtain ⟨k, -, he⟩ := nlFlush_eq_replicate n
  rw [he]
  exact chain'_replicate_self '\n' hR k

theorem cnGo_head_succ (l : List Char) : ∀ n : Nat, 1 ≤ n → (cnGo n l).head? = some '\n' := by
  induction l with
  | nil =>
    intro n hn
    rw [cnGo_nil]
    unfold nlFlush
    by_cases h4 : 4 ≤ n
    · rw [if_pos h4]; rfl
    · rw [if_neg h4]
      cases n with
      | zero => omega
      | succ m => rw [List.replicate_succ]; rfl
  | cons c rest ih =>
    intro n hn
    rw [cnGo_cons]
    by_cases hc : c = '\n'
    · rw [if_pos hc]; exact ih (n + 1) (by omega)
    · rw [if_neg hc]
      unfold nlFlush
      by_cases h4 : 4 ≤ n
      · rw [if_pos h4]; rfl
      · rw [if_neg h4]
        cases n with
        | zero => omega
        | succ m => rw [List.replicate_succ]; rfl

theorem cnGo_head_zero (l : List Char) (c' : Char) (h : (cnGo 0 l).head? = some c') :
    l.head? = some c' := by
  cases l with
  | nil => simp [cnGo_nil, nlFlush] at h
  | cons c rest =>
    rw [cnGo_cons] at h
    by_cases hc : c = '\n'
    · rw [if_pos hc, cnGo_head_succ rest 1 (by omega)] at h
      injection h with h2
      rw [List.head?_cons, hc, h2]
    · rw [if_neg hc] at h
      simp only [show nlFlush 0 = [] from rfl, List.nil_append, List.head?_cons] at h ⊢
      exact h

theorem chain'_cnGo {R : Char → Char → Prop} (hR : R '\n' '\n') :
    ∀ l : List Char, ∀ n : Nat, List.Chain' R l →
      (1 ≤ n → ∀ c, l.head? = some c → R '\n' c) → List.Chain' R (cnGo n l) := by
  intro l
  induction l with
  | nil =>
    intro n _ _
    rw [cnGo_nil]
    exact chain'_nlFlush hR n
  | cons c rest ih =>
    intro n hch hhead
    rw [cnGo_cons]
    by_cases hc : c = '\n'
    · rw [if_pos hc]
      subst hc
      refine ih (n + 1) (List.chain'_cons'.mp hch).2 ?_
      intro _ c' hc'
      exact (List.chain'_cons'.mp hch).1 c' hc'
    · rw [if_neg hc, List.chain'_append]
      refine ⟨chain'_nlFlush hR n, ?_, ?_⟩
      · rw [List.chain'_cons']
        refine ⟨?_, ih 0 (List.chain'_cons'.mp hch).2 (fun h0 => absurd h0 (by omega))⟩
        intro b hb
        exact (List.chain'_cons'.mp hch).1 b (cnGo_head_zero rest b hb)
      · intro x hx y hy
        simp only [List.head?_cons, Option.mem_def, Option.some.injEq] at hy
        subst hy
        have hxnl : x = '\n' := by
          have hxm : x ∈ nlFlush n := mem_of_getLast? _ x hx
          obtain ⟨k, -, he⟩ := nlFlush_eq_replicate n
          rw [he] at hxm
          exact List.eq_of_mem_replicate hxm
        subst hxnl
        have hn1 : 1 ≤ n := by
          by_contra h0
          have hn0 : n = 0 := by omega
          subst hn0
          simp [nlFlush] at hx
        exact hhead hn1 c rfl

/-! ## Character-membership transport through the scanners -/

theorem mem_nlFlush (n : Nat) (c : Char) (h : c ∈ nlFlush n) : c = '\n' := by
  obtain ⟨k, -, he⟩ := nlFlush_eq_replicate n
  rw [he] at h
  exact List.eq_of_mem_replicate h

theorem mem_cnGo (l : List Char) : ∀ (n : Nat) (c : Char), c ∈ cnGo n l → c = '\n' ∨ c ∈ l := by
  induction l with
  | nil => intro n c h; rw [cnGo_nil] at h; exact Or.inl (mem_nlFlush n c h)
  | cons d rest ih =>
    intro n c h
    rw [cnGo_cons] at h
    by_cases hd : d = '\n'
    · rw [if_pos hd] at h
      rcases ih (n + 1) c h with h | h
      · exact Or.inl h
      · exact Or.inr (List.mem_cons_of_mem _ h)
    · rw [if_neg hd] at h
      rcases List.mem_append.mp h with h | h
      · exact Or.inl (mem_nlFlush n c h)
      · rcases List.mem_cons.mp h with rfl | h
        · exact Or.inr (List.mem_cons_self _ _)
        · rcases ih 0 c h with h | h
          · exact Or.inl h
          · exact Or.inr (List.mem_cons_of_mem _ h)

theorem mem_htFlush (run : List Char) (c : Char) (h : c ∈ htFlush run) : c = ' ' ∨ c ∈ run := by
  unfold htFlush at h
  by_cases h2 : 2 ≤ run.length
  · rw [if_pos h2] at h; exact Or.inl (List.mem_singleton.mp h)
  · rw [if_neg h2] at h; exact Or.inr h

theorem mem_csGo (l : List Char) : ∀ (run : List Char) (c : Char), c ∈ csGo run l →
    c = ' ' ∨ c ∈ run ∨ c ∈ l := by
  induction l with
  | nil =>
    intro run c h
    rw [csGo_nil] at h
    rcases mem_htFlush run c h with h | h
    · exact Or.inl h
    · exact Or.inr (Or.inl h)
  | cons d rest ih =>
    intro run c h
    rw [csGo_cons] at h
    by_cases hd : isHT d = true
    · rw [if_pos hd] at h
      rcases ih (run ++ [d]) c h with h | h | h
      · exact Or.inl h
      · rcases List.mem_append.mp h with h | h
        · exact Or.inr (Or.inl h)
        · exact Or.inr (Or.inr (by rw [List.mem_singleton.mp h]; exact List.mem_cons_self _ _))
      · exact Or.inr (Or.inr (List.mem_cons_of_mem _ h))
    · rw [if_neg hd] at h
      rcases List.mem_append.mp h with h | h
      · rcases mem_htFlush run c h with h | h
        · exact Or.inl h
        · exact Or.inr (Or.inl h)
      · rcases List.mem_cons.mp h with rfl | h
        · exact Or.inr (Or.inr (List.mem_cons_self _ _))
        · rcases ih [] c h with h | h | h
          · exact Or.inl h
          · simp at h
          · exact Or.inr (Or.inr (List.mem_cons_of_mem _ h))

theorem mem_rstrip (l : List Char) (c : Char) (h : c ∈ rstrip l) : c ∈ l := by
  unfold rstrip at h
  rw [List.mem_reverse] at h
  have h2 : c ∈ l.reverse := (List.dropWhile_sublist (p := isWS) (l := l.reverse)).subset h
  exact List.mem_reverse.mp h2

theorem mem_lstrip (l : List Char) (c : Char) (h : c ∈ lstrip l) : c ∈ l := by
  unfold lstrip at h
  exact (List.dropWhile_sublist (p := isWS) (l := l)).subset h

theorem mem_pstrip (l : List Char) (c : Char) (h : c ∈ pstrip l) : c ∈ l :=
  mem_rstrip l c (mem_lstrip (rstrip l) c h)

/-! ## The hyphen-before-line-break pattern -/

/-- Whether somewhere in `l` a hyphen is followed by optional horizontal
whitespace and then a newline.  On exactly such inputs the per-line
trailing-whitespace trim of `minimal_clean` can expose a new `-\n` juncture
for the hyphenation-rejoin step to consume on a second pass. -/
def hasHyphenBreak : List Char → Bool
  | [] => false
  | c :: rest => (c == '-' && ((rest.dropWhile isHT).head? == some '\n')) || hasHyphenBreak rest

theorem hasHyphenBreak_cons (c : Char) (rest : List Char) :
    hasHyphenBreak (c :: rest) =
      ((c == '-' && ((rest.dropWhile isHT).head? == some '\n')) || hasHyphenBreak rest) := rfl

theorem chain'_dashNl_of_no_break (l : List Char) (h : hasHyphenBreak l = false) :
    List.Chain' (fun a b => a = '-' → b ≠ '\n') l := by
  induction l with
  | nil => exact List.chain'_nil
  | cons c rest ih =>
    rw [hasHyphenBreak_cons] at h
    rcases Bool.or_eq_false_iff.mp h with ⟨h1, h2⟩
    rw [List.chain'_cons']
    refine ⟨?_, ih h2⟩
    intro b hb hc hbnl
    subst hc
    subst hbnl
    rw [show (('-' : Char) == '-') = true from by decide, Bool.true_and] at h1
    rw [Option.mem_def] at hb
    cases rest with
    | nil => simp at hb
    | cons d r =>
      simp only [List.head?_cons, Option.some.injEq] at hb
      subst hb
      rw [List.dropWhile_cons, if_neg (by decide), List.head?_cons] at h1
      exact absurd h1 (by decide)

theorem hasHyphenBreak_detect (A hts B : List Char) (hht : ∀ x ∈ hts, isHT x = true) :
    hasHyphenBreak (A ++ '-' :: (hts ++ '\n' :: B)) = true := by
  induction A with
  | nil =>
    rw [List.nil_append, hasHyphenBreak_cons]
    apply Bool.or_eq_true_iff.mpr
    left
    rw [show (('-' : Char) == '-') = true from by decide, Bool.true_and,
      List.dropWhile_append,
      show List.dropWhile isHT hts = [] from List.dropWhile_eq_nil_iff.mpr hht,
      if_pos (show ([] : List Char).isEmpty = true from rfl),
      List.dropWhile_cons, if_neg (by decide), List.head?_cons]
    decide
  | cons a A' ih =>
    rw [List.cons_append, hasHyphenBreak_cons, ih, Bool.or_true]

/-! ## Small character classification helpers -/

theorem ne_nl_of_isHT (b : Char) (h : isHT b = true) : b ≠ '\n' := by
  intro e
  rw [e] at h
  exact absurd h (by decide)

theorem ne_dash_of_isHT (b : Char) (h : isHT b = true) : b ≠ '-' := by
  intro e
  rw [e] at h
  exact absurd h (by decide)

theorem dropLast_map_rstrip (l : List (List Char)) :
    (l.map rstrip).dropLast = (l.dropLast).map rstrip := by
  induction l with
  | nil => rfl
  | cons a l' ih =>
    cases l' with
    | nil => rfl
    | cons b l'' =>
      rw [List.map_cons, List.map_cons, dropLast_cons₂, dropLast_cons₂, List.map_cons]
      exact congrArg (rstrip a :: ·) ih

/-! ## Claim C5: idempotence of the normalizer -/

/-- Inputs satisfying all structural invariants of normalizer output are
fixed points of `minimal_clean`: each pipeline step is the identity. -/
theorem minimal_clean_second_pass (u : List Char)
    (hnull : ('\x00' : Char) ∉ u)
    (hdash : List.Chain' (fun a b => a = '-' → b ≠ '\n') u)
    (hht : List.Chain' (fun a b => isHT a = true → b ≠ '\n') u)
    (hquad : hasQuadNl u = false)
    (hhtht : List.Chain' (fun a b => isHT a = true → isHT b = false) u)
    (hhead : ∀ c, u.head? = some c → isWS c = false)
    (hlast : ∀ c, u.getLast? = some c → isWS c = false) :
    minimal_clean u = u := by
  simp only [minimal_clean, nfkc]
  rw [removeNulls_eq_self u hnull,
    hyphenJoin_eq_self_of_chain u hdash,
    join_rstrip_splitlines_eq_self u hht hlast,
    collapseNewlines_eq_self u hquad,
    collapseSpaces_eq_self u hhtht]
  exact pstrip_eq_self u hhead hlast

/-- C5 counterexample: the claim is false on the code.  On `"ab- \ncd"`
the hyphenation rejoin (step 3) does not fire because a blank separates the
hyphen from the line break, but the subsequent per-line trim (step 4)
exposes `-\n`, so the second pass joins the fragments: the first pass gives
`"ab-\ncd"`, the second `"abcd"`. -/
theorem C5_counterexample :
    minimal_clean (minimal_clean (String.toList "ab- \ncd")) ≠
      minimal_clean (String.toList "ab- \ncd") := by
  decide

/-- C5 (amended): `minimal_clean` is idempotent on every input in which no
hyphen is followed by optional spaces/tabs and then a newline (checked after
dropping null characters).  The counterexample `"ab- \ncd"` shows the claim
fails without this restriction: trimming trailing whitespace can expose a
hyphen at a line end, which the hyphenation rejoin then consumes on the
second pass. -/
theorem C5_minimal_clean_idempotent (t : List Char)
    (h : hasHyphenBreak (removeNulls t) = false) :
    minimal_clean (minimal_clean t) = minimal_clean t := by
  have hvnull : ('\x00' : Char) ∉ removeNulls t := by
    intro hm
    rw [removeNulls, List.mem_filter] at hm
    exact absurd hm.2 (by decide)
  have hmc : minimal_clean t =
      pstrip (collapseSpaces (collapseNewlines
        (joinlines ((splitlines (removeNulls t)).map rstrip)))) := by
    simp only [minimal_clean, nfkc]
    rw [hyphenJoin_eq_self_of_chain (removeNulls t) (chain'_dashNl_of_no_break _ h)]
  have hlines_nl : ∀ ln ∈ (splitlines (removeNulls t)).map rstrip, '\n' ∉ ln := by
    intro ln hln hm
    rw [List.mem_map] at hln
    obtain ⟨ln0, hln0, rfl⟩ := hln
    exact splitlines_no_nl _ ln0 hln0 (mem_rstrip ln0 '\n' hm)
  have hW0ht : List.Chain' (fun a b => isHT a = true → b ≠ '\n')
      (joinlines ((splitlines (removeNulls t)).map rstrip)) := by
    apply joinlines_chain' (fun h' => absurd h' (by decide))
    · intro ln hln
      exact chain'_of_mem_right ln (fun a b hb _ e => hlines_nl ln hln (e ▸ hb))
    · intro ln _ c _ h'
      exact absurd h' (by decide)
    · intro ln hln c hc hhtc
      exfalso
      rw [dropLast_map_rstrip, List.mem_map] at hln
      obtain ⟨ln0, -, rfl⟩ := hln
      have hW := rstrip_getLast ln0 c hc
      rw [isWS_of_isHT c hhtc] at hW
      exact absurd hW (by simp)
  have hW0dash : List.Chain' (fun a b => a = '-' → b ≠ '\n')
      (joinlines ((splitlines (removeNulls t)).map rstrip)) := by
    apply joinlines_chain' (fun h' => absurd h' (by decide))
    · intro ln hln
      exact chain'_of_mem_right ln (fun a b hb _ e => hlines_nl ln hln (e ▸ hb))
    · intro ln _ c _ h'
      exact absurd h' (by decide)
    · intro ln hln c hc hdash
      exfalso
      rw [dropLast_map_rstrip, List.mem_map] at hln
      obtain ⟨ln0, hln0, rfl⟩ := hln
      subst hdash
      obtain ⟨init, hinit⟩ := getLast?_decomp (rstrip ln0) '-' hc
      obtain ⟨w, hwdec, hww⟩ := rstrip_decomp ln0
      have hnolnln0 : '\n' ∉ ln0 :=
        splitlines_no_nl _ ln0 (List.dropLast_subset _ hln0)
      have hwht : ∀ x ∈ w, isHT x = true := by
        intro x hx
        refine isHT_of_isWS_ne_nl x (hww x hx) ?_
        intro e
        exact hnolnln0 (by rw [hwdec]; exact List.mem_append_right _ (e ▸ hx))
      obtain ⟨pre, suf, hveq⟩ := mem_dropLast_splitlines (removeNulls t) ln0 hln0
      have hfinal : removeNulls t = (pre ++ init) ++ '-' :: (w ++ '\n' :: suf) := by
        rw [hveq, hwdec, hinit]
        simp [List.append_assoc]
      have hdet := hasHyphenBreak_detect (pre ++ init) w suf hwht
      rw [← hfinal, h] at hdet
      exact absurd hdet (by simp)
  rw [hmc]
  apply minimal_clean_second_pass
  · intro hm
    have h1 := mem_pstrip _ _ hm
    rcases mem_csGo (collapseNewlines (joinlines ((splitlines (removeNulls t)).map rstrip))) []
        '\x00' (show ('\x00' : Char) ∈
          csGo [] (collapseNewlines (joinlines ((splitlines (removeNulls t)).map rstrip)))
          from h1) with h2 | h2 | h2
    · exact absurd h2 (by decide)
    · simp at h2
    · rcases mem_cnGo (joinlines ((splitlines (removeNulls t)).map rstrip)) 0 '\x00' h2 with
        h3 | h3
      · exact absurd h3 (by decide)
      · rcases mem_joinlines _ _ h3 with h4 | ⟨ln, hln, h4⟩
        · exact absurd h4 (by decide)
        · rw [List.mem_map] at hln
          obtain ⟨ln0, hln0, rfl⟩ := hln
          exact hvnull (mem_of_mem_splitlines _ ln0 '\x00' hln0 (mem_rstrip _ _ h4))
  · exact chain'_pstrip _
      (show List.Chain' (fun a b => a = '-' → b ≠ '\n')
          (collapseSpaces (collapseNewlines
            (joinlines ((splitlines (removeNulls t)).map rstrip)))) from
        chain'_csGo (R := fun a b => a = '-' → b ≠ '\n')
          (fun a c c' ha _ _ had => absurd had (ne_dash_of_isHT a ha))
          (fun c d b _ _ hb _ => ne_nl_of_isHT b hb)
          _ []
          (chain'_cnGo (R := fun a b => a = '-' → b ≠ '\n') (fun h' => absurd h' (by decide))
            _ 0 hW0dash (fun h0 => absurd h0 (by omega)))
          (by simp) (fun h0 => absurd rfl h0))
  · exact chain'_pstrip _
      (show List.Chain' (fun a b => isHT a = true → b ≠ '\n')
          (collapseSpaces (collapseNewlines
            (joinlines ((splitlines (removeNulls t)).map rstrip)))) from
        chain'_csGo (R := fun a b => isHT a = true → b ≠ '\n')
          (fun a c c' _ hc h' _ => h' hc)
          (fun c d b _ _ hb _ => ne_nl_of_isHT b hb)
          _ []
          (chain'_cnGo (R := fun a b => isHT a = true → b ≠ '\n')
            (fun h' => absurd h' (by decide)) _ 0 hW0ht
            (fun h0 => absurd h0 (by omega)))
          (by simp) (fun h0 => absurd rfl h0))
  · exact hasQuadNl_pstrip _
      (show hasQuadNl (collapseSpaces (collapseNewlines
          (joinlines ((splitlines (removeNulls t)).map rstrip)))) = false from
        hasQuadNl_csGo _ [] (by simp) (hasQuadNl_cnGo _ 0))
  · exact chain'_pstrip _
      (show List.Chain' (fun a b => isHT a = true → isHT b = false)
          (collapseSpaces (collapseNewlines
            (joinlines ((splitlines (removeNulls t)).map rstrip)))) from
        chain'_htht_csGo _ [] (by simp))
  · exact pstrip_head _
  · exact pstrip_getLast _

/-- C5 witness: a concrete input satisfying the amended hypothesis, on
which the normalizer is idempotent. -/
theorem C5_minimal_clean_idempotent_witness :
    hasHyphenBreak (removeNulls (String.toList "halo\ndu- \tnia  x\n\n\n\n\nok")) = false ∧
      minimal_clean (minimal_clean (String.toList "halo\ndu- \tnia  x\n\n\n\n\nok")) =
        minimal_clean (String.toList "halo\ndu- \tnia  x\n\n\n\n\nok") :=
  ⟨by decide, C5_minimal_clean_idempotent (String.toList "halo\ndu- \tnia  x\n\n\n\n\nok")
    (by decide)⟩

/-! ## Structure detection: character classes and the Pasal header pattern

`detect_structure` uses four regexes.  `PASAL_ANY_RE` is
`(?im)^\s*Pasal\s+((\d+[A-Za-z]?)|([IVXLCM]+))\s*$` searched with
`finditer` over the whole text; the marker patterns `BUKU_RE`, `BAB_RE`,
`BAGIAN_RE` are matched per line.  At every boundary of the pattern the
adjacent character classes are disjoint (whitespace vs. keyword letters
vs. digits vs. line ends), so greedy matching with backtracking reduces
to the deterministic scanners below. -/

/-- Does `l` start with the lowercase keyword `kw`, compared
case-insensitively (a literal under `re.IGNORECASE`)? -/
def ciStarts (kw : List Char) (l : List Char) : Bool :=
  (l.take kw.length).map Char.toLower == kw

/-- The character class `[IVXLCM]` of `PASAL_ANY_RE` under `re.IGNORECASE`. -/
def isRomanM (c : Char) : Bool :=
  c.toLower == 'i' || c.toLower == 'v' || c.toLower == 'x' || c.toLower == 'l' ||
    c.toLower == 'c' || c.toLower == 'm'

/-- The character class `[IVXLC]` of `BUKU_RE` and `BAB_RE` under
`re.IGNORECASE`. -/
def isRoman5 (c : Char) : Bool :=
  c.toLower == 'i' || c.toLower == 'v' || c.toLower == 'x' || c.toLower == 'l' ||
    c.toLower == 'c'

/-- The character class `[0-9IVXLC]` of `BAGIAN_RE` under `re.IGNORECASE`. -/
def isBagianLabel (c : Char) : Bool := c.isDigit || isRoman5 c

/-- Index of the last newline in a list, if any. -/
def lastNl : List Char → Option Nat
  | [] => none
  | c :: rest =>
    match lastNl rest with
    | some i => some (i + 1)
    | none => if c = '\n' then some 0 else none

/-- The greedy `\s*$` tail of the multiline patterns: given the suffix
after the label, the number of whitespace characters the match consumes —
all of them when the whitespace run reaches the end of text, otherwise up
to (but excluding) the last newline of the run; `none` when `$` cannot
match. -/
def tailWS (l : List Char) : Option Nat :=
  let run := l.takeWhile isWS
  if run.length = l.length then some l.length
  else
    match lastNl run with
    | some i => some i
    | none => none

/-- Match of `PASAL_ANY_RE` at the beginning of the suffix `l` (the `^`
anchor is checked by the caller): leading `\s*`, keyword `Pasal`
case-insensitively, `\s+`, then either digits with an optional single
letter or a run of Roman-numeral letters, then the `\s*$` tail.  Returns
the number of characters consumed and the captured label (`group(1)`). -/
def matchPasalCore (l : List Char) : Option (Nat × List Char) :=
  let w1 := l.takeWhile isWS
  let r1 := l.drop w1.length
  if ciStarts (String.toList "pasal") r1 then
    let r2 := r1.drop 5
    let w2 := r2.takeWhile isWS
    if w2.length = 0 then none
    else
      let r3 := r2.drop w2.length
      let pre := w1.length + 5 + w2.length
      match r3 with
      | [] => none
      | c :: _ =>
        if c.isDigit then
          let ds := r3.takeWhile Char.isDigit
          let r4 := r3.drop ds.length
          match r4 with
          | d :: r5 =>
            if d.isAlpha then
              (tailWS r5).map fun k => (pre + ds.length + 1 + k, ds ++ [d])
            else
              (tailWS r4).map fun k => (pre + ds.length + k, ds)
          | [] => (tailWS r4).map fun k => (pre + ds.length + k, ds)
        else if isRomanM c then
          let rs := r3.takeWhile isRomanM
          (tailWS (r3.drop rs.length)).map fun k => (pre + rs.length + k, rs)
        else none
  else none

/-- Whether position `p` of `t` is at the start of a line — the `^` anchor
under `re.MULTILINE`. -/
def isLineStart (t : List Char) (p : Nat) : Bool :=
  p == 0 || t[p - 1]? == some '\n'

/-- An attempt of the anchored pattern at position `p`: the pattern can
only match where `^` does, i.e. at a line start. -/
def pasalMatchAt (t : List Char) (p : Nat) : Option (Nat × List Char) :=
  if isLineStart t p then matchPasalCore (t.drop p) else none

/-- `PASAL_ANY_RE.finditer(full_text)`: scan positions left to right, try
the anchored pattern at every line start, and resume at each match's end
(advancing at least one position, as Python does).  Entries are
`(start, end, label)`.  `fuel` bounds the recursion and the function is
called with `t.length + 1`, which suffices since the position strictly
increases. -/
def findPasalsFrom (t : List Char) : Nat → Nat → List (Nat × Nat × List Char)
  | 0, _ => []
  | fuel + 1, p =>
    if t.length ≤ p then []
    else
      match pasalMatchAt t p with
      | some (c, lab) => (p, p + c, lab) :: findPasalsFrom t fuel (p + max c 1)
      | none => findPasalsFrom t fuel (p + 1)

/-- All matches of `PASAL_ANY_RE` in document order. -/
def pasalMatches (t : List Char) : List (Nat × Nat × List Char) :=
  findPasalsFrom t (t.length + 1) 0

/-! ## Hierarchy markers -/

/-- One hierarchy marker occurrence: the tuple `(kind, label, title)`
appended by `detect_structure` (e.g. `("BUKU", m.group(1).strip(),
(m.group(2) or "").strip())`). -/
structure Tag where
  kind : List Char
  label : List Char
  title : List Char
deriving DecidableEq

/-- `re.match` of `^\s*<KW>\s+(<class>+)\s*(.*)$` (flags `(?im)`) against
one line: optional leading whitespace, the keyword case-insensitively, at
least one whitespace, a non-empty maximal label from the class, and the
rest of the line; label and title are returned stripped, as the code
strips both groups. -/
def matchHier (kw : List Char) (labChar : Char → Bool) (ln : List Char) :
    Option (List Char × List Char) :=
  let r1 := ln.dropWhile isWS
  if ciStarts kw r1 then
    let r2 := r1.drop kw.length
    let w2 := r2.takeWhile isWS
    if w2.length = 0 then none
    else
      let r3 := r2.drop w2.length
      let lab := r3.takeWhile labChar
      if lab.length = 0 then none
      else some (pstrip lab, pstrip (r3.drop lab.length))
  else none

/-- Offsets of line beginnings as computed by `detect_structure`
(`line_starts`, accumulating `pos += len(ln) + 1`). -/
def lineStartsFrom (pos : Nat) : List (List Char) → List Nat
  | [] => []
  | ln :: rest => pos :: lineStartsFrom (pos + ln.length + 1) rest

/-- The ascending-offset marker list for one family: every line whose
`re.match` against the family pattern succeeds contributes
`(line_start, tag)`. -/
def marksOf (kw : List Char) (labChar : Char → Bool) (kind : List Char)
    (t : List Char) : List (Nat × Tag) :=
  ((lineStartsFrom 0 (splitlines t)).zip (splitlines t)).filterMap fun pl =>
    (matchHier kw labChar pl.2).map fun lt => (pl.1, ⟨kind, lt.1, lt.2⟩)

def bukuMarks (t : List Char) : List (Nat × Tag) :=
  marksOf (String.toList "buku") isRoman5 (String.toList "BUKU") t

def babMarks (t : List Char) : List (Nat × Tag) :=
  marksOf (String.toList "bab") isRoman5 (String.toList "BAB") t

def bagianMarks (t : List Char) : List (Nat × Tag) :=
  marksOf (String.toList "bagian") isBagianLabel (String.toList "BAGIAN") t

/-- `nearest_tag(idx, marks)` of `detect_structure`: scan the marks in
order, remember the tag of the last mark whose offset is `≤ idx`, and stop
at the first mark beyond `idx`. -/
def nearest_tag (idx : Nat) : List (Nat × Tag) → Option Tag
  | [] => none
  | (p, tag) :: rest =>
    if p ≤ idx then some ((nearest_tag idx rest).getD tag) else none

/-! ## Body cleaning inside `detect_structure` -/

/-- Match of `(?im)^\s*Pasal\s+<re.escape(label)>\s*$` at the beginning of
the suffix `l`, the literal label compared case-insensitively; returns the
match length. -/
def matchOwnCore (lab : List Char) (l : List Char) : Option Nat :=
  let w1 := l.takeWhile isWS
  let r1 := l.drop w1.length
  if ciStarts (String.toList "pasal") r1 then
    let r2 := r1.drop 5
    let w2 := r2.takeWhile isWS
    if w2.length = 0 then none
    else
      let r3 := r2.drop w2.length
      if ciStarts (lab.map Char.toLower) r3 then
        (tailWS (r3.drop lab.length)).map fun k =>
          w1.length + 5 + w2.length + lab.length + k
      else none
  else none

/-- `re.sub(r'(?im)^\s*Pasal\s+<label>\s*$', '', body)`: scan positions
left to right; at each line start try the pattern; matched spans are
removed (scanning resumes after them), all other characters are kept. -/
def subRemoveFrom (lab : List Char) (t : List Char) : Nat → Nat → List Char
  | 0, _ => []
  | fuel + 1, p =>
    if t.length ≤ p then []
    else
      match (if isLineStart t p then matchOwnCore lab (t.drop p) else none) with
      | some c => subRemoveFrom lab t fuel (p + max c 1)
      | none => t.getD p ' ' :: subRemoveFrom lab t fuel (p + 1)

def subRemoveOwn (lab : List Char) (body : List Char) : List Char :=
  subRemoveFrom lab body (body.length + 1) 0

/-- Scanner for `re.sub(r'[ \t]+', ' ', body)` in `detect_structure`: every
maximal run of one or more spaces/tabs becomes one space.  The Bool state
records whether the current run's space has already been emitted. -/
def chGo : Bool → List Char → List Char
  | _, [] => []
  | inRun, c :: rest =>
    if isHT c then (if inRun then chGo true rest else ' ' :: chGo true rest)
    else c :: chGo false rest

def collapseHT1 (l : List Char) : List Char := chGo false l

/-! ## `detect_structure` -/

/-- One output dictionary of `detect_structure`. -/
structure Block where
  pasal_number : List Char
  text : List Char
  buku : Option Tag
  bab : Option Tag
  bagian : Option Tag
deriving DecidableEq

/-- The slice `full_text[s:e]`. -/
def pySlice (t : List Char) (s e : Nat) : List Char := (t.drop s).take (e - s)

/-- The body of one block: `full_text[start:end].strip()`, the own-header
`re.sub` followed by `.strip()`, then `re.sub(r'[ \t]+', ' ', body)`. -/
def blockBody (t : List Char) (s e : Nat) (lab : List Char) : List Char :=
  collapseHT1 (pstrip (subRemoveOwn lab (pstrip (pySlice t s e))))

/-- The start offset of the next match, or the end of the text: the end of
the current block (`matches[i+1].start() if i+1 < len(matches) else
len(full_text)`). -/
def nextStart (t : List Char) : List (Nat × Nat × List Char) → Nat
  | (s2, _, _) :: _ => s2
  | [] => t.length

/-- The block list built from the match list: each block starts at its
match's start and ends at the next match's start (or the end of text). -/
def blocksFrom (t : List Char) (bk bb bg : List (Nat × Tag)) :
    List (Nat × Nat × List Char) → List Block
  | [] => []
  | (s, _, lab) :: rest =>
    { pasal_number := pstrip lab
      text := blockBody t s (nextStart t rest) lab
      buku := nearest_tag s bk
      bab := nearest_tag s bb
      bagian := nearest_tag s bg } :: blocksFrom t bk bb bg rest

/-- `detect_structure(full_text)` of `src/main.py`. -/
def detect_structure (t : List Char) : List Block :=
  blocksFrom t (bukuMarks t) (babMarks t) (bagianMarks t) (pasalMatches t)

/-- The spans `[start, stop)` of the blocks: each block runs from its
match's start offset to the next match's start, the last one to the end of
the text. -/
def spansFrom (t : List Char) : List (Nat × Nat × List Char) → List (Nat × Nat)
  | [] => []
  | (s, _, _) :: rest => (s, nextStart t rest) :: spansFrom t rest

def blockSpans (t : List Char) : List (Nat × Nat) := spansFrom t (pasalMatches t)

/-- Concatenation of the slices of all block spans. -/
def coveredText (t : List Char) : List Char :=
  ((blockSpans t).map fun se => pySlice t se.1 se.2).flatten

theorem blockSpans_sample :
    blockSpans (String.toList "x\nPasal 1\ny") = [(2, 11)] := by decide

theorem pasalMatches_sample :
    pasalMatches (String.toList "Pasal 1\nfoo\nPasal 2\nbar") =
    [(0, 7, ['1']), (12, 19, ['2'])] := by decide

theorem detect_structure_sample :
    detect_structure (String.toList "BAB I\nAWAL\nPasal 1\nIsi  a\nPasal 2\n(1) x") =
      [{ pasal_number := ['1'], text := String.toList "Isi a",
         buku := none,
         bab := some ⟨String.toList "BAB", ['I'], String.toList ""⟩,
         bagian := none },
       { pasal_number := ['2'], text := String.toList "(1) x",
         buku := none,
         bab := some ⟨String.toList "BAB", ['I'], String.toList ""⟩,
         bagian := none }] := by decide

/-! ## Claim C1: block spans -/

theorem findPasalsFrom_succ_of_le (t : List Char) (f p : Nat) (hp : t.length ≤ p) :
    findPasalsFrom t (f + 1) p = [] := by
  rw [show findPasalsFrom t (f + 1) p =
      if t.length ≤ p then []
      else
        match pasalMatchAt t p with
        | some (c, lab) => (p, p + c, lab) :: findPasalsFrom t f (p + max c 1)
        | none => findPasalsFrom t f (p + 1) from rfl, if_pos hp]

theorem findPasalsFrom_succ_of_match (t : List Char) (f p c : Nat) (lab : List Char)
    (hp : ¬ t.length ≤ p) (hm : pasalMatchAt t p = some (c, lab)) :
    findPasalsFrom t (f + 1) p = (p, p + c, lab) :: findPasalsFrom t f (p + max c 1) := by
  rw [show findPasalsFrom t (f + 1) p =
      if t.length ≤ p then []
      else
        match pasalMatchAt t p with
        | some (c, lab) => (p, p + c, lab) :: findPasalsFrom t f (p + max c 1)
        | none => findPasalsFrom t f (p + 1) from rfl, if_neg hp, hm]

theorem findPasalsFrom_succ_of_none (t : List Char) (f p : Nat)
    (hp : ¬ t.length ≤ p) (hm : pasalMatchAt t p = none) :
    findPasalsFrom t (f + 1) p = findPasalsFrom t f (p + 1) := by
  rw [show findPasalsFrom t (f + 1) p =
      if t.length ≤ p then []
      else
        match pasalMatchAt t p with
        | some (c, lab) => (p, p + c, lab) :: findPasalsFrom t f (p + max c 1)
        | none => findPasalsFrom t f (p + 1) from rfl, if_neg hp, hm]

theorem findPasalsFrom_cons_ge (t : List Char) : ∀ (fuel p s : Nat) (x : Nat × List Char)
    (rest : List (Nat × Nat × List Char)),
    findPasalsFrom t fuel p = (s, x) :: rest → p ≤ s := by
  intro fuel
  induction fuel with
  | zero => intro p s x rest h; simp [findPasalsFrom] at h
  | succ f ih =>
    intro p s x rest h
    by_cases hp : t.length ≤ p
    · rw [findPasalsFrom_succ_of_le t f p hp] at h; simp at h
    · cases hm : pasalMatchAt t p with
      | some cl =>
        obtain ⟨c, lab⟩ := cl
        rw [findPasalsFrom_succ_of_match t f p c lab hp hm] at h
        injection h with h1 h2
        injection h1 with h3 h4
        omega
      | none =>
        rw [findPasalsFrom_succ_of_none t f p hp hm] at h
        have := ih (p + 1) s x rest h
        omega

theorem spansFrom_chain (t : List Char) : ∀ ms : List (Nat × Nat × List Char),
    List.Chain' (fun a b => a.2 = b.1) (spansFrom t ms) := by
  intro ms
  induction ms with
  | nil => exact List.chain'_nil
  | cons m rest ih =>
    obtain ⟨s, e, lab⟩ := m
    cases rest with
    | nil => exact List.chain'_singleton _
    | cons m2 rest2 =>
      obtain ⟨s2, e2, lab2⟩ := m2
      rw [show spansFrom t ((s, e, lab) :: (s2, e2, lab2) :: rest2) =
          (s, s2) :: spansFrom t ((s2, e2, lab2) :: rest2) from rfl, List.chain'_cons']
      refine ⟨?_, ih⟩
      intro b hb
      rw [show spansFrom t ((s2, e2, lab2) :: rest2) =
          (s2, nextStart t rest2) :: spansFrom t rest2 from rfl] at hb
      simp only [List.head?_cons, Option.mem_def, Option.some.injEq] at hb
      rw [← hb]

theorem spansFrom_last (t : List Char) : ∀ (ms : List (Nat × Nat × List Char)) (sp : Nat × Nat),
    (spansFrom t ms).getLast? = some sp → sp.2 = t.length := by
  intro ms
  induction ms with
  | nil => intro sp h; simp [spansFrom] at h
  | cons m rest ih =>
    obtain ⟨s, e, lab⟩ := m
    intro sp h
    cases rest with
    | nil =>
      rw [show spansFrom t [(s, e, lab)] = [(s, t.length)] from rfl] at h
      simp only [List.getLast?_singleton, Option.some.injEq] at h
      rw [← h]
    | cons m2 rest2 =>
      obtain ⟨s2, e2, lab2⟩ := m2
      rw [show spansFrom t ((s, e, lab) :: (s2, e2, lab2) :: rest2) =
          (s, s2) :: spansFrom t ((s2, e2, lab2) :: rest2) from rfl,
        show spansFrom t ((s2, e2, lab2) :: rest2) =
          (s2, nextStart t rest2) :: spansFrom t rest2 from rfl,
        List.getLast?_cons_cons] at h
      refine ih sp ?_
      rw [show spansFrom t ((s2, e2, lab2) :: rest2) =
          (s2, nextStart t rest2) :: spansFrom t rest2 from rfl]
      exact h

theorem pySlice_append_drop (t : List Char) (a b : Nat) (hab : a ≤ b) :
    pySlice t a b ++ t.drop b = t.drop a := by
  unfold pySlice
  have h1 : t.drop b = (t.drop a).drop (b - a) := by
    rw [List.drop_drop]
    congr 1
    omega
  rw [h1, List.take_append_drop]

theorem covered_findPasalsFrom (t : List Char) : ∀ fuel p : Nat,
    ((spansFrom t (findPasalsFrom t fuel p)).map fun se => pySlice t se.1 se.2).flatten =
      t.drop ((((findPasalsFrom t fuel p).head?).map fun m => m.1).getD t.length) := by
  intro fuel
  induction fuel with
  | zero =>
    intro p
    simp [findPasalsFrom, spansFrom, List.drop_length]
  | succ f ih =>
    intro p
    by_cases hp : t.length ≤ p
    · rw [findPasalsFrom_succ_of_le t f p hp]
      simp [spansFrom, List.drop_length]
    · cases hm : pasalMatchAt t p with
      | some cl =>
        obtain ⟨c, lab⟩ := cl
        rw [findPasalsFrom_succ_of_match t f p c lab hp hm]
        cases hrest : findPasalsFrom t f (p + max c 1) with
        | nil =>
          rw [show spansFrom t [(p, p + c, lab)] = [(p, t.length)] from rfl]
          simp only [List.map_cons, List.map_nil, List.flatten_cons, List.flatten_nil,
            List.append_nil, List.head?_cons, Option.map_some', Option.getD_some]
          unfold pySlice
          rw [List.take_of_length_le (by rw [List.length_drop])]
        | cons m2 rest2 =>
          obtain ⟨s2, e2, lab2⟩ := m2
          have hge : p + max c 1 ≤ s2 :=
            findPasalsFrom_cons_ge t f (p + max c 1) s2 (e2, lab2) rest2 hrest
          rw [show spansFrom t ((p, p + c, lab) :: (s2, e2, lab2) :: rest2) =
              (p, s2) :: spansFrom t ((s2, e2, lab2) :: rest2) from rfl]
          simp only [List.map_cons, List.flatten_cons, List.head?_cons, Option.map_some',
            Option.getD_some]
          have hih := ih (p + max c 1)
          rw [hrest] at hih
          simp only [List.head?_cons, Option.map_some', Option.getD_some] at hih
          rw [hih]
          exact pySlice_append_drop t p s2 (by omega)
      | none =>
        rw [findPasalsFrom_succ_of_none t f p hp hm]
        exact ih (p + 1)

/-- C1 counterexample: the claim is false on the code.  On `"x\nPasal 1\ny"`
the single block's span starts at the first header (offset 2), so the
union of the spans misses the text before the first header and does not
reconstruct the input. -/
theorem C1_counterexample :
    coveredText (String.toList "x\nPasal 1\ny") ≠ String.toList "x\nPasal 1\ny" := by
  decide

/-- C1 (amended): the block spans tile the text from the start of the
first detected header to the end of the document: the concatenation of the
span slices equals the text with the prefix before the first header
dropped (everything, when no header exists), each span ends where the next
begins, and the last span's end is the end of the text.  Text before the
first article header is not covered by any block. -/
theorem C1_spans_tile_from_first_header (t : List Char) :
    coveredText t = t.drop ((((pasalMatches t).head?).map fun m => m.1).getD t.length) ∧
      List.Chain' (fun a b => a.2 = b.1) (blockSpans t) ∧
      (∀ sp, (blockSpans t).getLast? = some sp → sp.2 = t.length) :=
  ⟨covered_findPasalsFrom t (t.length + 1) 0, spansFrom_chain t (pasalMatches t),
    fun sp h => spansFrom_last t (pasalMatches t) sp h⟩

/-- C1 witness: the amended tiling facts evaluated on a concrete text. -/
theorem C1_spans_witness :
    (blockSpans (String.toList "x\nPasal 1\ny")).getLast? = some (2, 11) ∧
      (2, 11).2 = (String.toList "x\nPasal 1\ny").length :=
  ⟨by decide, (C1_spans_tile_from_first_header (String.toList "x\nPasal 1\ny")).2.2
    (2, 11) (by decide)⟩

/-! ## Record building and the catalog loop -/

/-- A JSON-able field value of an output record. -/
inductive JVal where
  | s (v : List Char)
  | i (v : Int)
  | null
deriving DecidableEq

/-- One entry of the `PDF_FILES` catalog (a `DocumentConfig`). -/
structure DocConfig where
  pdf : List Char
  uu_code : List Char
  uu_name : List Char
  uu_number : List Char
  year : Int
  valid_from : Option (List Char)
  valid_to : Option (List Char)
deriving DecidableEq

/-- `Path(p).name`: the final path component. -/
def pathName (p : List Char) : List Char :=
  (p.reverse.takeWhile fun c => !(c == '/')).reverse

/-- The record dictionary built for one block in `build_records_per_pdf`,
as an ordered association list (Python dicts preserve insertion order). -/
def buildRecord (cfg : DocConfig) (blk : Block) : List (List Char × JVal) :=
  [ (String.toList "uu_code", JVal.s cfg.uu_code),
    (String.toList "uu_name", JVal.s cfg.uu_name),
    (String.toList "uu_number", JVal.s cfg.uu_number),
    (String.toList "year", JVal.i cfg.year),
    (String.toList "section_type", JVal.s (String.toList "PASAL")),
    (String.toList "title", JVal.s (String.toList "Pasal " ++ blk.pasal_number)),
    (String.toList "pasal_number", JVal.s blk.pasal_number),
    (String.toList "ayat_number", JVal.null),
    (String.toList "buku", match blk.buku with
      | some tg => JVal.s tg.label
      | none => JVal.null),
    (String.toList "bab", match blk.bab with
      | some tg => JVal.s tg.label
      | none => JVal.null),
    (String.toList "bagian", match blk.bagian with
      | some tg => JVal.s tg.label
      | none => JVal.null),
    (String.toList "valid_from", match cfg.valid_from with
      | some v => JVal.s v
      | none => JVal.null),
    (String.toList "valid_to", match cfg.valid_to with
      | some v => JVal.s v
      | none => JVal.null),
    (String.toList "source_file", JVal.s (pathName cfg.pdf)),
    (String.toList "text", JVal.s (minimal_clean blk.text)) ]

/-- `build_records_per_pdf(cfg)`, with the extracted text supplied by the
external Text Source collaborator as the parameter `raw`: empty or
whitespace-only text yields no records, otherwise one record per detected
block, the body run through `minimal_clean`. -/
def build_records_per_pdf (cfg : DocConfig) (raw : List Char) :
    List (List (List Char × JVal)) :=
  if raw = [] ∨ pstrip raw = [] then []
  else (detect_structure raw).map (buildRecord cfg)

/-- The per-document outcome of one iteration of the catalog loop in
`main`: the configured source file may be missing (`not p.exists()`),
processing may raise an exception (caught by the `except` clause), or it
produces a list of records. -/
inductive DocOutcome where
  | missing
  | error
  | ok (recs : List (List (List Char × JVal)))

/-- The catalog loop of `main`: process the configs in order; a missing
file or a caught exception makes the document contribute nothing and the
loop continue; otherwise the records are appended to the output and their
count added to the running total.  Returns the appended records and the
reported total. -/
def processCatalog (outcome : DocConfig → DocOutcome) :
    List DocConfig → List (List (List Char × JVal)) × Nat
  | [] => ([], 0)
  | cfg :: rest =>
    match outcome cfg with
    | DocOutcome.missing => processCatalog outcome rest
    | DocOutcome.error => processCatalog outcome rest
    | DocOutcome.ok recs =>
      ((recs ++ (processCatalog outcome rest).1),
        recs.length + (processCatalog outcome rest).2)

/-- The fixed key list of every output record, in schema order. -/
def recordKeys : List (List Char) :=
  [String.toList "uu_code", String.toList "uu_name", String.toList "uu_number",
   String.toList "year", String.toList "section_type", String.toList "title",
   String.toList "pasal_number", String.toList "ayat_number", String.toList "buku",
   String.toList "bab", String.toList "bagian", String.toList "valid_from",
   String.toList "valid_to", String.toList "source_file", String.toList "text"]

/-! ## Claim C7: record shape -/

/-- C7: every record has the fixed field set and order of the schema;
`section_type` is the constant `"PASAL"`; `title` is `"Pasal "` plus the
article label; `ayat_number` is always null; `buku`, `bab` and `bagian`
are the associated markers' labels, or null when no marker is associated;
and record building emits exactly one record per detected block. -/
theorem C7_record_shape (cfg : DocConfig) (blk : Block) (raw : List Char) :
    ((buildRecord cfg blk).map fun kv => kv.1) = recordKeys ∧
      (buildRecord cfg blk).lookup (String.toList "section_type") =
        some (JVal.s (String.toList "PASAL")) ∧
      (buildRecord cfg blk).lookup (String.toList "title") =
        some (JVal.s (String.toList "Pasal " ++ blk.pasal_number)) ∧
      (buildRecord cfg blk).lookup (String.toList "ayat_number") = some JVal.null ∧
      (buildRecord cfg blk).lookup (String.toList "buku") =
        some (match blk.buku with
          | some tg => JVal.s tg.label
          | none => JVal.null) ∧
      (buildRecord cfg blk).lookup (String.toList "bab") =
        some (match blk.bab with
          | some tg => JVal.s tg.label
          | none => JVal.null) ∧
      (buildRecord cfg blk).lookup (String.toList "bagian") =
        some (match blk.bagian with
          | some tg => JVal.s tg.label
          | none => JVal.null) ∧
      (build_records_per_pdf cfg raw).length =
        (if raw = [] ∨ pstrip raw = [] then 0 else (detect_structure raw).length) := by
  refine ⟨rfl, rfl, rfl, rfl, rfl, rfl, rfl, ?_⟩
  unfold build_records_per_pdf
  by_cases h : raw = [] ∨ pstrip raw = []
  · rw [if_pos h, if_pos h]; rfl
  · rw [if_neg h, if_neg h, List.length_map]

/-! ## Claim C8: per-document failure isolation in the catalog loop -/

/-- C8: the catalog loop is total and per-document failures are isolated:
a missing source file or a caught exception contributes zero records, the
remaining configs are still processed in order, and the run reports as
total exactly the number of records of the successfully processed
documents. -/
theorem C8_catalog_isolation (outcome : DocConfig → DocOutcome)
    (catalog : List DocConfig) :
    processCatalog outcome catalog =
      ((catalog.map fun cfg =>
          match outcome cfg with
          | DocOutcome.ok recs => recs
          | _ => []).flatten,
        (catalog.map fun cfg =>
          match outcome cfg with
          | DocOutcome.ok recs => recs.length
          | _ => 0).sum) := by
  induction catalog with
  | nil => rfl
  | cons cfg rest ih =>
    simp only [processCatalog, List.map_cons, List.flatten_cons, List.sum_cons, ih]
    cases outcome cfg <;> simp only [List.nil_append, Nat.zero_add]

/-! ## Claim C9: empty input and zero headers -/

theorem findPasalsFrom_nil_of_no_match (t : List Char)
    (h : ∀ p : Nat, p < t.length → pasalMatchAt t p = none) :
    ∀ fuel p : Nat, findPasalsFrom t fuel p = [] := by
  intro fuel
  induction fuel with
  | zero => intro p; rfl
  | succ f ih =>
    intro p
    by_cases hp : t.length ≤ p
    · exact findPasalsFrom_succ_of_le t f p hp
    · rw [findPasalsFrom_succ_of_none t f p hp (h p (by omega))]
      exact ih (p + 1)

/-- C9: empty or whitespace-only source text yields zero records and a
text with no article-header match yields an empty block list; neither is
an error (the functions are total). -/
theorem C9_empty_and_no_headers (cfg : DocConfig) (raw t : List Char)
    (hraw : pstrip raw = [])
    (ht : ∀ p : Nat, p < t.length → pasalMatchAt t p = none) :
    build_records_per_pdf cfg raw = [] ∧ detect_structure t = [] := by
  constructor
  · unfold build_records_per_pdf
    rw [if_pos (Or.inr hraw)]
  · unfold detect_structure pasalMatches
    rw [findPasalsFrom_nil_of_no_match t ht (t.length + 1) 0]
    rfl

/-- C9 witness: a whitespace-only text and a header-free text, on which
record building and structure detection return empty lists. -/
theorem C9_witness :
    build_records_per_pdf
        ⟨String.toList "pdf/a.pdf", [], [], [], 0, none, none⟩
        (String.toList "  \n\t \n") = [] ∧
      detect_structure (String.toList "Intro\nBAB I\nno articles here") = [] :=
  ⟨(C9_empty_and_no_headers ⟨String.toList "pdf/a.pdf", [], [], [], 0, none, none⟩
      (String.toList "  \n\t \n") (String.toList "Intro\nBAB I\nno articles here")
      (by decide) (by decide)).1,
   (C9_empty_and_no_headers ⟨String.toList "pdf/a.pdf", [], [], [], 0, none, none⟩
      (String.toList "  \n\t \n") (String.toList "Intro\nBAB I\nno articles here")
      (by decide) (by decide)).2⟩

/-! ## Claim C3: nearest-marker association -/

/-- Specification-side description of the nearest-marker lookup: among
the markers whose offset is at most `idx` (a marker exactly at `idx`
counts), the one appearing last — for an ascending-offset list, the one
with the greatest offset — or `none` when no marker is at or before
`idx`. -/
def nearestMarkerSpec (idx : Nat) (marks : List (Nat × Tag)) : Option Tag :=
  ((marks.filter fun pt => pt.1 ≤ idx).getLast?).map Prod.snd

theorem lineStartsFrom_lb (ls : List (List Char)) :
    ∀ pos : Nat, ∀ q ∈ lineStartsFrom pos ls, pos ≤ q := by
  induction ls with
  | nil => intro pos q hq; exact absurd hq (List.not_mem_nil q)
  | cons ln rest ih =>
    intro pos q hq
    rcases List.mem_cons.mp hq with h | h
    · omega
    · have := ih (pos + ln.length + 1) q h; omega

theorem pairwise_zip_lineStarts (ls : List (List Char)) :
    ∀ pos : Nat,
      ((lineStartsFrom pos ls).zip ls).Pairwise fun a b => a.1 < b.1 := by
  induction ls with
  | nil => intro pos; exact List.Pairwise.nil
  | cons ln rest ih =>
    intro pos
    refine List.Pairwise.cons ?_ (ih (pos + ln.length + 1))
    intro b hb
    obtain ⟨b1, b2⟩ := b
    have h1 := (List.of_mem_zip hb).1
    have := lineStartsFrom_lb rest (pos + ln.length + 1) b1 h1
    show pos < b1
    omega

theorem pairwise_marksOf (kw : List Char) (lc : Char → Bool)
    (kind t : List Char) :
    (marksOf kw lc kind t).Pairwise fun a b => a.1 < b.1 := by
  unfold marksOf
  rw [List.pairwise_filterMap]
  refine List.Pairwise.imp ?_ (pairwise_zip_lineStarts (splitlines t) 0)
  intro a b hab x hx y hy
  rw [Option.mem_def, Option.map_eq_some'] at hx hy
  obtain ⟨u, hu, hxu⟩ := hx
  obtain ⟨v, hv, hyv⟩ := hy
  rw [← hxu, ← hyv]
  exact hab

theorem getLast?_map_snd_cons (a : Nat × Tag) (l : List (Nat × Tag)) :
    ((a :: l).getLast?).map Prod.snd =
      some (((l.getLast?).map Prod.snd).getD a.2) := by
  cases l with
  | nil => rfl
  | cons q qs =>
    rw [List.getLast?_cons_cons]
    obtain ⟨x, hx⟩ := Option.isSome_iff_exists.mp
      ((List.getLast?_isSome (l := q :: qs)).mpr (by simp))
    rw [hx]
    rfl

theorem nearest_tag_eq_spec (idx : Nat) :
    ∀ marks : List (Nat × Tag), marks.Pairwise (fun a b => a.1 < b.1) →
      nearest_tag idx marks = nearestMarkerSpec idx marks := by
  intro marks
  induction marks with
  | nil => intro h; rfl
  | cons pt rest ih =>
    intro hp
    obtain ⟨p, tag⟩ := pt
    rw [List.pairwise_cons] at hp
    simp only [nearest_tag]
    by_cases hle : p ≤ idx
    · rw [if_pos hle, ih hp.2]
      unfold nearestMarkerSpec
      rw [List.filter_cons_of_pos (by simpa using hle), getLast?_map_snd_cons]
    · rw [if_neg hle]
      unfold nearestMarkerSpec
      rw [List.filter_cons_of_neg (by simpa using hle),
        List.filter_eq_nil_iff.mpr ?_]
      · rfl
      · intro a ha
        have := hp.1 a ha
        simp only [decide_eq_true_eq]
        omega

theorem sorted_le_getLast :
    ∀ l : List (Nat × Tag), l.Pairwise (fun a b => a.1 < b.1) →
      ∀ x, l.getLast? = some x → ∀ y ∈ l, y.1 ≤ x.1 := by
  intro l
  induction l with
  | nil => intro _ x hx; exact absurd hx (by simp)
  | cons a l ih =>
    intro hp x hx y hy
    rw [List.pairwise_cons] at hp
    cases l with
    | nil =>
      simp only [List.getLast?_singleton, Option.some.injEq] at hx
      rcases List.mem_singleton.mp hy with rfl
      rw [hx]
    | cons b l2 =>
      rw [List.getLast?_cons_cons] at hx
      rcases List.mem_cons.mp hy with rfl | hy2
      · have hxmem : x ∈ b :: l2 := List.mem_of_mem_getLast? hx
        exact le_of_lt (hp.1 x hxmem)
      · exact ih hp.2 x hx y hy2

theorem nearestMarkerSpec_max (idx : Nat) (marks : List (Nat × Tag))
    (hs : marks.Pairwise fun a b => a.1 < b.1) :
    (nearestMarkerSpec idx marks = none ↔ ∀ pt ∈ marks, idx < pt.1) ∧
      ∀ tag, nearestMarkerSpec idx marks = some tag →
        ∃ p, (p, tag) ∈ marks ∧ p ≤ idx ∧
          ∀ qt ∈ marks, qt.1 ≤ idx → qt.1 ≤ p := by
  constructor
  · simp only [nearestMarkerSpec, Option.map_eq_none', List.getLast?_eq_none_iff,
      List.filter_eq_nil_iff, decide_eq_true_eq, not_le]
  · intro tag h
    unfold nearestMarkerSpec at h
    rw [Option.map_eq_some'] at h
    obtain ⟨x, hx, hxt⟩ := h
    have hxf : x ∈ marks.filter fun pt => pt.1 ≤ idx :=
      List.mem_of_mem_getLast? hx
    rw [List.mem_filter] at hxf
    refine ⟨x.1, ?_, by simpa using hxf.2, ?_⟩
    · rw [show (x.1, tag) = x from by rw [← hxt]]
      exact hxf.1
    · intro qt hq hqle
      have hqf : qt ∈ marks.filter fun pt => pt.1 ≤ idx :=
        List.mem_filter.mpr ⟨hq, by simpa using hqle⟩
      exact sorted_le_getLast _
        (List.Pairwise.sublist (List.filter_sublist marks) hs) x hx qt hqf

theorem blocksFrom_length (t : List Char) (bk bb bg : List (Nat × Tag)) :
    ∀ ms, (blocksFrom t bk bb bg ms).length = ms.length := by
  intro ms
  induction ms with
  | nil => rfl
  | cons m rest ih =>
    obtain ⟨s, e, lab⟩ := m
    simp only [blocksFrom, List.length_cons, ih]

theorem blocksFrom_get_tags (t : List Char) (bk bb bg : List (Nat × Tag)) :
    ∀ (ms : List (Nat × Nat × List Char)) (i : Nat)
      (h : i < (blocksFrom t bk bb bg ms).length) (h2 : i < ms.length),
      ((blocksFrom t bk bb bg ms).get ⟨i, h⟩).buku =
          nearest_tag (ms.get ⟨i, h2⟩).1 bk ∧
        ((blocksFrom t bk bb bg ms).get ⟨i, h⟩).bab =
          nearest_tag (ms.get ⟨i, h2⟩).1 bb ∧
        ((blocksFrom t bk bb bg ms).get ⟨i, h⟩).bagian =
          nearest_tag (ms.get ⟨i, h2⟩).1 bg := by
  intro ms
  induction ms with
  | nil => intro i h h2; exact absurd h2 (by simp)
  | cons m rest ih =>
    intro i h h2
    obtain ⟨s, e, lab⟩ := m
    cases i with
    | zero => exact ⟨rfl, rfl, rfl⟩
    | succ j =>
      exact ih j (by simpa [blocksFrom] using Nat.lt_of_succ_lt_succ h)
        (Nat.lt_of_succ_lt_succ h2)

/-- C3: for every input text and every detected block, the associated
`buku`, `bab` and `bagian` are exactly the last marker of the family at
or before the block's start offset (a marker exactly at the start
counts); moreover, for the families' ascending-offset marker lists that
lookup is `none` precisely when no marker of the family is at or before
the offset, and when it is `some tag` the tag belongs to a marker at or
before the offset whose offset is greatest among all such markers. -/
theorem C3_nearest_marker_correct (t : List Char) (i : Nat)
    (hi : i < (detect_structure t).length)
    (hm : i < (pasalMatches t).length) :
    (((detect_structure t).get ⟨i, hi⟩).buku =
        nearestMarkerSpec ((pasalMatches t).get ⟨i, hm⟩).1 (bukuMarks t) ∧
      ((detect_structure t).get ⟨i, hi⟩).bab =
        nearestMarkerSpec ((pasalMatches t).get ⟨i, hm⟩).1 (babMarks t) ∧
      ((detect_structure t).get ⟨i, hi⟩).bagian =
        nearestMarkerSpec ((pasalMatches t).get ⟨i, hm⟩).1 (bagianMarks t)) ∧
      ∀ marks ∈ [bukuMarks t, babMarks t, bagianMarks t], ∀ idx : Nat,
        (nearestMarkerSpec idx marks = none ↔ ∀ pt ∈ marks, idx < pt.1) ∧
          ∀ tag, nearestMarkerSpec idx marks = some tag →
            ∃ p, (p, tag) ∈ marks ∧ p ≤ idx ∧
              ∀ qt ∈ marks, qt.1 ≤ idx → qt.1 ≤ p := by
  have hbk : (bukuMarks t).Pairwise fun a b => a.1 < b.1 :=
    pairwise_marksOf _ _ _ t
  have hbb : (babMarks t).Pairwise fun a b => a.1 < b.1 :=
    pairwise_marksOf _ _ _ t
  have hbg : (bagianMarks t).Pairwise fun a b => a.1 < b.1 :=
    pairwise_marksOf _ _ _ t
  constructor
  · obtain ⟨e1, e2, e3⟩ := blocksFrom_get_tags t (bukuMarks t) (babMarks t)
      (bagianMarks t) (pasalMatches t) i hi hm
    exact ⟨by rw [show (detect_structure t).get ⟨i, hi⟩ =
          (blocksFrom t (bukuMarks t) (babMarks t) (bagianMarks t)
            (pasalMatches t)).get ⟨i, hi⟩ from rfl, e1,
          nearest_tag_eq_spec _ _ hbk],
        by rw [show (detect_structure t).get ⟨i, hi⟩ =
          (blocksFrom t (bukuMarks t) (babMarks t) (bagianMarks t)
            (pasalMatches t)).get ⟨i, hi⟩ from rfl, e2,
          nearest_tag_eq_spec _ _ hbb],
        by rw [show (detect_structure t).get ⟨i, hi⟩ =
          (blocksFrom t (bukuMarks t) (babMarks t) (bagianMarks t)
            (pasalMatches t)).get ⟨i, hi⟩ from rfl, e3,
          nearest_tag_eq_spec _ _ hbg]⟩
  · intro marks hmem idx
    rcases List.mem_cons.mp hmem with rfl | hmem2
    · exact nearestMarkerSpec_max idx _ hbk
    rcases List.mem_cons.mp hmem2 with rfl | hmem3
    · exact nearestMarkerSpec_max idx _ hbb
    rcases List.mem_cons.mp hmem3 with rfl | hmem4
    · exact nearestMarkerSpec_max idx _ hbg
    · exact absurd hmem4 (List.not_mem_nil marks)

/-- A crafted text with markers at known offsets and interleaved
articles, exercising the nearest-marker association. -/
def c3txt : List Char :=
  String.toList
    "BUKU I\nBAB I\nKETENTUAN UMUM\nPasal 1\nisi pasal satu\nBagian 2\nPasal 2\nlagi"

/-- C3 witness: the nearest-marker characterization instantiated on
`c3txt` at the second detected block. -/
theorem C3_witness :
    1 < (detect_structure c3txt).length ∧ 1 < (pasalMatches c3txt).length ∧
      ((((detect_structure c3txt).get ⟨1, by decide⟩).buku =
          nearestMarkerSpec ((pasalMatches c3txt).get ⟨1, by decide⟩).1
            (bukuMarks c3txt) ∧
        ((detect_structure c3txt).get ⟨1, by decide⟩).bab =
          nearestMarkerSpec ((pasalMatches c3txt).get ⟨1, by decide⟩).1
            (babMarks c3txt) ∧
        ((detect_structure c3txt).get ⟨1, by decide⟩).bagian =
          nearestMarkerSpec ((pasalMatches c3txt).get ⟨1, by decide⟩).1
            (bagianMarks c3txt)) ∧
        ∀ marks ∈ [bukuMarks c3txt, babMarks c3txt, bagianMarks c3txt],
          ∀ idx : Nat,
            (nearestMarkerSpec idx marks = none ↔ ∀ pt ∈ marks, idx < pt.1) ∧
              ∀ tag, nearestMarkerSpec idx marks = some tag →
                ∃ p, (p, tag) ∈ marks ∧ p ≤ idx ∧
                  ∀ qt ∈ marks, qt.1 ≤ idx → qt.1 ≤ p) :=
  ⟨by decide, by decide,
    C3_nearest_marker_correct c3txt 1 (by decide) (by decide)⟩

/-! ## Claim C4: the detector's body is not the raw substring -/

theorem chGo_mem (l : List Char) :
    ∀ b, ∀ c ∈ chGo b l, c = ' ' ∨ isHT c = false := by
  induction l with
  | nil => intro b c hc; exact absurd hc (List.not_mem_nil c)
  | cons a rest ih =>
    intro b c hc
    by_cases ha : isHT a = true
    · rw [show chGo b (a :: rest) =
          (if b then chGo true rest else ' ' :: chGo true rest) from by
        simp [chGo, ha]] at hc
      cases b with
      | true => exact ih true c hc
      | false =>
        rcases List.mem_cons.mp hc with rfl | hc2
        · exact Or.inl rfl
        · exact ih true c hc2
    · rw [show chGo b (a :: rest) = a :: chGo false rest from by
        simp [chGo, ha]] at hc
      rcases List.mem_cons.mp hc with rfl | hc2
      · exact Or.inr (by simpa using ha)
      · exact ih false c hc2

theorem chGo_chain (l : List Char) :
    (List.Chain' (fun a b => ¬(isHT a = true ∧ isHT b = true)) (chGo false l) ∧
        List.Chain' (fun a b => ¬(isHT a = true ∧ isHT b = true)) (chGo true l)) ∧
      ∀ c, (chGo true l).head? = some c → isHT c = false := by
  induction l with
  | nil => exact ⟨⟨List.chain'_nil, List.chain'_nil⟩, by intro c hc; cases hc⟩
  | cons a rest ih =>
    by_cases ha : isHT a = true
    · have e1 : chGo false (a :: rest) = ' ' :: chGo true rest := by
        simp [chGo, ha]
      have e2 : chGo true (a :: rest) = chGo true rest := by
        simp [chGo, ha]
      refine ⟨⟨?_, ?_⟩, ?_⟩
      · rw [e1]
        refine List.chain'_cons'.mpr ⟨?_, ih.1.2⟩
        intro y hy
        have := ih.2 y hy
        intro hand
        rw [this] at hand
        exact absurd hand.2 (by simp)
      · rw [e2]; exact ih.1.2
      · rw [e2]; exact ih.2
    · have e1 : chGo false (a :: rest) = a :: chGo false rest := by
        simp [chGo, ha]
      have e2 : chGo true (a :: rest) = a :: chGo false rest := by
        simp [chGo, ha]
      have hch : List.Chain' (fun a b => ¬(isHT a = true ∧ isHT b = true))
          (a :: chGo false rest) := by
        refine List.chain'_cons'.mpr ⟨?_, ih.1.1⟩
        intro y hy hand
        exact absurd hand.1 ha
      refine ⟨⟨by rw [e1]; exact hch, by rw [e2]; exact hch⟩, ?_⟩
      intro c hc
      rw [e2, List.head?_cons, Option.some.injEq] at hc
      rw [hc] at ha
      simpa using ha

theorem mem_blocksFrom (t : List Char) (bk bb bg : List (Nat × Tag)) :
    ∀ (ms : List (Nat × Nat × List Char)) (blk : Block),
      blk ∈ blocksFrom t bk bb bg ms →
        ∃ s e lab, blk.text = blockBody t s e lab := by
  intro ms
  induction ms with
  | nil => intro blk h; exact absurd h (List.not_mem_nil blk)
  | cons m rest ih =>
    intro blk h
    obtain ⟨s, e, lab⟩ := m
    rcases List.mem_cons.mp h with rfl | h2
    · exact ⟨s, nextStart t rest, lab, rfl⟩
    · exact ih blk h2

/-- C4 counterexample: on `"Pasal 1\na\tb"` the only block's body is
`"a b"`; stripping just the own header line from the raw substring
yields `"\na\tb"`, and neither it nor its stripped form `"a\tb"` is the
body — the tab has been collapsed to a space. -/
theorem C4_counterexample :
    (detect_structure (String.toList "Pasal 1\na\tb")).map Block.text =
        [String.toList "a b"] ∧
      subRemoveOwn ['1'] (pySlice (String.toList "Pasal 1\na\tb") 0 11) =
        String.toList "\na\tb" ∧
      ¬ (String.toList "a b" = String.toList "\na\tb") ∧
      ¬ (String.toList "a b" = String.toList "a\tb") := by decide

/-- C4 (amended): the body handed to the normalizer is not the raw
substring: after the slice it is stripped, the own header removed,
stripped again, and every run of spaces/tabs collapsed to a single
space; consequently a block's text never contains a tab and never
contains two adjacent horizontal-whitespace characters. -/
theorem C4_body_not_raw (t : List Char) (blk : Block)
    (h : blk ∈ detect_structure t) :
    (∃ s e lab, blk.text =
        collapseHT1 (pstrip (subRemoveOwn lab (pstrip (pySlice t s e))))) ∧
      (∀ c ∈ blk.text, ¬ c = '\t') ∧
      List.Chain' (fun a b => ¬(isHT a = true ∧ isHT b = true)) blk.text := by
  obtain ⟨s, e, lab, he⟩ := mem_blocksFrom t _ _ _ (pasalMatches t) blk h
  refine ⟨⟨s, e, lab, he⟩, ?_, ?_⟩
  · intro c hc
    rw [he] at hc
    rcases chGo_mem _ false c hc with rfl | hf
    · intro hcontra; cases hcontra
    · intro hcontra; rw [hcontra] at hf; simp [isHT] at hf
  · rw [he]
    exact (chGo_chain _).1.1

/-- The single block detected in the C4 counterexample text. -/
def c4blk : Block :=
  ⟨['1'], String.toList "a b", none, none, none⟩

/-- C4 witness: the amended statement instantiated on the block detected
in `"Pasal 1\na\tb"`. -/
theorem C4_witness :
    c4blk ∈ detect_structure (String.toList "Pasal 1\na\tb") ∧
      ((∃ s e lab, c4blk.text =
          collapseHT1 (pstrip (subRemoveOwn lab
            (pstrip (pySlice (String.toList "Pasal 1\na\tb") s e))))) ∧
        (∀ c ∈ c4blk.text, ¬ c = '\t') ∧
        List.Chain' (fun a b => ¬(isHT a = true ∧ isHT b = true)) c4blk.text) :=
  ⟨by decide, C4_body_not_raw (String.toList "Pasal 1\na\tb") c4blk (by decide)⟩

/-! ## Claim C6: own-header stripping

The spec-side predicate of a line being exactly the article keyword plus
the block's own label, case-insensitively, with surrounding blank space
(`(?im)^\s*Pasal\s+<label>\s*$` matching the whole line). -/

def ownHeaderLine (lab ln : List Char) : Bool :=
  let r1 := ln.dropWhile isWS
  if ciStarts (String.toList "pasal") r1 then
    let r2 := r1.drop 5
    if (r2.takeWhile isWS).length = 0 then false
    else
      let r3 := r2.dropWhile isWS
      ciStarts (lab.map Char.toLower) r3 && (r3.drop lab.length).all isWS
  else false

theorem toNat_ofNat_char (m : Nat) (h1 : 97 ≤ m) (h2 : m ≤ 122) :
    (Char.ofNat m).toNat = m := by
  have hv : m.isValidChar := Or.inl (by omega)
  unfold Char.ofNat
  rw [dif_pos hv]
  simp [Char.ofNatAux, Char.toNat, UInt32.toNat]

theorem isHT_toLower (c : Char) : isHT c.toLower = isHT c := by
  unfold Char.toLower
  simp only []
  by_cases h : c.toNat ≥ 65 ∧ c.toNat ≤ 90
  · rw [if_pos h]
    have hvn : (Char.ofNat (c.toNat + 32)).toNat = c.toNat + 32 :=
      toNat_ofNat_char _ (by omega) (by omega)
    have h1 : isHT (Char.ofNat (c.toNat + 32)) = false := by
      simp only [isHT, Bool.or_eq_false_iff, beq_eq_false_iff_ne, ne_eq]
      constructor
      · intro he
        rw [he] at hvn
        have h32 : (' ' : Char).toNat = 32 := rfl
        omega
      · intro he
        rw [he] at hvn
        have h9 : ('\t' : Char).toNat = 9 := rfl
        omega
    have h2 : isHT c = false := by
      simp only [isHT, Bool.or_eq_false_iff, beq_eq_false_iff_ne, ne_eq]
      constructor
      · intro he
        rw [he] at h
        have h32 : (' ' : Char).toNat = 32 := rfl
        omega
      · intro he
        rw [he] at h
        have h9 : ('\t' : Char).toNat = 9 := rfl
        omega
    rw [h1, h2]
  · rw [if_neg h]

theorem isWS_toLower (c : Char) : isWS c.toLower = isWS c := by
  unfold Char.toLower
  simp only []
  by_cases h : c.toNat ≥ 65 ∧ c.toNat ≤ 90
  · rw [if_pos h]
    have hvn : (Char.ofNat (c.toNat + 32)).toNat = c.toNat + 32 :=
      toNat_ofNat_char _ (by omega) (by omega)
    have h1 : isWS (Char.ofNat (c.toNat + 32)) = false := by
      simp only [isWS, isHT, isNl, Bool.or_eq_false_iff, beq_eq_false_iff_ne, ne_eq]
      refine ⟨⟨?_, ?_⟩, ?_⟩ <;> intro he <;> rw [he] at hvn
      · have : (' ' : Char).toNat = 32 := rfl
        omega
      · have : ('\t' : Char).toNat = 9 := rfl
        omega
      · have : ('\n' : Char).toNat = 10 := rfl
        omega
    have h2 : isWS c = false := by
      simp only [isWS, isHT, isNl, Bool.or_eq_false_iff, beq_eq_false_iff_ne, ne_eq]
      refine ⟨⟨?_, ?_⟩, ?_⟩ <;> intro he <;> rw [he] at h
      · have : (' ' : Char).toNat = 32 := rfl
        omega
      · have : ('\t' : Char).toNat = 9 := rfl
        omega
      · have : ('\n' : Char).toNat = 10 := rfl
        omega
    rw [h1, h2]
  · rw [if_neg h]

theorem drop_length_takeWhile (p : Char → Bool) (l : List Char) :
    l.drop (l.takeWhile p).length = l.dropWhile p := by
  have := List.takeWhile_append_dropWhile p l
  calc l.drop (l.takeWhile p).length
      = (l.takeWhile p ++ l.dropWhile p).drop (l.takeWhile p).length := by rw [this]
    _ = l.dropWhile p := List.drop_left _ _

theorem takeWhile_append_all (p : Char → Bool) (A B : List Char)
    (hA : ∀ c ∈ A, p c = true) :
    (A ++ B).takeWhile p = A ++ B.takeWhile p := by
  induction A with
  | nil => rfl
  | cons a A ih =>
    rw [List.cons_append, List.takeWhile_cons,
      if_pos (hA a (List.mem_cons_self a A)), ih fun c hc => hA c (List.mem_cons_of_mem a hc)]
    rfl

theorem dropWhile_append_all (p : Char → Bool) (A B : List Char)
    (hA : ∀ c ∈ A, p c = true) :
    (A ++ B).dropWhile p = B.dropWhile p := by
  induction A with
  | nil => rfl
  | cons a A ih =>
    rw [List.cons_append, List.dropWhile_cons,
      if_pos (hA a (List.mem_cons_self a A))]
    exact ih fun c hc => hA c (List.mem_cons_of_mem a hc)

theorem takeWhile_append_stop (p : Char → Bool) (A B : List Char)
    (hA : ∃ c ∈ A, p c = false) :
    (A ++ B).takeWhile p = A.takeWhile p := by
  induction A with
  | nil => obtain ⟨c, hc, -⟩ := hA; exact absurd hc (List.not_mem_nil c)
  | cons a A ih =>
    by_cases hpa : p a = true
    · rw [List.cons_append, List.takeWhile_cons, if_pos hpa, List.takeWhile_cons, if_pos hpa]
      obtain ⟨c, hc, hpc⟩ := hA
      rcases List.mem_cons.mp hc with rfl | hc2
      · rw [hpa] at hpc; cases hpc
      · rw [ih ⟨c, hc2, hpc⟩]
    · rw [List.cons_append, List.takeWhile_cons, if_neg hpa, List.takeWhile_cons, if_neg hpa]

theorem dropWhile_append_stop (p : Char → Bool) (A B : List Char)
    (hA : ∃ c ∈ A, p c = false) :
    (A ++ B).dropWhile p = A.dropWhile p ++ B := by
  induction A with
  | nil => obtain ⟨c, hc, -⟩ := hA; exact absurd hc (List.not_mem_nil c)
  | cons a A ih =>
    by_cases hpa : p a = true
    · rw [List.cons_append, List.dropWhile_cons, if_pos hpa, List.dropWhile_cons, if_pos hpa]
      obtain ⟨c, hc, hpc⟩ := hA
      rcases List.mem_cons.mp hc with rfl | hc2
      · rw [hpa] at hpc; cases hpc
      · rw [ih ⟨c, hc2, hpc⟩]
    · rw [List.cons_append, List.dropWhile_cons, if_neg hpa, List.dropWhile_cons, if_neg hpa]
      rfl

theorem ownHeaderLine_nil (lab : List Char) : ownHeaderLine lab [] = false := rfl

theorem ownHeaderLine_ws_cons (lab : List Char) (c : Char) (ln : List Char)
    (hc : isWS c = true) : ownHeaderLine lab (c :: ln) = ownHeaderLine lab ln := by
  simp only [ownHeaderLine, List.dropWhile_cons, if_pos hc]

theorem ownHeaderLine_all_ws (lab ln : List Char) (h : ∀ c ∈ ln, isWS c = true) :
    ownHeaderLine lab ln = false := by
  simp only [ownHeaderLine]
  rw [List.dropWhile_eq_nil_iff.mpr h, if_neg (by decide)]

/-- Extraction: a line matching the own-header pattern decomposes into
leading whitespace, the keyword (case-insensitively), mandatory
whitespace, the label (case-insensitively), and trailing whitespace. -/
theorem ownHeaderLine_decomp (lab ln : List Char)
    (h : ownHeaderLine lab ln = true) :
    ∃ A P W B C, ln = A ++ (P ++ (W ++ (B ++ C))) ∧
      (∀ c ∈ A, isWS c = true) ∧
      P.map Char.toLower = String.toList "pasal" ∧
      (∀ c ∈ W, isWS c = true) ∧ W ≠ [] ∧
      B.map Char.toLower = lab.map Char.toLower ∧
      (∀ c ∈ C, isWS c = true) := by
  simp only [ownHeaderLine] at h
  by_cases h1 : ciStarts (String.toList "pasal") (ln.dropWhile isWS) = true
  case neg => rw [if_neg h1] at h; cases h
  rw [if_pos h1] at h
  by_cases h2 : (((ln.dropWhile isWS).drop 5).takeWhile isWS).length = 0
  case pos => rw [if_pos h2] at h; cases h
  rw [if_neg h2, Bool.and_eq_true] at h
  obtain ⟨h3, h4⟩ := h
  refine ⟨ln.takeWhile isWS, (ln.dropWhile isWS).take 5,
    ((ln.dropWhile isWS).drop 5).takeWhile isWS,
    (((ln.dropWhile isWS).drop 5).dropWhile isWS).take lab.length,
    (((ln.dropWhile isWS).drop 5).dropWhile isWS).drop lab.length,
    ?_, ?_, ?_, ?_, ?_, ?_, ?_⟩
  · have e4 : (((ln.dropWhile isWS).drop 5).dropWhile isWS).take lab.length ++
        (((ln.dropWhile isWS).drop 5).dropWhile isWS).drop lab.length =
        ((ln.dropWhile isWS).drop 5).dropWhile isWS := List.take_append_drop _ _
    have e3 : (ln.dropWhile isWS).drop 5 =
        ((ln.dropWhile isWS).drop 5).takeWhile isWS ++
          ((ln.dropWhile isWS).drop 5).dropWhile isWS :=
      (List.takeWhile_append_dropWhile _ _).symm
    have e2 : ln.dropWhile isWS =
        (ln.dropWhile isWS).take 5 ++ (ln.dropWhile isWS).drop 5 :=
      (List.take_append_drop _ _).symm
    rw [e4, ← e3, ← e2]
    exact (List.takeWhile_append_dropWhile _ _).symm
  · intro c hc; exact List.mem_takeWhile_imp hc
  · have h1b : ((ln.dropWhile isWS).take (String.toList "pasal").length).map Char.toLower =
        String.toList "pasal" := beq_iff_eq.mp h1
    have h5 : (String.toList "pasal").length = 5 := rfl
    rw [h5] at h1b
    exact h1b
  · intro c hc; exact List.mem_takeWhile_imp hc
  · intro hnil
    rw [hnil] at h2
    exact h2 rfl
  · have h3b := beq_iff_eq.mp h3
    rwa [List.length_map] at h3b
  · intro c hc
    have := h4
    rw [List.all_eq_true] at this
    exact this c hc

/-- Soundness: any such decomposition is matched by the own-header
pattern. -/
theorem ownHeaderLine_build (lab : List Char) (hlab : lab ≠ [])
    (hlabws : ∀ c ∈ lab, isWS c = false)
    (A P W B C : List Char)
    (hA : ∀ c ∈ A, isWS c = true)
    (hP : P.map Char.toLower = String.toList "pasal")
    (hW : ∀ c ∈ W, isWS c = true) (hWne : W ≠ [])
    (hB : B.map Char.toLower = lab.map Char.toLower)
    (hC : ∀ c ∈ C, isWS c = true) :
    ownHeaderLine lab (A ++ (P ++ (W ++ (B ++ C)))) = true := by
  have hPlen : P.length = 5 := by
    have := congrArg List.length hP
    rwa [List.length_map] at this
  have hPws : ∀ c ∈ P, isWS c = false := by
    intro c hc
    have hmem : c.toLower ∈ String.toList "pasal" := by
      rw [← hP]; exact List.mem_map_of_mem Char.toLower hc
    rw [← isWS_toLower]
    rcases List.mem_cons.mp hmem with he | hmem
    · rw [he]; decide
    rcases List.mem_cons.mp hmem with he | hmem
    · rw [he]; decide
    rcases List.mem_cons.mp hmem with he | hmem
    · rw [he]; decide
    rcases List.mem_cons.mp hmem with he | hmem
    · rw [he]; decide
    rcases List.mem_cons.mp hmem with he | hmem
    · rw [he]; decide
    · exact absurd hmem (List.not_mem_nil _)
  have hBws : ∀ c ∈ B, isWS c = false := by
    intro c hc
    have hmem : c.toLower ∈ lab.map Char.toLower := by
      rw [← hB]; exact List.mem_map_of_mem Char.toLower hc
    rw [List.mem_map] at hmem
    obtain ⟨d, hd, hde⟩ := hmem
    rw [← isWS_toLower, ← hde, isWS_toLower]
    exact hlabws d hd
  have hBlen : B.length = lab.length := by
    have := congrArg List.length hB
    rwa [List.length_map, List.length_map] at this
  have hBne : B ≠ [] := by
    intro hnil
    rw [hnil] at hBlen
    exact hlab (List.length_eq_zero.mp hBlen.symm)
  obtain ⟨p0, P', rfl⟩ : ∃ p0 P', P = p0 :: P' := by
    cases P with
    | nil => cases hPlen
    | cons a b => exact ⟨a, b, rfl⟩
  obtain ⟨b0, B', rfl⟩ : ∃ b0 B', B = b0 :: B' := by
    cases B with
    | nil => exact absurd rfl hBne
    | cons a b => exact ⟨a, b, rfl⟩
  have hp0 : isWS p0 = false := hPws p0 (List.mem_cons_self _ _)
  have hb0 : isWS b0 = false := hBws b0 (List.mem_cons_self _ _)
  have hr1 : (A ++ ((p0 :: P') ++ (W ++ ((b0 :: B') ++ C)))).dropWhile isWS =
      (p0 :: P') ++ (W ++ ((b0 :: B') ++ C)) := by
    rw [dropWhile_append_all isWS A _ hA, List.cons_append, List.dropWhile_cons,
      if_neg (by rw [hp0]; simp)]
  have hci1 : ciStarts (String.toList "pasal")
      ((p0 :: P') ++ (W ++ ((b0 :: B') ++ C))) = true := by
    unfold ciStarts
    rw [show (String.toList "pasal").length = 5 from rfl, ← hPlen,
      List.take_left, hP]
    exact beq_self_eq_true _
  have hr2 : ((p0 :: P') ++ (W ++ ((b0 :: B') ++ C))).drop 5 =
      W ++ ((b0 :: B') ++ C) := by
    rw [← hPlen, List.drop_left]
  have htw : (W ++ ((b0 :: B') ++ C)).takeWhile isWS = W := by
    rw [takeWhile_append_all isWS W _ hW, List.cons_append, List.takeWhile_cons,
      if_neg (by rw [hb0]; simp), List.append_nil]
  have hdw : (W ++ ((b0 :: B') ++ C)).dropWhile isWS = (b0 :: B') ++ C := by
    rw [dropWhile_append_all isWS W _ hW, List.cons_append, List.dropWhile_cons,
      if_neg (by rw [hb0]; simp)]
  have hci2 : ciStarts (lab.map Char.toLower) ((b0 :: B') ++ C) = true := by
    unfold ciStarts
    rw [List.length_map, ← hBlen, List.take_left, hB]
    exact beq_self_eq_true _
  have hall : (((b0 :: B') ++ C).drop lab.length).all isWS = true := by
    rw [← hBlen, List.drop_left, List.all_eq_true]
    exact hC
  simp only [ownHeaderLine]
  rw [hr1, if_pos hci1, hr2, htw, hdw,
    if_neg (fun hz => hWne (List.length_eq_zero.mp hz)), hci2, hall]
  rfl

/-- Appending within-line trailing whitespace preserves an own-header
match. -/
theorem ownHeaderLine_append_ws (lab : List Char) (hlab : lab ≠ [])
    (hlabws : ∀ c ∈ lab, isWS c = false) (ln v : List Char)
    (hv : ∀ c ∈ v, isWS c = true)
    (h : ownHeaderLine lab ln = true) : ownHeaderLine lab (ln ++ v) = true := by
  obtain ⟨A, P, W, B, C, rfl, hA, hP, hW, hWne, hB, hC⟩ :=
    ownHeaderLine_decomp lab ln h
  have : A ++ (P ++ (W ++ (B ++ C))) ++ v = A ++ (P ++ (W ++ (B ++ (C ++ v)))) := by
    simp [List.append_assoc]
  rw [this]
  refine ownHeaderLine_build lab hlab hlabws A P W B (C ++ v) hA hP hW hWne hB ?_
  intro c hc
  rcases List.mem_append.mp hc with hc | hc
  · exact hC c hc
  · exact hv c hc

theorem lastNl_spec (xs : List Char) :
    ∀ i : Nat, lastNl xs = some i → i < xs.length ∧ xs[i]? = some '\n' := by
  induction xs with
  | nil => intro i h; cases h
  | cons c rest ih =>
    intro i h
    rw [show lastNl (c :: rest) =
        (match lastNl rest with
          | some j => some (j + 1)
          | none => if c = '\n' then some 0 else none) from rfl] at h
    cases hr : lastNl rest with
    | some j =>
      rw [hr] at h
      injection h with h
      obtain ⟨hj1, hj2⟩ := ih j hr
      subst h
      refine ⟨by simpa using Nat.succ_lt_succ hj1, ?_⟩
      simpa using hj2
    | none =>
      rw [hr] at h
      by_cases hc : c = '\n'
      · rw [if_pos hc] at h
        injection h with h
        subst h
        subst hc
        exact ⟨by simp, by simp⟩
      · rw [if_neg hc] at h
        cases h

theorem lastNl_isSome_of_mem (xs : List Char) (h : '\n' ∈ xs) :
    ∃ i, lastNl xs = some i := by
  induction xs with
  | nil => exact absurd h (List.not_mem_nil _)
  | cons c rest ih =>
    rw [show lastNl (c :: rest) =
        (match lastNl rest with
          | some j => some (j + 1)
          | none => if c = '\n' then some 0 else none) from rfl]
    cases hr : lastNl rest with
    | some j => exact ⟨j + 1, rfl⟩
    | none =>
      rcases List.mem_cons.mp h with rfl | hmem
      · exact ⟨0, by rw [if_pos rfl]⟩
      · obtain ⟨i, hi⟩ := ih hmem
        rw [hi] at hr
        cases hr

theorem tailWS_isSome_all_ws (C : List Char) (hC : ∀ c ∈ C, isWS c = true) :
    tailWS C = some C.length := by
  unfold tailWS
  rw [List.takeWhile_eq_self_iff.mpr hC, if_pos rfl]

theorem tailWS_isSome_nl (C : List Char) (hC : ∀ c ∈ C, isWS c = true)
    (R : List Char) : ∃ k, tailWS (C ++ '\n' :: R) = some k := by
  unfold tailWS
  by_cases hlen : ((C ++ '\n' :: R).takeWhile isWS).length = (C ++ '\n' :: R).length
  · rw [if_pos hlen]
    exact ⟨_, rfl⟩
  · rw [if_neg hlen]
    have hmem : '\n' ∈ (C ++ '\n' :: R).takeWhile isWS := by
      rw [takeWhile_append_all isWS C _ hC, List.takeWhile_cons, if_pos (by decide)]
      exact List.mem_append.mpr (Or.inr (List.mem_cons_self _ _))
    obtain ⟨i, hi⟩ := lastNl_isSome_of_mem _ hmem
    rw [hi]
    exact ⟨i, rfl⟩

/-- Soundness of the own-header text matcher on a decomposed suffix. -/
theorem matchOwnCore_sound (lab : List Char) (hlab : lab ≠ [])
    (hlabws : ∀ c ∈ lab, isWS c = false)
    (A P W B D : List Char)
    (hA : ∀ c ∈ A, isWS c = true)
    (hP : P.map Char.toLower = String.toList "pasal")
    (hW : ∀ c ∈ W, isWS c = true) (hWne : W ≠ [])
    (hB : B.map Char.toLower = lab.map Char.toLower)
    (k : Nat) (hk : tailWS D = some k) :
    matchOwnCore lab (A ++ (P ++ (W ++ (B ++ D)))) =
      some (A.length + 5 + W.length + lab.length + k) := by
  have hPlen : P.length = 5 := by
    have := congrArg List.length hP
    rwa [List.length_map] at this
  have hPws : ∀ c ∈ P, isWS c = false := by
    intro c hc
    have hmem : c.toLower ∈ String.toList "pasal" := by
      rw [← hP]; exact List.mem_map_of_mem Char.toLower hc
    rw [← isWS_toLower]
    rcases List.mem_cons.mp hmem with he | hmem
    · rw [he]; decide
    rcases List.mem_cons.mp hmem with he | hmem
    · rw [he]; decide
    rcases List.mem_cons.mp hmem with he | hmem
    · rw [he]; decide
    rcases List.mem_cons.mp hmem with he | hmem
    · rw [he]; decide
    rcases List.mem_cons.mp hmem with he | hmem
    · rw [he]; decide
    · exact absurd hmem (List.not_mem_nil _)
  have hBws : ∀ c ∈ B, isWS c = false := by
    intro c hc
    have hmem : c.toLower ∈ lab.map Char.toLower := by
      rw [← hB]; exact List.mem_map_of_mem Char.toLower hc
    rw [List.mem_map] at hmem
    obtain ⟨d, hd, hde⟩ := hmem
    rw [← isWS_toLower, ← hde, isWS_toLower]
    exact hlabws d hd
  have hBlen : B.length = lab.length := by
    have := congrArg List.length hB
    rwa [List.length_map, List.length_map] at this
  have hBne : B ≠ [] := by
    intro hnil
    rw [hnil] at hBlen
    exact hlab (List.length_eq_zero.mp hBlen.symm)
  obtain ⟨p0, P', rfl⟩ : ∃ p0 P', P = p0 :: P' := by
    cases P with
    | nil => cases hPlen
    | cons a b => exact ⟨a, b, rfl⟩
  obtain ⟨b0, B', rfl⟩ : ∃ b0 B', B = b0 :: B' := by
    cases B with
    | nil => exact absurd rfl hBne
    | cons a b => exact ⟨a, b, rfl⟩
  have hp0 : isWS p0 = false := hPws p0 (List.mem_cons_self _ _)
  have hb0 : isWS b0 = false := hBws b0 (List.mem_cons_self _ _)
  have hw1 : (A ++ ((p0 :: P') ++ (W ++ ((b0 :: B') ++ D)))).takeWhile isWS = A := by
    rw [takeWhile_append_all isWS A _ hA, List.cons_append, List.takeWhile_cons,
      if_neg (by rw [hp0]; simp), List.append_nil]
  have hr1 : (A ++ ((p0 :: P') ++ (W ++ ((b0 :: B') ++ D)))).drop A.length =
      (p0 :: P') ++ (W ++ ((b0 :: B') ++ D)) := List.drop_left _ _
  have hci1 : ciStarts (String.toList "pasal")
      ((p0 :: P') ++ (W ++ ((b0 :: B') ++ D))) = true := by
    unfold ciStarts
    rw [show (String.toList "pasal").length = 5 from rfl, ← hPlen,
      List.take_left, hP]
    exact beq_self_eq_true _
  have hr2 : ((p0 :: P') ++ (W ++ ((b0 :: B') ++ D))).drop 5 =
      W ++ ((b0 :: B') ++ D) := by
    rw [← hPlen, List.drop_left]
  have htw : (W ++ ((b0 :: B') ++ D)).takeWhile isWS = W := by
    rw [takeWhile_append_all isWS W _ hW, List.cons_append, List.takeWhile_cons,
      if_neg (by rw [hb0]; simp), List.append_nil]
  have hr3 : (W ++ ((b0 :: B') ++ D)).drop W.length = (b0 :: B') ++ D :=
    List.drop_left _ _
  have hci2 : ciStarts (lab.map Char.toLower) ((b0 :: B') ++ D) = true := by
    unfold ciStarts
    rw [List.length_map, ← hBlen, List.take_left, hB]
    exact beq_self_eq_true _
  have hrD : ((b0 :: B') ++ D).drop lab.length = D := by
    rw [← hBlen, List.drop_left]
  simp only [matchOwnCore]
  rw [hw1, hr1, if_pos hci1, hr2, htw, hr3,
    if_neg (fun hz => hWne (List.length_eq_zero.mp hz)), if_pos hci2, hrD, hk]
  rfl

/-- A line matching the own-header pattern yields a text-level match at
the line's start. -/
theorem matchOwnCore_of_line (lab : List Char) (hlab : lab ≠ [])
    (hlabws : ∀ c ∈ lab, isWS c = false) (l : List Char)
    (h : ownHeaderLine lab (l.takeWhile fun c => ¬ c = '\n') = true) :
    ∃ n, matchOwnCore lab l = some n := by
  obtain ⟨A, P, W, B, C, hL, hA, hP, hW, hWne, hB, hC⟩ :=
    ownHeaderLine_decomp lab _ h
  have hdec : l = l.takeWhile (fun c => ¬ c = '\n') ++
      l.dropWhile (fun c => ¬ c = '\n') :=
    (List.takeWhile_append_dropWhile _ _).symm
  cases hR : l.dropWhile (fun c => ¬ c = '\n') with
  | nil =>
    have hleq : l = A ++ (P ++ (W ++ (B ++ C))) := by
      rw [hdec, hR, List.append_nil, hL]
    refine ⟨A.length + 5 + W.length + lab.length + C.length, ?_⟩
    rw [hleq]
    exact matchOwnCore_sound lab hlab hlabws A P W B C hA hP hW hWne hB
      C.length (tailWS_isSome_all_ws C hC)
  | cons r0 R' =>
    have hr0 : r0 = '\n' := by
      have := head?_dropWhile (fun c => ¬ c = '\n') l r0 (by rw [hR]; rfl)
      simpa using this
    subst hr0
    have hleq : l = A ++ (P ++ (W ++ (B ++ (C ++ '\n' :: R')))) := by
      rw [hdec, hR, hL]
      simp [List.append_assoc]
    obtain ⟨k, hk⟩ := tailWS_isSome_nl C hC R'
    refine ⟨A.length + 5 + W.length + lab.length + k, ?_⟩
    rw [hleq]
    exact matchOwnCore_sound lab hlab hlabws A P W B (C ++ '\n' :: R')
      hA hP hW hWne hB k hk

/-- A text-level own-header match consumes at least one character and
ends at the end of the text or immediately before a newline. -/
theorem matchOwnCore_end (lab l : List Char) (n : Nat)
    (h : matchOwnCore lab l = some n) :
    1 ≤ n ∧ n ≤ l.length ∧ (n = l.length ∨ l[n]? = some '\n') := by
  simp only [matchOwnCore] at h
  by_cases h1 : ciStarts (String.toList "pasal")
      (l.drop (l.takeWhile isWS).length) = true
  case neg => rw [if_neg h1] at h; cases h
  rw [if_pos h1] at h
  by_cases h2 : (((l.drop (l.takeWhile isWS).length).drop 5).takeWhile isWS).length = 0
  case pos => rw [if_pos h2] at h; cases h
  rw [if_neg h2] at h
  by_cases h3 : ciStarts (lab.map Char.toLower)
      (((l.drop (l.takeWhile isWS).length).drop 5).drop
        (((l.drop (l.takeWhile isWS).length).drop 5).takeWhile isWS).length) = true
  case neg => rw [if_neg h3] at h; cases h
  rw [if_pos h3, Option.map_eq_some'] at h
  obtain ⟨k, hk, hn⟩ := h
  have hw1le : (l.takeWhile isWS).length ≤ l.length := by
    have := congrArg List.length (List.takeWhile_append_dropWhile isWS l)
    rw [List.length_append] at this
    omega
  have hr1len : (l.drop (l.takeWhile isWS).length).length =
      l.length - (l.takeWhile isWS).length := List.length_drop _ _
  have hr1ge : 5 ≤ (l.drop (l.takeWhile isWS).length).length := by
    have hb := beq_iff_eq.mp h1
    have hlen := congrArg List.length hb
    rw [List.length_map, List.length_take,
      show (String.toList "pasal").length = 5 from rfl] at hlen
    omega
  have hw2le : (((l.drop (l.takeWhile isWS).length).drop 5).takeWhile isWS).length ≤
      ((l.drop (l.takeWhile isWS).length).drop 5).length := by
    have := congrArg List.length
      (List.takeWhile_append_dropWhile isWS ((l.drop (l.takeWhile isWS).length).drop 5))
    rw [List.length_append] at this
    omega
  have hr2len : ((l.drop (l.takeWhile isWS).length).drop 5).length =
      (l.drop (l.takeWhile isWS).length).length - 5 := List.length_drop _ _
  have hr3ge : lab.length ≤
      (((l.drop (l.takeWhile isWS).length).drop 5).drop
        (((l.drop (l.takeWhile isWS).length).drop 5).takeWhile isWS).length).length := by
    have hb := beq_iff_eq.mp h3
    have hlen := congrArg List.length hb
    rw [List.length_map, List.length_take, List.length_map] at hlen
    omega
  have hr3len : (((l.drop (l.takeWhile isWS).length).drop 5).drop
      (((l.drop (l.takeWhile isWS).length).drop 5).takeWhile isWS).length).length =
      ((l.drop (l.takeWhile isWS).length).drop 5).length -
        (((l.drop (l.takeWhile isWS).length).drop 5).takeWhile isWS).length :=
    List.length_drop _ _
  have hDdef : (((l.drop (l.takeWhile isWS).length).drop 5).drop
        (((l.drop (l.takeWhile isWS).length).drop 5).takeWhile isWS).length).drop
        lab.length =
      l.drop ((l.takeWhile isWS).length + 5 +
        (((l.drop (l.takeWhile isWS).length).drop 5).takeWhile isWS).length +
        lab.length) := by
    rw [List.drop_drop, List.drop_drop, List.drop_drop]
    congr 1
    omega
  have hDlen : ((((l.drop (l.takeWhile isWS).length).drop 5).drop
      (((l.drop (l.takeWhile isWS).length).drop 5).takeWhile isWS).length).drop
      lab.length).length =
      (((l.drop (l.takeWhile isWS).length).drop 5).drop
        (((l.drop (l.takeWhile isWS).length).drop 5).takeWhile isWS).length).length -
        lab.length := List.length_drop _ _
  unfold tailWS at hk
  by_cases hfull : ((((((l.drop (l.takeWhile isWS).length).drop 5).drop
      (((l.drop (l.takeWhile isWS).length).drop 5).takeWhile isWS).length).drop
      lab.length)).takeWhile isWS).length =
      ((((l.drop (l.takeWhile isWS).length).drop 5).drop
        (((l.drop (l.takeWhile isWS).length).drop 5).takeWhile isWS).length).drop
        lab.length).length
  · rw [if_pos hfull] at hk
    injection hk with hk
    refine ⟨by omega, by omega, Or.inl (by omega)⟩
  · rw [if_neg hfull] at hk
    cases hln : lastNl (((((l.drop (l.takeWhile isWS).length).drop 5).drop
        (((l.drop (l.takeWhile isWS).length).drop 5).takeWhile isWS).length).drop
        lab.length).takeWhile isWS) with
    | none => rw [hln] at hk; cases hk
    | some i =>
      rw [hln] at hk
      injection hk with hk
      subst hk
      obtain ⟨hilt, hinl⟩ := lastNl_spec _ i hln
      have hrunle : (((((l.drop (l.takeWhile isWS).length).drop 5).drop
          (((l.drop (l.takeWhile isWS).length).drop 5).takeWhile isWS).length).drop
          lab.length).takeWhile isWS).length ≤
          ((((l.drop (l.takeWhile isWS).length).drop 5).drop
            (((l.drop (l.takeWhile isWS).length).drop 5).takeWhile isWS).length).drop
            lab.length).length := by
        have := congrArg List.length
          (List.takeWhile_append_dropWhile isWS
            ((((l.drop (l.takeWhile isWS).length).drop 5).drop
              (((l.drop (l.takeWhile isWS).length).drop 5).takeWhile isWS).length).drop
              lab.length))
        rw [List.length_append] at this
        omega
      have hDnl : ((((l.drop (l.takeWhile isWS).length).drop 5).drop
          (((l.drop (l.takeWhile isWS).length).drop 5).takeWhile isWS).length).drop
          lab.length)[i]? = some '\n' := by
        rw [← List.takeWhile_append_dropWhile isWS
          ((((l.drop (l.takeWhile isWS).length).drop 5).drop
            (((l.drop (l.takeWhile isWS).length).drop 5).takeWhile isWS).length).drop
            lab.length), List.getElem?_append, if_pos hilt]
        exact hinl
      have hlnl : l[(l.takeWhile isWS).length + 5 +
          (((l.drop (l.takeWhile isWS).length).drop 5).takeWhile isWS).length +
          lab.length + i]? = some '\n' := by
        rw [← List.getElem?_drop, ← hDdef]
        exact hDnl
      refine ⟨by omega, by omega, Or.inr ?_⟩
      rw [← hn]
      have harr : (l.takeWhile isWS).length + 5 +
          (((l.drop (l.takeWhile isWS).length).drop 5).takeWhile isWS).length +
          lab.length + i =
          (l.takeWhile isWS).length + 5 +
            (((l.drop (l.takeWhile isWS).length).drop 5).takeWhile isWS).length +
            lab.length + i := rfl
    
      exact hlnl

theorem splitlines_no_nl_eq (x : List Char) (hx : '\n' ∉ x) (hne : x ≠ []) :
    splitlines x = [x] := by
  induction x with
  | nil => exact absurd rfl hne
  | cons c rest ih =>
    have hc : ¬ c = '\n' := fun he => hx (he ▸ List.mem_cons_self c rest)
    rw [splitlines_cons_of_ne c hc]
    cases hr : splitlines rest with
    | nil =>
      rw [(splitlines_eq_nil_iff rest).mp hr]
    | cons a as =>
      have hrne : rest ≠ [] := by
        intro he
        rw [he] at hr
        cases hr
      rw [ih (fun hm => hx (List.mem_cons_of_mem c hm)) hrne] at hr
      injection hr with h1 h2
      rw [h1, h2]

theorem splitlines_append_nl (pr rest : List Char) (hpr : '\n' ∉ pr) :
    splitlines (pr ++ '\n' :: rest) = pr :: splitlines rest := by
  induction pr with
  | nil => exact splitlines_nl rest
  | cons c pr ih =>
    have hc : ¬ c = '\n' := fun he => hpr (he ▸ List.mem_cons_self c pr)
    rw [List.cons_append, splitlines_cons_of_ne c hc,
      ih fun hm => hpr (List.mem_cons_of_mem c hm)]

theorem subRemoveFrom_zero (lab t : List Char) (p : Nat) :
    subRemoveFrom lab t 0 p = [] := rfl

theorem subRemoveFrom_succ_le (lab t : List Char) (fuel p : Nat)
    (h : t.length ≤ p) : subRemoveFrom lab t (fuel + 1) p = [] := by
  rw [show subRemoveFrom lab t (fuel + 1) p =
      if t.length ≤ p then []
      else
        match (if isLineStart t p then matchOwnCore lab (t.drop p) else none) with
        | some c => subRemoveFrom lab t fuel (p + max c 1)
        | none => t.getD p ' ' :: subRemoveFrom lab t fuel (p + 1) from rfl,
    if_pos h]

theorem subRemoveFrom_succ_match (lab t : List Char) (fuel p : Nat)
    (h : ¬ t.length ≤ p) (hls : isLineStart t p = true) (c : Nat)
    (hm : matchOwnCore lab (t.drop p) = some c) :
    subRemoveFrom lab t (fuel + 1) p = subRemoveFrom lab t fuel (p + max c 1) := by
  rw [show subRemoveFrom lab t (fuel + 1) p =
      if t.length ≤ p then []
      else
        match (if isLineStart t p then matchOwnCore lab (t.drop p) else none) with
        | some c => subRemoveFrom lab t fuel (p + max c 1)
        | none => t.getD p ' ' :: subRemoveFrom lab t fuel (p + 1) from rfl,
    if_neg h, if_pos hls, hm]

theorem subRemoveFrom_succ_keep_none (lab t : List Char) (fuel p : Nat)
    (h : ¬ t.length ≤ p) (hls : isLineStart t p = true)
    (hm : matchOwnCore lab (t.drop p) = none) :
    subRemoveFrom lab t (fuel + 1) p =
      t.getD p ' ' :: subRemoveFrom lab t fuel (p + 1) := by
  rw [show subRemoveFrom lab t (fuel + 1) p =
      if t.length ≤ p then []
      else
        match (if isLineStart t p then matchOwnCore lab (t.drop p) else none) with
        | some c => subRemoveFrom lab t fuel (p + max c 1)
        | none => t.getD p ' ' :: subRemoveFrom lab t fuel (p + 1) from rfl,
    if_neg h, if_pos hls, hm]

theorem subRemoveFrom_succ_keep_mid (lab t : List Char) (fuel p : Nat)
    (h : ¬ t.length ≤ p) (hls : isLineStart t p = false) :
    subRemoveFrom lab t (fuel + 1) p =
      t.getD p ' ' :: subRemoveFrom lab t fuel (p + 1) := by
  rw [show subRemoveFrom lab t (fuel + 1) p =
      if t.length ≤ p then []
      else
        match (if isLineStart t p then matchOwnCore lab (t.drop p) else none) with
        | some c => subRemoveFrom lab t fuel (p + max c 1)
        | none => t.getD p ' ' :: subRemoveFrom lab t fuel (p + 1) from rfl,
    if_neg h, if_neg (by rw [hls]; simp)]

theorem isLineStart_succ (t : List Char) (p : Nat) :
    isLineStart t (p + 1) = (t[p]? == some '\n') := by
  unfold isLineStart
  simp

/-- Scanning invariant of the own-header `re.sub`: starting from any
position, with the already-kept part of the current line in `pr`, no
line of the output matches the own-header pattern. -/
theorem subRemoveFrom_no_own (lab t : List Char) (hlab : lab ≠ [])
    (hlabws : ∀ c ∈ lab, isWS c = false) :
    ∀ (fuel : Nat), ∀ (p : Nat) (pr : List Char),
      t.length + 1 ≤ fuel + p → '\n' ∉ pr →
      (isLineStart t p = true → pr = []) →
      (isLineStart t p = false →
        ownHeaderLine lab (pr ++ (t.drop p).takeWhile (fun c => ¬ c = '\n')) = false) →
      ∀ ln ∈ splitlines (pr ++ subRemoveFrom lab t fuel p),
        ownHeaderLine lab ln = false := by
  intro fuel
  induction fuel with
  | zero =>
    intro p pr hfp hnl h1 h2 ln hln
    rw [subRemoveFrom_zero, List.append_nil] at hln
    cases hls : isLineStart t p with
    | true =>
      rw [h1 hls] at hln
      exact absurd hln (List.not_mem_nil ln)
    | false =>
      have hdrop : t.drop p = [] := List.drop_eq_nil_of_le (by omega)
      have hfail := h2 hls
      rw [hdrop] at hfail
      simp only [List.takeWhile_nil, List.append_nil] at hfail
      cases hpr : pr with
      | nil => rw [hpr] at hln; exact absurd hln (List.not_mem_nil ln)
      | cons a as =>
        rw [splitlines_no_nl_eq pr hnl (by rw [hpr]; intro hc; cases hc)] at hln
        rcases List.mem_singleton.mp hln with rfl
        exact hfail
  | succ fuel ih =>
    intro p pr hfp hnl h1 h2 ln hln
    by_cases hle : t.length ≤ p
    · rw [subRemoveFrom_succ_le lab t fuel p hle, List.append_nil] at hln
      cases hls : isLineStart t p with
      | true =>
        rw [h1 hls] at hln
        exact absurd hln (List.not_mem_nil ln)
      | false =>
        have hdrop : t.drop p = [] := List.drop_eq_nil_of_le hle
        have hfail := h2 hls
        rw [hdrop] at hfail
        simp only [List.takeWhile_nil, List.append_nil] at hfail
        cases hpr : pr with
        | nil => rw [hpr] at hln; exact absurd hln (List.not_mem_nil ln)
        | cons a as =>
          rw [splitlines_no_nl_eq pr hnl (by rw [hpr]; intro hc; cases hc)] at hln
          rcases List.mem_singleton.mp hln with rfl
          exact hfail
    · have hplen : p < t.length := by omega
      have hget : t.getD p ' ' = t[p] := by
        rw [List.getD_eq_getElem?_getD, List.getElem?_eq_getElem hplen]
        rfl
      have hdropc : t.drop p = t[p] :: t.drop (p + 1) :=
        List.drop_eq_getElem_cons hplen
      cases hls : isLineStart t p with
      | true =>
        have hpre : pr = [] := h1 hls
        subst hpre
        cases hm : matchOwnCore lab (t.drop p) with
        | some c =>
          rw [subRemoveFrom_succ_match lab t fuel p hle hls c hm] at hln
          obtain ⟨hc1, hc2, hc3⟩ := matchOwnCore_end lab (t.drop p) c hm
          rw [List.length_drop] at hc2 hc3
          have hmax : max c 1 = c := by omega
          rw [hmax] at hln
          refine ih (p + c) [] (by omega) (List.not_mem_nil _)
            (fun _ => rfl) ?_ ln hln
          intro hlsf
          rcases hc3 with hc3 | hc3
          · have : t.drop (p + c) = [] := List.drop_eq_nil_of_le (by omega)
            rw [this]
            simp only [List.takeWhile_nil, List.nil_append]
            exact ownHeaderLine_nil lab
          · rw [List.getElem?_drop] at hc3
            have hlt : p + c < t.length := by
              by_contra hcon
              rw [List.getElem?_eq_none (by omega)] at hc3
              cases hc3
            have : t.drop (p + c) = '\n' :: t.drop (p + c + 1) := by
              rw [List.drop_eq_getElem_cons hlt]
              have : t[p + c] = '\n' := by
                have := List.getElem?_eq_getElem hlt
                rw [this] at hc3
                injection hc3
              rw [this]
            rw [this, List.takeWhile_cons, if_neg (by simp)]
            simp only [List.nil_append]
            exact ownHeaderLine_nil lab
        | none =>
          rw [subRemoveFrom_succ_keep_none lab t fuel p hle hls hm, hget] at hln
          have hline : ownHeaderLine lab
              ((t.drop p).takeWhile (fun c => ¬ c = '\n')) = false := by
            by_contra hcon
            rw [Bool.not_eq_false] at hcon
            obtain ⟨n, hn⟩ := matchOwnCore_of_line lab hlab hlabws (t.drop p) hcon
            rw [hm] at hn
            cases hn
          by_cases hnlc : t[p] = '\n'
          · rw [List.nil_append, hnlc, splitlines_nl] at hln
            rcases List.mem_cons.mp hln with rfl | hln2
            · exact ownHeaderLine_nil lab
            · refine ih (p + 1) [] (by omega) (List.not_mem_nil _)
                (fun _ => rfl) ?_ ln (by rw [List.nil_append]; exact hln2)
              intro hlsf
              rw [isLineStart_succ, List.getElem?_eq_getElem hplen, hnlc] at hlsf
              simp at hlsf
          · rw [List.nil_append] at hln
            have hln2 : ln ∈ splitlines ([t[p]] ++ subRemoveFrom lab t fuel (p + 1)) := by
              simpa using hln
            refine ih (p + 1) [t[p]] (by omega) ?_ ?_ ?_ ln hln2
            · intro hmem
              exact hnlc (List.mem_singleton.mp hmem).symm
            · intro hlst
              rw [isLineStart_succ, List.getElem?_eq_getElem hplen] at hlst
              rw [beq_iff_eq] at hlst
              injection hlst with hlst
              exact absurd hlst hnlc
            · intro hlsf
              have : [t[p]] ++ (t.drop (p + 1)).takeWhile (fun c => ¬ c = '\n') =
                  (t.drop p).takeWhile (fun c => ¬ c = '\n') := by
                rw [hdropc, List.takeWhile_cons, if_pos (by simp [hnlc])]
                rfl
              rw [this]
              exact hline
      | false =>
        rw [subRemoveFrom_succ_keep_mid lab t fuel p hle hls, hget] at hln
        have hfail := h2 hls
        by_cases hnlc : t[p] = '\n'
        · have hemp : (t.drop p).takeWhile (fun c => ¬ c = '\n') = [] := by
            rw [hdropc, List.takeWhile_cons, if_neg (by simp [hnlc])]
          rw [hemp, List.append_nil] at hfail
          rw [hnlc, splitlines_append_nl pr _ hnl] at hln
          rcases List.mem_cons.mp hln with rfl | hln2
          · exact hfail
          · refine ih (p + 1) [] (by omega) (List.not_mem_nil _)
              (fun _ => rfl) ?_ ln (by rw [List.nil_append]; exact hln2)
            intro hlsf
            rw [isLineStart_succ, List.getElem?_eq_getElem hplen, hnlc] at hlsf
            simp at hlsf
        · have hln2 : ln ∈ splitlines ((pr ++ [t[p]]) ++ subRemoveFrom lab t fuel (p + 1)) := by
            rw [List.append_assoc]
            simpa using hln
          refine ih (p + 1) (pr ++ [t[p]]) (by omega) ?_ ?_ ?_ ln hln2
          · intro hmem
            rcases List.mem_append.mp hmem with hmem | hmem
            · exact hnl hmem
            · exact hnlc (List.mem_singleton.mp hmem).symm
          · intro hlst
            rw [isLineStart_succ, List.getElem?_eq_getElem hplen] at hlst
            rw [beq_iff_eq] at hlst
            injection hlst with hlst
            exact absurd hlst hnlc
          · intro hlsf
            have : (pr ++ [t[p]]) ++ (t.drop (p + 1)).takeWhile (fun c => ¬ c = '\n') =
                pr ++ (t.drop p).takeWhile (fun c => ¬ c = '\n') := by
              rw [hdropc, List.takeWhile_cons, if_pos (by simp [hnlc]), List.append_assoc]
              rfl
            rw [this]
            exact hfail

/-- No line of the own-header `re.sub` output matches the own-header
pattern. -/
theorem subRemoveOwn_no_own (lab body : List Char) (hlab : lab ≠ [])
    (hlabws : ∀ c ∈ lab, isWS c = false) :
    ∀ ln ∈ splitlines (subRemoveOwn lab body), ownHeaderLine lab ln = false := by
  intro ln hln
  refine subRemoveFrom_no_own lab body hlab hlabws (body.length + 1) 0 []
    (by omega) (List.not_mem_nil _) (fun _ => rfl) ?_ ln
    (by rw [List.nil_append]; exact hln)
  intro hlsf
  rw [show isLineStart body 0 = true from rfl] at hlsf
  cases hlsf

theorem noOwn_lstrip (lab : List Char) :
    ∀ x : List Char,
      (∀ ln ∈ splitlines x, ownHeaderLine lab ln = false) →
      ∀ ln ∈ splitlines (lstrip x), ownHeaderLine lab ln = false := by
  intro x
  induction x with
  | nil => intro h ln hln; exact h ln hln
  | cons c r ih =>
    intro h
    by_cases hws : isWS c = true
    · have hstep : lstrip (c :: r) = lstrip r := by
        unfold lstrip
        rw [List.dropWhile_cons, if_pos hws]
      rw [hstep]
      refine ih ?_
      by_cases hc : c = '\n'
      · intro ln hln
        refine h ln ?_
        rw [hc, splitlines_nl]
        exact List.mem_cons_of_mem _ hln
      · intro ln hln
        cases hr : splitlines r with
        | nil => rw [hr] at hln; exact absurd hln (List.not_mem_nil ln)
        | cons a as =>
          rw [hr] at hln
          rcases List.mem_cons.mp hln with rfl | hln2
          · have := h (c :: ln) (by
              rw [splitlines_cons_of_ne c hc, hr]
              exact List.mem_cons_self _ _)
            rwa [ownHeaderLine_ws_cons lab c ln hws] at this
          · refine h ln ?_
            rw [splitlines_cons_of_ne c hc, hr]
            exact List.mem_cons_of_mem _ hln2
    · have hstep : lstrip (c :: r) = c :: r := by
        unfold lstrip
        rw [List.dropWhile_cons, if_neg hws]
      rw [hstep]
      exact h

theorem splitlines_append_ws (w : List Char) (hw : ∀ c ∈ w, isWS c = true) :
    ∀ A : List Char, A = [] ∨
      ∃ tl L0 v extra, splitlines A = tl ++ [L0] ∧
        (∀ c ∈ v, isWS c = true) ∧
        (∀ l ∈ extra, ∀ c ∈ l, isWS c = true) ∧
        splitlines (A ++ w) = tl ++ (L0 ++ v) :: extra := by
  intro A
  induction A with
  | nil => exact Or.inl rfl
  | cons c A ih =>
    right
    by_cases hc : c = '\n'
    · subst hc
      rcases ih with rfl | ⟨tl, L0, v, extra, he1, hv, hex, he2⟩
      · refine ⟨[], [], [], splitlines w, by rw [splitlines_nl]; rfl,
          fun c hc => absurd hc (List.not_mem_nil c), ?_, ?_⟩
        · intro l hl c hcl
          exact hw c (mem_of_mem_splitlines w l c hl hcl)
        · rw [List.nil_append, List.cons_append, List.nil_append, splitlines_nl]
          rfl
      · refine ⟨[] :: tl, L0, v, extra, ?_, hv, hex, ?_⟩
        · rw [splitlines_nl, he1]
          rfl
        · rw [List.cons_append, splitlines_nl, he2]
          rfl
    · rcases ih with rfl | ⟨tl, L0, v, extra, he1, hv, hex, he2⟩
      · cases hwl : splitlines w with
        | nil =>
          have hwnil : w = [] := (splitlines_eq_nil_iff w).mp hwl
          subst hwnil
          exact ⟨[], [c], [], [], by rw [splitlines_cons_of_ne c hc]; rfl,
            fun x hx => absurd hx (List.not_mem_nil x),
            fun l hl => absurd hl (List.not_mem_nil l),
            by rw [List.append_nil, splitlines_cons_of_ne c hc]; rfl⟩
        | cons a as =>
          refine ⟨[], [c], a, as, by rw [splitlines_cons_of_ne c hc]; rfl, ?_, ?_, ?_⟩
          · intro x hx
            exact hw x (mem_of_mem_splitlines w a x (by rw [hwl]; exact List.mem_cons_self _ _) hx)
          · intro l hl x hx
            exact hw x (mem_of_mem_splitlines w l x
              (by rw [hwl]; exact List.mem_cons_of_mem _ hl) hx)
          · simp only [List.nil_append, List.cons_append]
            rw [splitlines_cons_of_ne c hc, hwl]
      · have hAne : A ≠ [] := by
          intro he
          rw [he] at he1
          cases tl with
          | nil => cases he1
          | cons x xs => rw [List.cons_append] at he1; cases he1
        have hAlines : splitlines A ≠ [] := by
          rw [he1]
          cases tl with
          | nil => intro hcon; cases hcon
          | cons x xs => rw [List.cons_append]; intro hcon; cases hcon
        cases htl : tl with
        | nil =>
          rw [htl, List.nil_append] at he1 he2
          refine ⟨[], c :: L0, v, extra, ?_, hv, hex, ?_⟩
          · rw [splitlines_cons_of_ne c hc, he1]
            rfl
          · rw [List.cons_append, splitlines_cons_of_ne c hc, he2]
            rfl
        | cons d tl2 =>
          rw [htl] at he1 he2
          refine ⟨(c :: d) :: tl2, L0, v, extra, ?_, hv, hex, ?_⟩
          · rw [splitlines_cons_of_ne c hc, he1]
            rfl
          · rw [List.cons_append, splitlines_cons_of_ne c hc, he2]
            rfl

theorem noOwn_rstrip (lab : List Char) (hlab : lab ≠ [])
    (hlabws : ∀ c ∈ lab, isWS c = false) (x : List Char)
    (h : ∀ ln ∈ splitlines x, ownHeaderLine lab ln = false) :
    ∀ ln ∈ splitlines (rstrip x), ownHeaderLine lab ln = false := by
  obtain ⟨w, hx, hw⟩ := rstrip_decomp x
  rcases splitlines_append_ws w hw (rstrip x) with he | ⟨tl, L0, v, extra, he1, hv, hex, he2⟩
  · rw [he]
    intro ln hln
    exact absurd hln (List.not_mem_nil ln)
  · rw [← hx] at he2
    intro ln hln
    rw [he1] at hln
    rcases List.mem_append.mp hln with hln | hln
    · refine h ln ?_
      rw [he2]
      exact List.mem_append.mpr (Or.inl hln)
    · rcases List.mem_singleton.mp hln with rfl
      have hfull : ownHeaderLine lab (ln ++ v) = false := by
        refine h (ln ++ v) ?_
        rw [he2]
        exact List.mem_append.mpr (Or.inr (List.mem_cons_self _ _))
      by_contra hcon
      rw [Bool.not_eq_false] at hcon
      rw [ownHeaderLine_append_ws lab hlab hlabws ln v hv hcon] at hfull
      cases hfull

theorem noOwn_pstrip (lab : List Char) (hlab : lab ≠ [])
    (hlabws : ∀ c ∈ lab, isWS c = false) (x : List Char)
    (h : ∀ ln ∈ splitlines x, ownHeaderLine lab ln = false) :
    ∀ ln ∈ splitlines (pstrip x), ownHeaderLine lab ln = false := by
  unfold pstrip
  exact noOwn_lstrip lab (rstrip x) (noOwn_rstrip lab hlab hlabws x h)

theorem chGo_cons_ht_true (c : Char) (r : List Char) (hc : isHT c = true) :
    chGo true (c :: r) = chGo true r := by
  simp [chGo, hc]

theorem chGo_cons_ht_false (c : Char) (r : List Char) (hc : isHT c = true) :
    chGo false (c :: r) = ' ' :: chGo true r := by
  simp [chGo, hc]

theorem chGo_cons_not (b : Bool) (c : Char) (r : List Char) (hc : isHT c = false) :
    chGo b (c :: r) = c :: chGo false r := by
  simp [chGo, hc]

theorem chGo_false_eq_nil (r : List Char) : chGo false r = [] ↔ r = [] := by
  constructor
  · intro h
    cases r with
    | nil => rfl
    | cons c rest =>
      by_cases hc : isHT c = true
      · rw [chGo_cons_ht_false c rest hc] at h
        cases h
      · rw [chGo_cons_not false c rest (by simpa using hc)] at h
        cases h
  · intro h; rw [h]; rfl

theorem chGo_true_eq_nil (r : List Char) :
    chGo true r = [] ↔ ∀ c ∈ r, isHT c = true := by
  induction r with
  | nil => exact ⟨fun _ c hc => absurd hc (List.not_mem_nil c), fun _ => rfl⟩
  | cons c rest ih =>
    by_cases hc : isHT c = true
    · rw [chGo_cons_ht_true c rest hc, ih]
      constructor
      · intro h x hx
        rcases List.mem_cons.mp hx with rfl | hx2
        · exact hc
        · exact h x hx2
      · intro h x hx
        exact h x (List.mem_cons_of_mem c hx)
    · rw [chGo_cons_not true c rest (by simpa using hc)]
      constructor
      · intro h; cases h
      · intro h
        exact absurd (h c (List.mem_cons_self c rest)) hc

theorem chGo_dropWhile (l : List Char) :
    ∀ b : Bool, (chGo b l).dropWhile isWS = chGo false (l.dropWhile isWS) := by
  induction l with
  | nil => intro b; cases b <;> rfl
  | cons c r ih =>
    intro b
    by_cases hht : isHT c = true
    · have hws : isWS c = true := isWS_of_isHT c hht
      rw [List.dropWhile_cons, if_pos hws]
      cases b with
      | true =>
        rw [chGo_cons_ht_true c r hht]
        exact ih true
      | false =>
        rw [chGo_cons_ht_false c r hht, List.dropWhile_cons,
          if_pos (by decide)]
        exact ih true
    · rw [chGo_cons_not b c r (by simpa using hht)]
      by_cases hws : isWS c = true
      · have hnl : c = '\n' := by
          have := isHT_of_isWS_ne_nl c hws
          by_contra hcon
          exact absurd (this hcon) (by simpa using hht)
      
        rw [List.dropWhile_cons, if_pos hws, List.dropWhile_cons, if_pos hws]
        exact ih false
      · rw [List.dropWhile_cons, if_neg hws, List.dropWhile_cons, if_neg hws,
          chGo_cons_not false c r (by simpa using hht)]

theorem chGo_take_map_toLower (kw : List Char) (hkw : ∀ k ∈ kw, isHT k = false) :
    ∀ l : List Char,
      (((chGo false l).take kw.length).map Char.toLower = kw ↔
        (l.take kw.length).map Char.toLower = kw) := by
  induction kw with
  | nil => intro l; simp
  | cons k kw ih =>
    intro l
    have hk : isHT k = false := hkw k (List.mem_cons_self k kw)
    cases l with
    | nil => rfl
    | cons c r =>
      by_cases hht : isHT c = true
      · rw [chGo_cons_ht_false c r hht]
        have hlow : Char.toLower c = c := by
          rcases Bool.or_eq_true_iff.mp hht with he | he
          · rw [beq_iff_eq] at he; rw [he]; decide
          · rw [beq_iff_eq] at he; rw [he]; decide
        constructor
        · intro h
          rw [List.length_cons, List.take_succ_cons, List.map_cons] at h
          injection h with h1 h2
          exfalso
          rw [show Char.toLower ' ' = ' ' from by decide] at h1
          rw [← h1] at hk
          exact absurd hk (by decide)
        · intro h
          rw [List.length_cons, List.take_succ_cons, List.map_cons] at h
          injection h with h1 h2
          exfalso
          rw [hlow] at h1
          rw [← h1] at hk
          exact absurd hht (by rw [hk]; intro hcon; cases hcon)
      · rw [chGo_cons_not false c r (by simpa using hht)]
        rw [List.length_cons, List.take_succ_cons, List.take_succ_cons,
          List.map_cons, List.map_cons]
        constructor
        · intro h
          injection h with h1 h2
          rw [h1, (ih (fun x hx => hkw x (List.mem_cons_of_mem k hx)) r).mp h2]
        · intro h
          injection h with h1 h2
          rw [h1, (ih (fun x hx => hkw x (List.mem_cons_of_mem k hx)) r).mpr h2]

theorem ciStarts_chGo (kw : List Char) (hkw : ∀ k ∈ kw, isHT k = false)
    (l : List Char) : ciStarts kw (chGo false l) = ciStarts kw l := by
  unfold ciStarts
  rw [Bool.eq_iff_iff, beq_iff_eq, beq_iff_eq]
  exact chGo_take_map_toLower kw hkw l

theorem chGo_take_nonHT : ∀ (n : Nat) (l : List Char),
    (∀ c ∈ l.take n, isHT c = false) →
    chGo false l = l.take n ++ chGo false (l.drop n) := by
  intro n
  induction n with
  | zero => intro l _; rfl
  | succ n ih =>
    intro l hl
    cases l with
    | nil => rfl
    | cons c r =>
      rw [List.take_succ_cons] at hl
      have hc : isHT c = false := hl c (List.mem_cons_self _ _)
      rw [chGo_cons_not false c r hc, List.take_succ_cons, List.drop_succ_cons,
        List.cons_append, ih r fun x hx => hl x (List.mem_cons_of_mem c hx)]

theorem chGo_all_isWS (l : List Char) :
    ∀ b : Bool, (chGo b l).all isWS = l.all isWS := by
  induction l with
  | nil => intro b; cases b <;> rfl
  | cons c r ih =>
    intro b
    by_cases hht : isHT c = true
    · have hws : isWS c = true := isWS_of_isHT c hht
      cases b with
      | true =>
        rw [chGo_cons_ht_true c r hht, List.all_cons, hws, Bool.true_and]
        exact ih true
      | false =>
        rw [chGo_cons_ht_false c r hht, List.all_cons, List.all_cons, hws,
          show isWS ' ' = true from rfl, Bool.true_and, Bool.true_and]
        exact ih true
    · rw [chGo_cons_not b c r (by simpa using hht), List.all_cons, List.all_cons]
      rw [ih false]

theorem chGo_takeWhile_ws_nil (l : List Char) :
    ((chGo false l).takeWhile isWS = [] ↔ l.takeWhile isWS = []) := by
  cases l with
  | nil => rfl
  | cons c r =>
    by_cases hht : isHT c = true
    · have hws : isWS c = true := isWS_of_isHT c hht
      rw [chGo_cons_ht_false c r hht, List.takeWhile_cons, if_pos (by decide),
        List.takeWhile_cons, if_pos hws]
      constructor <;> (intro h; cases h)
    · rw [chGo_cons_not false c r (by simpa using hht)]
      by_cases hws : isWS c = true
      · rw [List.takeWhile_cons, if_pos hws, List.takeWhile_cons, if_pos hws]
        constructor <;> (intro h; cases h)
      · rw [List.takeWhile_cons, if_neg hws, List.takeWhile_cons, if_neg hws]

/-- Collapsing horizontal-whitespace runs preserves the own-header-line
predicate. -/
theorem ownHeaderLine_chGo (lab : List Char)
    (hlabws : ∀ c ∈ lab, isWS c = false) (ln : List Char) :
    ownHeaderLine lab (chGo false ln) = ownHeaderLine lab ln := by
  have hkwP : ∀ k ∈ String.toList "pasal", isHT k = false := by decide
  have hkwB : ∀ k ∈ lab.map Char.toLower, isHT k = false := by
    intro k hk
    rw [List.mem_map] at hk
    obtain ⟨d, hd, hde⟩ := hk
    rw [← hde, isHT_toLower]
    have hws := hlabws d hd
    cases hht : isHT d
    · rfl
    · rw [isWS_of_isHT d hht] at hws
      cases hws
  simp only [ownHeaderLine]
  rw [chGo_dropWhile ln false]
  rw [ciStarts_chGo _ hkwP (ln.dropWhile isWS)]
  by_cases h1 : ciStarts (String.toList "pasal") (ln.dropWhile isWS) = true
  case neg => rw [if_neg h1, if_neg h1]
  rw [if_pos h1, if_pos h1]
  have htl : ((ln.dropWhile isWS).take 5).map Char.toLower = String.toList "pasal" := by
    have hb := beq_iff_eq.mp h1
    rwa [show (String.toList "pasal").length = 5 from rfl] at hb
  have htlen : ((ln.dropWhile isWS).take 5).length = 5 := by
    have := congrArg List.length htl
    rwa [List.length_map] at this
  have hPws : ∀ c ∈ (ln.dropWhile isWS).take 5, isHT c = false := by
    intro c hc
    have hmem : c.toLower ∈ String.toList "pasal" := by
      rw [← htl]; exact List.mem_map_of_mem Char.toLower hc
    rw [← isHT_toLower]
    rcases List.mem_cons.mp hmem with he | hmem
    · rw [he]; decide
    rcases List.mem_cons.mp hmem with he | hmem
    · rw [he]; decide
    rcases List.mem_cons.mp hmem with he | hmem
    · rw [he]; decide
    rcases List.mem_cons.mp hmem with he | hmem
    · rw [he]; decide
    rcases List.mem_cons.mp hmem with he | hmem
    · rw [he]; decide
    · exact absurd hmem (List.not_mem_nil _)
  have hgen : ∀ (A B : List Char) (n : Nat), A.length = n → (A ++ B).drop n = B := by
    intro A B n h
    rw [← h, List.drop_left]
  have hdrop5 : (chGo false (ln.dropWhile isWS)).drop 5 =
      chGo false ((ln.dropWhile isWS).drop 5) := by
    rw [chGo_take_nonHT 5 (ln.dropWhile isWS) hPws]
    exact hgen _ _ 5 htlen
  rw [hdrop5]
  by_cases h2 : (((ln.dropWhile isWS).drop 5).takeWhile isWS).length = 0
  · have h2b : ((chGo false ((ln.dropWhile isWS).drop 5)).takeWhile isWS).length = 0 := by
      rw [List.length_eq_zero] at h2 ⊢
      exact (chGo_takeWhile_ws_nil _).mpr h2
    rw [if_pos h2, if_pos h2b]
  · have h2b : ¬ ((chGo false ((ln.dropWhile isWS).drop 5)).takeWhile isWS).length = 0 := by
      intro hcon
      rw [List.length_eq_zero] at hcon
      exact h2 (List.length_eq_zero.mpr ((chGo_takeWhile_ws_nil _).mp hcon))
    rw [if_neg h2, if_neg h2b]
    rw [chGo_dropWhile ((ln.dropWhile isWS).drop 5) false]
    rw [ciStarts_chGo _ hkwB (((ln.dropWhile isWS).drop 5).dropWhile isWS)]
    by_cases h3 : ciStarts (lab.map Char.toLower)
        (((ln.dropWhile isWS).drop 5).dropWhile isWS) = true
    case neg =>
      rw [Bool.not_eq_true] at h3
      rw [h3, Bool.false_and, Bool.false_and]
    rw [h3, Bool.true_and, Bool.true_and]
    have htlB : ((((ln.dropWhile isWS).drop 5).dropWhile isWS).take lab.length).map
        Char.toLower = lab.map Char.toLower := by
      have hb := beq_iff_eq.mp h3
      rwa [List.length_map] at hb
    have htlenB : ((((ln.dropWhile isWS).drop 5).dropWhile isWS).take lab.length).length =
        lab.length := by
      have := congrArg List.length htlB
      rwa [List.length_map, List.length_map] at this
    have hBws : ∀ c ∈ (((ln.dropWhile isWS).drop 5).dropWhile isWS).take lab.length,
        isHT c = false := by
      intro c hc
      have hmem : c.toLower ∈ lab.map Char.toLower := by
        rw [← htlB]; exact List.mem_map_of_mem Char.toLower hc
      rw [← isHT_toLower]
      exact hkwB _ hmem
    have hdropB : (chGo false (((ln.dropWhile isWS).drop 5).dropWhile isWS)).drop
        lab.length = chGo false ((((ln.dropWhile isWS).drop 5).dropWhile isWS).drop
          lab.length) := by
      rw [chGo_take_nonHT lab.length _ hBws]
      exact hgen _ _ lab.length htlenB
    rw [hdropB, chGo_all_isWS]


theorem splitlines_chGo : ∀ (l : List Char) (b : Bool),
    splitlines (chGo b l) =
        (match splitlines l with
          | [] => []
          | h :: tl => chGo b h :: tl.map (chGo false)) ∨
      (splitlines (chGo b l) = [] ∧ b = true) := by
  intro l
  induction l with
  | nil => intro b; left; rfl
  | cons c r ih =>
    intro b
    by_cases hht : isHT c = true
    · have hcnl : ¬ c = '\n' := by
        intro he
        rw [he] at hht
        cases hht
      cases b with
      | false =>
        rw [chGo_cons_ht_false c r hht]
        cases hlt : splitlines (chGo true r) with
        | nil =>
          have hctr : chGo true r = [] := (splitlines_eq_nil_iff _).mp hlt
          have hallht : ∀ x ∈ r, isHT x = true := (chGo_true_eq_nil r).mp hctr
          have hnonl : '\n' ∉ c :: r := by
            intro hm
            rcases List.mem_cons.mp hm with he | hm2
            · exact hcnl he.symm
            · have := hallht '\n' hm2
              cases this
          left
          rw [splitlines_no_nl_eq (c :: r) hnonl (by intro hcon; cases hcon)]
          rw [splitlines_cons_of_ne ' ' (by decide), hlt]
          show [[' ']] = [chGo false (c :: r)]
          rw [chGo_cons_ht_false c r hht, hctr]
        | cons h1 t1 =>
          rcases ih true with hleft | ⟨hnil, -⟩
          · rw [hleft] at hlt
            cases hr : splitlines r with
            | nil => rw [hr] at hlt; cases hlt
            | cons h tl =>
              rw [hr] at hlt
              left
              rw [splitlines_cons_of_ne ' ' (by decide), hleft, hr,
                splitlines_cons_of_ne c hcnl, hr]
              show (' ' :: chGo true h) :: tl.map (chGo false) =
                chGo false (c :: h) :: tl.map (chGo false)
              rw [chGo_cons_ht_false c h hht]
          · rw [hnil] at hlt; cases hlt
      | true =>
        rw [chGo_cons_ht_true c r hht]
        rcases ih true with hleft | ⟨hnil, -⟩
        · cases hr : splitlines r with
          | nil =>
            have hrnil : r = [] := (splitlines_eq_nil_iff r).mp hr
            subst hrnil
            right
            exact ⟨rfl, rfl⟩
          | cons h tl =>
            left
            rw [hleft, hr, splitlines_cons_of_ne c hcnl, hr]
            show chGo true h :: tl.map (chGo false) =
              chGo true (c :: h) :: tl.map (chGo false)
            rw [chGo_cons_ht_true c h hht]
        · right; exact ⟨hnil, rfl⟩
    · by_cases hcnl : c = '\n'
      · subst hcnl
        rw [chGo_cons_not b '\n' r (by decide), splitlines_nl]
        rcases ih false with hleft | ⟨-, hcon⟩
        · cases hr : splitlines r with
          | nil =>
            have hrnil : r = [] := (splitlines_eq_nil_iff r).mp hr
            subst hrnil
            left
            rw [splitlines_nl]
            show ([] : List Char) :: splitlines (chGo false []) =
              chGo b [] :: ([] : List (List Char)).map (chGo false)
            cases b <;> rfl
          | cons h tl =>
            left
            rw [hleft, hr, splitlines_nl, hr]
            show ([] : List Char) :: chGo false h :: tl.map (chGo false) =
              chGo b [] :: (h :: tl).map (chGo false)
            cases b <;> rfl
        · cases hcon
      · rw [chGo_cons_not b c r (by simpa using hht),
          splitlines_cons_of_ne c hcnl, splitlines_cons_of_ne c hcnl]
        rcases ih false with hleft | ⟨-, hcon⟩
        · cases hr : splitlines r with
          | nil =>
            have hrnil : r = [] := (splitlines_eq_nil_iff r).mp hr
            subst hrnil
            left
            rw [show splitlines (chGo false ([] : List Char)) = [] from rfl]
            show [[c]] = [chGo b [c]]
            rw [chGo_cons_not b c [] (by simpa using hht)]
            rfl
          | cons h tl =>
            left
            rw [hleft, hr]
            show (c :: chGo false h) :: tl.map (chGo false) =
              chGo b (c :: h) :: tl.map (chGo false)
            rw [chGo_cons_not b c h (by simpa using hht)]
        · cases hcon

theorem noOwn_collapseHT1 (lab : List Char)
    (hlabws : ∀ c ∈ lab, isWS c = false) (x : List Char)
    (h : ∀ ln ∈ splitlines x, ownHeaderLine lab ln = false) :
    ∀ ln ∈ splitlines (collapseHT1 x), ownHeaderLine lab ln = false := by
  intro ln hln
  rw [show collapseHT1 x = chGo false x from rfl] at hln
  rcases splitlines_chGo x false with hleft | ⟨-, hcon⟩
  case inr => cases hcon
  rw [hleft] at hln
  cases hsx : splitlines x with
  | nil =>
    rw [hsx] at hln
    exact absurd hln (List.not_mem_nil ln)
  | cons hd tl =>
    rw [hsx] at hln
    rcases List.mem_cons.mp hln with rfl | hln2
    · rw [ownHeaderLine_chGo lab hlabws hd]
      exact h hd (by rw [hsx]; exact List.mem_cons_self _ _)
    · rw [List.mem_map] at hln2
      obtain ⟨y, hy, rfl⟩ := hln2
      rw [ownHeaderLine_chGo lab hlabws y]
      exact h y (by rw [hsx]; exact List.mem_cons_of_mem _ hy)

theorem isWS_false_of_digit (c : Char) (h : c.isDigit = true) : isWS c = false := by
  cases hws : isWS c
  · rfl
  · exfalso
    simp only [isWS, isHT, isNl, Bool.or_eq_true_iff, beq_iff_eq] at hws
    rcases hws with (rfl | rfl) | rfl <;> exact absurd h (by decide)

theorem isWS_false_of_alpha (c : Char) (h : c.isAlpha = true) : isWS c = false := by
  cases hws : isWS c
  · rfl
  · exfalso
    simp only [isWS, isHT, isNl, Bool.or_eq_true_iff, beq_iff_eq] at hws
    rcases hws with (rfl | rfl) | rfl <;> exact absurd h (by decide)

theorem isWS_false_of_roman (c : Char) (h : isRomanM c = true) : isWS c = false := by
  rw [← isWS_toLower]
  simp only [isRomanM, Bool.or_eq_true_iff, beq_iff_eq] at h
  rcases h with ((((h | h) | h) | h) | h) | h <;> (rw [h]; decide)

/-- The label captured by a `PASAL_ANY_RE` match is nonempty and free of
whitespace. -/
theorem matchPasalCore_label (l : List Char) (n : Nat) (lab : List Char)
    (h : matchPasalCore l = some (n, lab)) :
    lab ≠ [] ∧ ∀ c ∈ lab, isWS c = false := by
  simp only [matchPasalCore] at h
  split at h
  rotate_left
  · cases h
  split at h
  · cases h
  split at h
  · cases h
  rename_i c r3t heq
  rw [heq] at h
  split at h
  · rename_i hdig
    have hds : (c :: r3t).takeWhile Char.isDigit = c :: r3t.takeWhile Char.isDigit := by
      rw [List.takeWhile_cons, if_pos hdig]
    split at h
    · rename_i d r5 hr4
      split at h
      · rename_i halpha
        rw [Option.map_eq_some'] at h
        obtain ⟨k, -, hlabeq⟩ := h
        have hle : lab = (c :: r3t).takeWhile Char.isDigit ++ [d] :=
          (congrArg Prod.snd hlabeq).symm
        subst hle
        refine ⟨(by rw [hds]; intro hcon; cases hcon), ?_⟩
        intro x hx
        rcases List.mem_append.mp hx with hx2 | hx2
        · rw [hds] at hx2
          rcases List.mem_cons.mp hx2 with rfl | hx3
          · exact isWS_false_of_digit x hdig
          · exact isWS_false_of_digit x (List.mem_takeWhile_imp hx3)
        · rcases List.mem_singleton.mp hx2 with rfl
          exact isWS_false_of_alpha x halpha
      · rw [Option.map_eq_some'] at h
        obtain ⟨k, -, hlabeq⟩ := h
        have hle : lab = (c :: r3t).takeWhile Char.isDigit :=
          (congrArg Prod.snd hlabeq).symm
        subst hle
        refine ⟨(by rw [hds]; intro hcon; cases hcon), ?_⟩
        intro x hx
        rw [hds] at hx
        rcases List.mem_cons.mp hx with rfl | hx2
        · exact isWS_false_of_digit x hdig
        · exact isWS_false_of_digit x (List.mem_takeWhile_imp hx2)
    · rw [Option.map_eq_some'] at h
      obtain ⟨k, -, hlabeq⟩ := h
      have hle : lab = (c :: r3t).takeWhile Char.isDigit :=
        (congrArg Prod.snd hlabeq).symm
      subst hle
      refine ⟨(by rw [hds]; intro hcon; cases hcon), ?_⟩
      intro x hx
      rw [hds] at hx
      rcases List.mem_cons.mp hx with rfl | hx2
      · exact isWS_false_of_digit x hdig
      · exact isWS_false_of_digit x (List.mem_takeWhile_imp hx2)
  · split at h
    · rename_i hdig hrom
      rw [Option.map_eq_some'] at h
      obtain ⟨k, -, hlabeq⟩ := h
      have hle : lab = (c :: r3t).takeWhile isRomanM :=
        (congrArg Prod.snd hlabeq).symm
      subst hle
      have hrs : (c :: r3t).takeWhile isRomanM = c :: r3t.takeWhile isRomanM := by
        rw [List.takeWhile_cons, if_pos hrom]
      refine ⟨(by rw [hrs]; intro hcon; cases hcon), ?_⟩
      intro x hx
      rw [hrs] at hx
      rcases List.mem_cons.mp hx with rfl | hx2
      · exact isWS_false_of_roman x hrom
      · exact isWS_false_of_roman x (List.mem_takeWhile_imp hx2)
    · cases h

theorem pasalMatchAt_label (t : List Char) (p c : Nat) (lab : List Char)
    (h : pasalMatchAt t p = some (c, lab)) :
    lab ≠ [] ∧ ∀ x ∈ lab, isWS x = false := by
  unfold pasalMatchAt at h
  by_cases hls : isLineStart t p = true
  · rw [if_pos hls] at h
    exact matchPasalCore_label (t.drop p) c lab h
  · rw [if_neg hls] at h
    cases h

theorem findPasalsFrom_label (t : List Char) :
    ∀ (fuel p : Nat) (s e : Nat) (lab : List Char),
      (s, e, lab) ∈ findPasalsFrom t fuel p →
      lab ≠ [] ∧ ∀ x ∈ lab, isWS x = false := by
  intro fuel
  induction fuel with
  | zero =>
    intro p s e lab hm
    exact absurd hm (List.not_mem_nil _)
  | succ f ih =>
    intro p s e lab hm
    by_cases hp : t.length ≤ p
    · rw [findPasalsFrom_succ_of_le t f p hp] at hm
      exact absurd hm (List.not_mem_nil _)
    · cases hpm : pasalMatchAt t p with
      | some cl =>
        obtain ⟨c, lab2⟩ := cl
        rw [findPasalsFrom_succ_of_match t f p c lab2 hp hpm] at hm
        rcases List.mem_cons.mp hm with he | hm2
        · injection he with he1 he2
          injection he2 with he3 he4
          subst he4
          exact pasalMatchAt_label t p c lab hpm
        · exact ih (p + max c 1) s e lab hm2
      | none =>
        rw [findPasalsFrom_succ_of_none t f p hp hpm] at hm
        exact ih (p + 1) s e lab hm

theorem pasalMatches_label (t : List Char) (s e : Nat) (lab : List Char)
    (h : (s, e, lab) ∈ pasalMatches t) :
    lab ≠ [] ∧ ∀ x ∈ lab, isWS x = false :=
  findPasalsFrom_label t (t.length + 1) 0 s e lab h

theorem pstrip_eq_self_of_nonws (lab : List Char)
    (hlabws : ∀ c ∈ lab, isWS c = false) : pstrip lab = lab := by
  refine pstrip_eq_self lab ?_ ?_
  · intro c hc
    have : c ∈ lab := by
      cases lab with
      | nil => cases hc
      | cons a as =>
        rw [List.head?_cons] at hc
        injection hc with hc
        rw [← hc]
        exact List.mem_cons_self _ _
    exact hlabws c this
  · intro c hc
    exact hlabws c (List.mem_of_mem_getLast? hc)

theorem mem_blocksFrom_full (t : List Char) (bk bb bg : List (Nat × Tag)) :
    ∀ (ms : List (Nat × Nat × List Char)) (blk : Block),
      blk ∈ blocksFrom t bk bb bg ms →
      ∃ s me lab e, (s, me, lab) ∈ ms ∧ blk.pasal_number = pstrip lab ∧
        blk.text = blockBody t s e lab := by
  intro ms
  induction ms with
  | nil => intro blk h; exact absurd h (List.not_mem_nil blk)
  | cons m rest ih =>
    intro blk h
    obtain ⟨s, me, lab⟩ := m
    rcases List.mem_cons.mp h with rfl | h2
    · exact ⟨s, me, lab, nextStart t rest, List.mem_cons_self _ _, rfl, rfl⟩
    · obtain ⟨s2, me2, lab2, e2, hmem, h1, h2⟩ := ih blk h2
      exact ⟨s2, me2, lab2, e2, List.mem_cons_of_mem _ hmem, h1, h2⟩

/-- C6 counterexample: the embedded cross-reference line
`"lihat  Pasal 2 dst"` (two spaces) is a line of the source text, but no
line of the block's cleaned body equals it — its horizontal whitespace
was collapsed, so cross-reference lines are not left unchanged. -/
theorem C6_counterexample :
    (detect_structure (String.toList "Pasal 1\nlihat  Pasal 2 dst")).map Block.text =
        [String.toList "lihat Pasal 2 dst"] ∧
      String.toList "lihat  Pasal 2 dst" ∈
        splitlines (String.toList "Pasal 1\nlihat  Pasal 2 dst") ∧
      ¬ String.toList "lihat  Pasal 2 dst" ∈
        splitlines (String.toList "lihat Pasal 2 dst") := by decide

/-- C6 (amended): no line of a block's cleaned body matches the
own-header pattern — the article keyword followed by the block's own
label, case-insensitively, with surrounding blank space.  (Lines
mentioning other labels are kept, but not verbatim: their
horizontal-whitespace runs are collapsed, as the counterexample
shows.) -/
theorem C6_no_own_header_line (t : List Char) (blk : Block)
    (h : blk ∈ detect_structure t) :
    ∀ ln ∈ splitlines blk.text, ownHeaderLine blk.pasal_number ln = false := by
  obtain ⟨s, me, lab, e, hmem, hpn, htext⟩ :=
    mem_blocksFrom_full t _ _ _ (pasalMatches t) blk h
  obtain ⟨hlab, hlabws⟩ := pasalMatches_label t s me lab hmem
  have hpneq : blk.pasal_number = lab := by
    rw [hpn, pstrip_eq_self_of_nonws lab hlabws]
  rw [hpneq, htext]
  unfold blockBody
  exact noOwn_collapseHT1 lab hlabws _
    (noOwn_pstrip lab hlab hlabws _
      (subRemoveOwn_no_own lab _ hlab hlabws))

/-- The single block detected in the C6 counterexample text. -/
def c6blk : Block :=
  ⟨['1'], String.toList "lihat Pasal 2 dst", none, none, none⟩

/-- C6 witness: the amended statement instantiated on the block detected
in `"Pasal 1\nlihat  Pasal 2 dst"`. -/
theorem C6_witness :
    c6blk ∈ detect_structure (String.toList "Pasal 1\nlihat  Pasal 2 dst") ∧
      ∀ ln ∈ splitlines c6blk.text,
        ownHeaderLine c6blk.pasal_number ln = false :=
  ⟨by decide,
    C6_no_own_header_line (String.toList "Pasal 1\nlihat  Pasal 2 dst") c6blk
      (by decide)⟩
